import Mathlib

/-!
Verification of the nonogram engine (clue/arrangement codec, constraint
propagation + backtracking solver, SAT-encoding model, per-line deduction,
information-flow simulator, puzzle generator).

All definitions are shallow embeddings of the JavaScript sources:
`src/utils/clues.js`, `src/utils/hints.js` (which also holds the
backtracking `countSolutions` from `src/utils/solver.js`),
`src/utils/satSolver.js`, `src/utils/lineAnalysis.js` (both revisions),
`src/utils/informationFlow.js` and `src/utils/puzzleGenerator.js`.
JavaScript `null`-able cell values become `Option Bool`, grids become
`List (List (Option Bool))`, JS numbers become `Nat`/`Int`/`ℚ` as
appropriate, and the two unbounded recursions (the propagation fixpoint
loop and the backtracking search) are run on explicit fuel that provably
dominates their JS iteration counts.
-/

namespace Nonogram

/-! ## LineClueCodec: src/utils/clues.js -/

/-- Embedding of the scanning loop of `getCluesFromLine` (clues.js lines
2-17): `count` is the length of the current run of filled cells; a run is
emitted when a non-filled cell or the end of the line is reached. -/
def cluesAux : List Bool → Nat → List Nat
  | [], count => if 0 < count then [count] else []
  | b :: rest, count =>
      if b then cluesAux rest (count + 1)
      else if 0 < count then count :: cluesAux rest 0
      else cluesAux rest 0

/-- Embedding of `getCluesFromLine` (clues.js): run-length encoding of the
filled cells of a fully-known line; `[0]` when there is no filled cell. -/
def getCluesFromLine (line : List Bool) : List Nat :=
  let cs := cluesAux line 0
  if cs = [] then [0] else cs

/-- Embedding of `remainingClues.reduce((a, b) => a + b + 1, 0)` inside
`generateArrangements` (clues.js line 37): space needed by the remaining
clues, one separating gap in front of each. -/
def gapSpace (clues : List Nat) : Nat :=
  clues.foldl (fun a b => a + b + 1) 0

/-- Embedding of the recursive `generate(clueIdx, pos, current)` closure of
`generateArrangements` (clues.js lines 27-47).  The JS loop
`for (start = pos; start <= maxStart; start++)` becomes a `flatMap` over
`List.range'`; `maxStart` is computed in `Int` because the JS value may be
negative (in which case the loop body never runs). -/
def generateAux (len : Nat) : List Nat → Nat → List Bool → List (List Bool)
  | [], _pos, current => [current ++ List.replicate (len - current.length) false]
  | clue :: rest, pos, current =>
      let minSpaceNeeded := gapSpace rest
      let maxStart : Int := (len : Int) - (clue : Int) - (minSpaceNeeded : Int)
      (List.range' pos (maxStart + 1 - (pos : Int)).toNat).flatMap fun start =>
        let next := current ++ List.replicate (start - current.length) false
            ++ List.replicate clue true
            ++ (if rest = [] then [] else [false])
        generateAux len rest next.length next

/-- Embedding of `generateArrangements(clues, length)` (clues.js lines
20-51): all boolean lines of length `length` realizing `clues`; the
sentinel clue list `[0]` yields the single all-empty line.  The identical
private copy in satSolver.js lines 16-47 is embedded by this same
definition. -/
def generateArrangements (clues : List Nat) (len : Nat) : List (List Bool) :=
  if clues = [0] then [List.replicate len false]
  else generateAux len clues 0 []

/-- Specification-side restatement of the recursion of `generateAux`: the
suffixes that `generateAux` appends after `current`, with the clue run for
start position `s` laid out as padding, run, separator.  Used to factor the
`current` accumulator out of the induction. -/
def tails (len : Nat) : List Nat → Nat → List (List Bool)
  | [], pos => [List.replicate (len - pos) false]
  | clue :: rest, pos =>
      (List.range' pos
          (((len : Int) - (clue : Int) - (gapSpace rest : Int)) + 1 - (pos : Int)).toNat).flatMap
        fun start =>
          (tails len rest (start + clue + (if rest = [] then 0 else 1))).map fun t =>
            List.replicate (start - pos) false ++ List.replicate clue true
              ++ (if rest = [] then [] else [false]) ++ t

/-- A clue list as the data model allows it: the `[0]` sentinel or a
nonempty list of positive run lengths. -/
def ValidClues (clues : List Nat) : Prop :=
  clues = [0] ∨ (clues ≠ [] ∧ ∀ x ∈ clues, 0 < x)

/-! ## ConstraintPropagationSolver: `countSolutions` of hints.js lines
105-191 (the backtracking revision of solver.js, the one §4.2 of the spec
describes; the propagation-only historical revision is in part_004). -/

/-- Cell of a working grid: `none` is the JS `null` (unknown cell). -/
abbrev Cell := Option Bool

/-- A working grid, row-major. -/
abbrev Grid := List (List Cell)

/-- Embedding of the arrangement filter predicate
`line.every((cell, i) => cell === null || cell === arr[i])` used by every
`getValidArrangements` in the sources.  (The player-grid variant
`cell === null || (cell === 1 ? arr[i] : !arr[i])` of hints.js and
lineAnalysis.js is the same function once player marks `1`/`0` are read as
`some true`/`some false`.) -/
def lineCompatible : List Cell → List Bool → Bool
  | [], [] => true
  | none :: l, _ :: a => lineCompatible l a
  | some b :: l, a :: as => (b == a) && lineCompatible l as
  | _, _ => false

/-- Embedding of the local `getValidArrangements(clues, line)` closures:
all arrangements of the clue list at the line's length that agree with the
line's already-known cells. -/
def getValidArrangements (clues : List Nat) (line : List Cell) : List (List Bool) :=
  (generateArrangements clues line.length).filter (lineCompatible line)

/-- Embedding of the assignment loop run on one line inside `propagate`
(hints.js lines 125-132 and 140-147): each still-unknown position on which
all compatible arrangements agree is assigned that value. -/
def forceLine (valid : List (List Bool)) (line : List Cell) : List Cell :=
  (List.range line.length).map fun c =>
    match line.getD c none with
    | none =>
        if valid.all (fun arr => arr.getD c false == true) then some true
        else if valid.all (fun arr => arr.getD c false == false) then some false
        else none
    | some b => some b

/-- One line of the propagation pass: `none` models `propagate` returning
`false` on a line with no compatible arrangement (a contradiction). -/
def processLine (clues : List Nat) (line : List Cell) : Option (List Cell) :=
  let valid := getValidArrangements clues line
  if valid = [] then none else some (forceLine valid line)

/-- Read cell `(r, c)` of a grid (out-of-range reads as unknown). -/
def gridGet (g : Grid) (r c : Nat) : Cell := (g.getD r []).getD c none

/-- Embedding of the JS assignment `grid[r][c] = v`. -/
def setCell (g : Grid) (r c : Nat) (v : Cell) : Grid :=
  g.set r ((g.getD r []).set c v)

/-- Embedding of `grid.map(row => row[c])`: column `c` as a line. -/
def getCol (g : Grid) (c : Nat) : List Cell := g.map (fun row => row.getD c none)

/-- Write a full column back into the grid (the JS pass mutates the cells
of column `c` in place; unchanged positions are rewritten with their old
value, which is a no-op). -/
def writeCol (g : Grid) (c : Nat) (col : List Cell) : Grid :=
  List.zipWith (fun row v => row.set c v) g col

/-- The row half of one `propagate` pass (hints.js lines 120-133), rows
processed in order on the evolving grid; the changed flag records whether
some assignment happened, which for one line is exactly the line having
changed. -/
def rowsGo (rowClues : List (List Nat)) : List Nat → Grid → Bool → Option (Grid × Bool)
  | [], g, ch => some (g, ch)
  | r :: rs, g, ch =>
      match processLine (rowClues.getD r []) (g.getD r []) with
      | none => none
      | some row1 => rowsGo rowClues rs (g.set r row1) (ch || !(row1 == g.getD r []))

/-- The column half of one `propagate` pass (hints.js lines 135-148). -/
def colsGo (colClues : List (List Nat)) : List Nat → Grid → Bool → Option (Grid × Bool)
  | [], g, ch => some (g, ch)
  | c :: cs, g, ch =>
      match processLine (colClues.getD c []) (getCol g c) with
      | none => none
      | some col1 => colsGo colClues cs (writeCol g c col1) (ch || !(col1 == getCol g c))

/-- One full iteration of the `while (changed)` body of `propagate`. -/
def onePass (rowClues colClues : List (List Nat)) (n : Nat) (g : Grid) :
    Option (Grid × Bool) :=
  match rowsGo rowClues (List.range n) g false with
  | none => none
  | some (g1, ch1) => colsGo colClues (List.range n) g1 ch1

/-- Embedding of `propagate` (hints.js lines 115-151).  The JS loop is
unbounded; it is run here on explicit fuel, and
`propagateLoop_fuel_sufficient` below shows that the `n * n + 1` fuel the
solver passes can never run out, because every continuing pass assigns at
least one of the at most `n * n` unknown cells. -/
def propagateLoop (rowClues colClues : List (List Nat)) (n : Nat) :
    Nat → Grid → Option Grid
  | 0, g => some g
  | fuel + 1, g =>
      match onePass rowClues colClues n g with
      | none => none
      | some (g1, ch) =>
          if ch then propagateLoop rowClues colClues n fuel g1 else some g1

/-- First unknown position of a line. -/
def firstUnknownRow : List Cell → Option Nat
  | [] => none
  | none :: _ => some 0
  | some _ :: rest => (firstUnknownRow rest).map (· + 1)

/-- Embedding of the row-major search `for r { for c { if grid[r][c] ===
null ... } }` of `solve` (hints.js lines 156-158). -/
def firstUnknown : Grid → Option (Nat × Nat)
  | [] => none
  | row :: rest =>
      match firstUnknownRow row with
      | some c => some (0, c)
      | none => (firstUnknown rest).map (fun p => (p.1 + 1, p.2))

/-- Read a fully-assigned row as booleans; a JS `null` surviving to the
validation would be read as falsy by `getCluesFromLine`, hence `getD
false`. -/
def boolRow (row : List Cell) : List Bool := row.map (fun cell => cell.getD false)

/-- Embedding of the final validation of `solve` (hints.js lines 178-187):
recompute every row and column clue of the fully-assigned grid and compare
with the targets.  The JS comparison `a.join(',') !== b.join(',')` on
lists of natural numbers holds exactly when the lists differ, which is how
it is embedded. -/
def validate (rowClues colClues : List (List Nat)) (n : Nat) (g : Grid) : Bool :=
  ((List.range n).all fun r =>
    getCluesFromLine (boolRow (g.getD r [])) == rowClues.getD r []) &&
  ((List.range n).all fun c =>
    getCluesFromLine (boolRow (getCol g c)) == colClues.getD c [])

/-- Embedding of the recursive `solve` (hints.js lines 153-188): propagate,
then either split on the first unknown cell (keeping the count capped the
way the JS early return and `Math.min(count, 2)` do) or validate the full
grid.  The JS recursion depth is bounded by the number of unknown cells,
so fuel `n * n + 1` from `countSolutions` provably suffices
(`solveAux_correct`). -/
def solveAux (rowClues colClues : List (List Nat)) (n : Nat) : Nat → Grid → Nat
  | 0, _ => 0
  | fuel + 1, g =>
      match propagateLoop rowClues colClues n (n * n + 1) g with
      | none => 0
      | some g1 =>
          match firstUnknown g1 with
          | some (r, c) =>
              let ct := solveAux rowClues colClues n fuel (setCell g1 r c (some true))
              if 1 < ct then ct
              else Nat.min (ct + solveAux rowClues colClues n fuel (setCell g1 r c (some false))) 2
          | none => if validate rowClues colClues n g1 then 1 else 0

/-- The all-unknown working grid `countSolutions` starts from. -/
def emptyGrid (n : Nat) : Grid := List.replicate n (List.replicate n none)

/-- Embedding of `countSolutions(rowClues, colClues, size)` (hints.js lines
105-191). -/
def countSolutions (rowClues colClues : List (List Nat)) (n : Nat) : Nat :=
  solveAux rowClues colClues n (n * n + 1) (emptyGrid n)

/-! ## Ground truth: the set of solution grids -/

/-- All length-`k` lists over the given alphabet. -/
def tuples {α : Type} (xs : List α) : Nat → List (List α)
  | 0 => [[]]
  | k + 1 => xs.flatMap fun x => (tuples xs k).map (x :: ·)

/-- All boolean lines of length `n`. -/
def allLines (n : Nat) : List (List Bool) := tuples [false, true] n

/-- All `n × n` boolean grids (every candidate solution). -/
def allGrids (n : Nat) : List (List (List Bool)) := tuples (allLines n) n

/-- Column `c` of a boolean grid. -/
def bcol (g : List (List Bool)) (c : Nat) : List Bool :=
  g.map (fun row => row.getD c false)

/-- A boolean grid reproduces all the given row and column clues. -/
def isSolution (rowClues colClues : List (List Nat)) (n : Nat)
    (g : List (List Bool)) : Bool :=
  ((List.range n).all fun r => getCluesFromLine (g.getD r []) == rowClues.getD r []) &&
  ((List.range n).all fun c => getCluesFromLine (bcol g c) == colClues.getD c [])

/-- The number of distinct boolean grids whose rows and columns reproduce
the clues (`allGrids` is duplicate-free and complete, see
`allGrids_nodup` and `mem_allGrids`). -/
def numSolutions (rowClues colClues : List (List Nat)) (n : Nat) : Nat :=
  ((allGrids n).filter (isSolution rowClues colClues n)).length

/-- The boolean grid agrees with every already-known cell of the working
grid. -/
def extendsB (n : Nat) (g : Grid) (sol : List (List Bool)) : Bool :=
  (List.range n).all fun r => (List.range n).all fun c =>
    match gridGet g r c with
    | none => true
    | some b => (sol.getD r []).getD c false == b

/-- Number of solutions extending the partial working grid. -/
def extCount (rowClues colClues : List (List Nat)) (n : Nat) (g : Grid) : Nat :=
  ((allGrids n).filter fun s =>
    isSolution rowClues colClues n s && extendsB n g s).length

/-! ## BooleanSatisfiabilitySolver: satSolver.js.

The clause encoding (`encodeLineConstraint`, satSolver.js lines 56-115) is
embedded as a satisfaction predicate over explicit assignments: one boolean
per cell plus, for each line with at least two arrangements, one selector
boolean per arrangement.  The external `logic-solver` library itself is not
repository code; it is modelled from the spec (§4.3) as an ideal
solve-then-block solver, so `countSolutionsSAT` returns the number of
satisfying assignments of the instance, capped at 2. -/

/-- Modelled from the spec: `Logic.exactlyOne(...arrVars)` (the missing
logic-solver combinator) holds when exactly one of the variables is true. -/
def exactlyOneB (sel : List Bool) : Bool := sel.count true == 1

/-- Value of `Logic.or(...filledInArrangements)` under an assignment: some
selected arrangement fills position `i`. -/
def orSelected (sel : List Bool) (arrs : List (List Bool)) (i : Nat) : Bool :=
  (List.zip sel arrs).any fun p => p.1 && p.2.getD i false

/-- Satisfaction of the constraints emitted by `encodeLineConstraint`
(satSolver.js lines 56-115) for one line: `lv` holds the line's cell
values, `sel` its selector variables (none are created when the line has
fewer than two arrangements).  No arrangement requires `Logic.FALSE`
(never satisfied); a single arrangement fixes every cell; otherwise
exactly one selector is true and each cell is either fixed (when all
arrangements agree on it) or equivalent to the disjunction of the
selectors of the arrangements filling it. -/
def lineEncSat (clues : List Nat) (len : Nat) (lv : List Bool) (sel : List Bool) : Bool :=
  match generateArrangements clues len with
  | [] => false
  | [a] => (List.range len).all fun i => lv.getD i false == a.getD i false
  | arrs =>
      exactlyOneB sel &&
      ((List.range len).all fun i =>
        let filledCount := arrs.countP (fun a => a.getD i false)
        if filledCount = 0 then !(lv.getD i false)
        else if filledCount = arrs.length then lv.getD i false
        else lv.getD i false == orSelected sel arrs i)

/-- Number of selector variables `encodeLineConstraint` creates for a
line. -/
def selLen (clues : List Nat) (len : Nat) : Nat :=
  let k := (generateArrangements clues len).length
  if k ≤ 1 then 0 else k

/-- All selector assignments for one line. -/
def selSpace (clues : List Nat) (len : Nat) : List (List Bool) :=
  tuples [false, true] (selLen clues len)

/-- The selector assignment that picks exactly arrangement `j` out of `k`. -/
def indicatorSel (k j : Nat) : List Bool := (List.replicate k false).set j true

/-- All sequences of choices, one from each listed space. -/
def piSpace {α : Type} : List (List α) → List (List α)
  | [] => [[]]
  | xs :: rest => xs.flatMap fun x => (piSpace rest).map (x :: ·)

/-- Pairwise satisfaction of a list of per-line predicates by a list of
per-line selector assignments. -/
def satAll : List (List Bool → Bool) → List (List Bool) → Bool
  | [], [] => true
  | p :: ps, s :: ss => p s && satAll ps ss
  | _, _ => false

/-- The per-row encoding predicates of the instance, as functions of the
row's selector assignment (cells fixed to the candidate grid). -/
def rowPreds (rowClues : List (List Nat)) (n : Nat) (cells : List (List Bool)) :
    List (List Bool → Bool) :=
  (List.range n).map fun r => lineEncSat (rowClues.getD r []) n (cells.getD r [])

/-- The per-column encoding predicates of the instance. -/
def colPreds (colClues : List (List Nat)) (n : Nat) (cells : List (List Bool)) :
    List (List Bool → Bool) :=
  (List.range n).map fun c => lineEncSat (colClues.getD c []) n (bcol cells c)

/-- Selector spaces of all rows. -/
def rowSelSpaces (rowClues : List (List Nat)) (n : Nat) : List (List (List Bool)) :=
  (List.range n).map fun r => selSpace (rowClues.getD r []) n

/-- Selector spaces of all columns. -/
def colSelSpaces (colClues : List (List Nat)) (n : Nat) : List (List (List Bool)) :=
  (List.range n).map fun c => selSpace (colClues.getD c []) n

/-- One full assignment of the SAT instance: the cell grid and the row and
column selector assignments. -/
abbrev SatAssignment := List (List Bool) × List (List Bool) × List (List Bool)

/-- Every assignment of the instance's variables. -/
def allAssignments (rowClues colClues : List (List Nat)) (n : Nat) :
    List SatAssignment :=
  (allGrids n).flatMap fun cells =>
    (piSpace (rowSelSpaces rowClues n)).flatMap fun sr =>
      (piSpace (colSelSpaces colClues n)).map fun sc => (cells, sr, sc)

/-- An assignment satisfies every row and column line constraint. -/
def satisfiesEnc (rowClues colClues : List (List Nat)) (n : Nat)
    (a : SatAssignment) : Bool :=
  satAll (rowPreds rowClues n a.1) a.2.1 && satAll (colPreds colClues n a.1) a.2.2

/-- Number of satisfying assignments of the SAT instance built by
`countSolutionsSAT` (satSolver.js lines 121-145). -/
def modelCount (rowClues colClues : List (List Nat)) (n : Nat) : Nat :=
  (allAssignments rowClues colClues n).countP (satisfiesEnc rowClues colClues n)

/-- Modelled from the spec (§4.3): the missing logic-solver backend is an
ideal solve-then-block solver, so `countSolutionsSAT` (satSolver.js lines
121-163) returns 0 when the instance is unsatisfiable, 1 when it has
exactly one satisfying assignment (the blocking clause of the first model
makes the second solve fail), and 2 otherwise. -/
def countSolutionsSAT (rowClues colClues : List (List Nat)) (n : Nat) : Nat :=
  min (modelCount rowClues colClues n) 2

/-! ## LineDeductionAnalyzer: lineAnalysis.js.

Player grids reuse `Cell`: the JS values `1` (filled), `0` (marked empty)
and `null` (unknown) become `some true`, `some false` and `none`.  Both
revisions of the file are embedded: the current one whose
`findCellsToMark` propagates outward from filled groups, and the earlier
one that marks every forced-empty cell. -/

/-- A maximal run of player-filled cells (`findGroups`, lineAnalysis.js
lines 4-21).  The JS field `end` is a reserved word in Lean and is named
`stop` here. -/
structure LineGroup where
  start : Nat
  stop : Nat
  size : Nat
deriving Repr, DecidableEq

/-- Embedding of the scan of `findGroups`: `i` is the current index, the
accumulator the start of the group currently open. -/
def findGroupsAux : List Cell → Nat → Option Nat → List LineGroup
  | [], _, none => []
  | [], i, some s => [⟨s, i - 1, i - s⟩]
  | cell :: rest, i, acc =>
      if cell == some true then
        match acc with
        | none => findGroupsAux rest (i + 1) (some i)
        | some s => findGroupsAux rest (i + 1) (some s)
      else
        match acc with
        | none => findGroupsAux rest (i + 1) none
        | some s => ⟨s, i - 1, i - s⟩ :: findGroupsAux rest (i + 1) none

/-- Embedding of `findGroups(line)` (lineAnalysis.js lines 4-21). -/
def findGroups (line : List Cell) : List LineGroup := findGroupsAux line 0 none

/-- The `mustBeEmpty[i]` array of `findCellsToMark` (lineAnalysis.js lines
40-45): the cell is unknown and every compatible arrangement leaves it
empty. -/
def mustBeEmptyAt (line : List Cell) (valid : List (List Bool)) (i : Nat) : Bool :=
  (line.getD i none == none) && valid.all fun a => !(a.getD i false)

/-- The `allCluesSatisfied` test of `findCellsToMark` (lineAnalysis.js
lines 36-37): as many filled groups as clues, with matching sizes. -/
def allCluesSatisfied (line : List Cell) (clues : List Nat) : Bool :=
  let groups := findGroups line
  groups.length == clues.length &&
    (List.zip groups clues).all fun p => p.1.size == p.2

/-- The leftward walk of `findCellsToMark` (lineAnalysis.js lines 63-70):
starting just below a group, collect unknown forced-empty cells until the
first cell that is neither. -/
def walkLeft (line : List Cell) (valid : List (List Bool)) : Nat → List Nat
  | 0 => []
  | i + 1 =>
      if (line.getD i none == none) && mustBeEmptyAt line valid i then
        i :: walkLeft line valid i
      else []

/-- The rightward walk of `findCellsToMark` (lineAnalysis.js lines 72-79),
run on fuel that dominates the remaining line length. -/
def walkRight (line : List Cell) (valid : List (List Bool)) (len : Nat) :
    Nat → Nat → List Nat
  | 0, _ => []
  | fuel + 1, i =>
      if i < len then
        if (line.getD i none == none) && mustBeEmptyAt line valid i then
          i :: walkRight line valid len fuel (i + 1)
        else []
      else []

/-- Embedding of `findCellsToMark(line, validArrangements, clues)` of the
current lineAnalysis.js (lines 32-90): when the filled groups exactly
satisfy the clues every unknown forced-empty cell is marked, otherwise
forced-empty unknowns are marked only while propagating outward from a
filled group (the JS boolean `toMark` array makes the result an increasing
index list either way). -/
def findCellsToMark (line : List Cell) (valid : List (List Bool)) (clues : List Nat) :
    List Nat :=
  if allCluesSatisfied line clues then
    (List.range line.length).filter fun i =>
      (line.getD i none == none) && mustBeEmptyAt line valid i
  else
    let marked := (findGroups line).flatMap fun gr =>
      walkLeft line valid gr.start ++
        walkRight line valid line.length line.length (gr.stop + 1)
    (List.range line.length).filter fun i => marked.contains i

/-- A group of an arrangement (`getGroupsFromArrangement` pushes only
`start` and `end`). -/
structure Span where
  start : Nat
  stop : Nat
deriving Repr, DecidableEq, BEq

/-- Embedding of the scan of `getGroupsFromArrangement` (lineAnalysis.js
lines 93-110). -/
def arrGroupsAux : List Bool → Nat → Option Nat → List Span
  | [], _, none => []
  | [], i, some s => [⟨s, i - 1⟩]
  | b :: rest, i, acc =>
      if b then
        match acc with
        | none => arrGroupsAux rest (i + 1) (some i)
        | some s => arrGroupsAux rest (i + 1) (some s)
      else
        match acc with
        | none => arrGroupsAux rest (i + 1) none
        | some s => ⟨s, i - 1⟩ :: arrGroupsAux rest (i + 1) none

/-- Embedding of `getGroupsFromArrangement(arrangement)` (lineAnalysis.js
lines 93-110). -/
def getGroupsFromArrangement (arr : List Bool) : List Span :=
  arrGroupsAux arr 0 none

/-- The body of the `findCompletedClues` loop for one clue index
(lineAnalysis.js lines 124-159): all compatible arrangements place the
clue's group at the same span, that span is bounded by an edge or an
explicit empty mark on both sides, and the player has filled all of it. -/
def clueCompletedAt (line : List Cell) (valid : List (List Bool)) (clueIdx : Nat) :
    Bool :=
  let firstGroups := getGroupsFromArrangement (valid.getD 0 [])
  if clueIdx < firstGroups.length then
    let expected := firstGroups.getD clueIdx ⟨0, 0⟩
    let allAgree := valid.all fun arr =>
      let gs := getGroupsFromArrangement arr
      decide (clueIdx < gs.length) && (gs.getD clueIdx ⟨0, 0⟩ == expected)
    if allAgree then
      let leftBounded :=
        expected.start == 0 || (line.getD (expected.start - 1) none == some false)
      let rightBounded :=
        expected.stop == line.length - 1 ||
          (line.getD (expected.stop + 1) none == some false)
      let allFilled := (List.range' expected.start (expected.stop + 1 - expected.start)).all
        fun i => line.getD i none == some true
      leftBounded && rightBounded && allFilled
    else false
  else false

/-- Embedding of `findCompletedClues(line, clues, validArrangements)`
(lineAnalysis.js lines 115-162; identical logic in both revisions). -/
def findCompletedClues (line : List Cell) (clues : List Nat)
    (valid : List (List Bool)) : List Bool :=
  if valid = [] then List.replicate clues.length false
  else (List.range clues.length).map (clueCompletedAt line valid)

/-- Result of `analyzeLine`. -/
structure LineAnalysis where
  completedClues : List Bool
  cellsToMark : List Nat
deriving Repr, DecidableEq

/-- Embedding of `analyzeLine(line, clues)` of the current lineAnalysis.js
(lines 166-177). -/
def analyzeLine (line : List Cell) (clues : List Nat) : LineAnalysis :=
  let valid := getValidArrangements clues line
  if valid = [] then ⟨List.replicate clues.length false, []⟩
  else ⟨findCompletedClues line clues valid, findCellsToMark line valid clues⟩

/-- Embedding of `findCellsToMark(line, validArrangements)` of the earlier
lineAnalysis.js revision (lines 220-233): every unknown cell left empty by
all compatible arrangements. -/
def findCellsToMarkAllForced (line : List Cell) (valid : List (List Bool)) :
    List Nat :=
  (List.range line.length).filter fun i =>
    (line.getD i none == none) && valid.all fun a => !(a.getD i false)

/-- Embedding of `analyzeLine(line, clues)` of the earlier lineAnalysis.js
revision (lines 304-317). -/
def analyzeLineAllForced (line : List Cell) (clues : List Nat) : LineAnalysis :=
  let valid := getValidArrangements clues line
  if valid = [] then ⟨List.replicate clues.length false, []⟩
  else ⟨findCompletedClues line clues valid, findCellsToMarkAllForced line valid⟩

/-! ## HintSelector: hints.js lines 5-101 -/

/-- Embedding of `deduceCellsInLine(line, clues)` (hints.js lines 56-85):
the unknown positions filled by all compatible arrangements and those
emptied by all of them, or both empty on contradiction. -/
def deduceCellsInLine (line : List Cell) (clues : List Nat) : List Nat × List Nat :=
  let valid := getValidArrangements clues line
  if valid = [] then ([], [])
  else
    ((List.range line.length).filter fun i =>
        (line.getD i none == none) && valid.all fun a => a.getD i false,
     (List.range line.length).filter fun i =>
        (line.getD i none == none) && !(valid.all fun a => a.getD i false) &&
          valid.all fun a => !(a.getD i false))

/-- Embedding of `findDeducibleCells(playerGrid, rowClues, colClues)`
(hints.js lines 5-53): rows first, then columns with `(row, col)`
deduplication against the already-collected cells. -/
def findDeducibleCells (playerGrid : Grid) (rowClues colClues : List (List Nat)) :
    List (Nat × Nat) × List (Nat × Nat) :=
  let size := playerGrid.length
  let rowPhase := (List.range size).foldl
    (fun (acc : List (Nat × Nat) × List (Nat × Nat)) r =>
      let d := deduceCellsInLine (playerGrid.getD r []) (rowClues.getD r [])
      (acc.1 ++ (d.1.filter fun idx => gridGet playerGrid r idx == none).map fun idx => (r, idx),
       acc.2 ++ (d.2.filter fun idx => gridGet playerGrid r idx == none).map fun idx => (r, idx)))
    ([], [])
  (List.range size).foldl
    (fun (acc : List (Nat × Nat) × List (Nat × Nat)) c =>
      let d := deduceCellsInLine (getCol playerGrid c) (colClues.getD c [])
      (d.1.foldl (fun fs idx =>
          if gridGet playerGrid idx c == none &&
              !(fs.any fun p => p.1 == idx && p.2 == c) then fs ++ [(idx, c)] else fs)
        acc.1,
       d.2.foldl (fun ms idx =>
          if gridGet playerGrid idx c == none &&
              !(ms.any fun p => p.1 == idx && p.2 == c) then ms ++ [(idx, c)] else ms)
        acc.2))
    rowPhase

/-- Kind of a hint. -/
inductive HintType
  | fill
  | mark
deriving Repr, DecidableEq

/-- A hint as `getLogicalHint` returns it (`value` is the JS `1`/`0`). -/
structure Hint where
  row : Nat
  col : Nat
  value : Nat
  type : HintType
deriving Repr, DecidableEq

/-- Embedding of `getLogicalHint(playerGrid, rowClues, colClues)` (hints.js
lines 88-101): the first deduced fill if any, else the first deduced mark,
else the `null` sentinel. -/
def getLogicalHint (playerGrid : Grid) (rowClues colClues : List (List Nat)) :
    Option Hint :=
  let d := findDeducibleCells playerGrid rowClues colClues
  match d.1 with
  | p :: _ => some ⟨p.1, p.2, 1, .fill⟩
  | [] =>
      match d.2 with
      | p :: _ => some ⟨p.1, p.2, 0, .mark⟩
      | [] => none

/-! ## InformationFlowSimulator: informationFlow.js (part_001).

JS floating-point metric arithmetic is embedded over `ℚ` (exact); the only
rounding in the source, `Math.round(x * 100) / 100`, is embedded exactly
by `round2`. -/

/-- Which kind of line produced a deduction. -/
inductive LineKind
  | row
  | col
deriving Repr, DecidableEq

/-- A deduction as collected by `findDeductionsForGrid`. -/
structure Ded where
  r : Nat
  c : Nat
  value : Bool
  source : LineKind
  sourceIndex : Nat
deriving Repr, DecidableEq

/-- A deduction as recorded in a wave (with its quadrant tag). -/
structure WaveDed where
  r : Nat
  c : Nat
  value : Bool
  source : LineKind
  sourceIndex : Nat
  quadrant : Nat
deriving Repr, DecidableEq

/-- One wave of deductions. -/
structure Wave where
  waveNumber : Nat
  deductions : List WaveDed
deriving Repr, DecidableEq

/-- Embedding of the `addDeduction` closure (informationFlow.js lines
68-74): append the deduction unless its position was already seen or the
cell is no longer unknown. -/
def addDed (g : Grid) (acc : List Ded) (d : Ded) : List Ded :=
  if !(acc.any fun e => e.r == d.r && e.c == d.c) && gridGet g d.r d.c == none then
    acc ++ [d]
  else acc

/-- The row half of `findDeductionsForGrid` for one row (informationFlow.js
lines 77-93). -/
def lineDedsRow (g : Grid) (rowClues : List (List Nat)) (n : Nat)
    (acc : List Ded) (r : Nat) : List Ded :=
  let line := g.getD r []
  let valid := getValidArrangements (rowClues.getD r []) line
  if valid = [] then acc
  else
    (List.range n).foldl
      (fun a c =>
        if line.getD c none == none then
          if valid.all (fun arr => arr.getD c false) then
            addDed g a ⟨r, c, true, .row, r⟩
          else if valid.all (fun arr => !(arr.getD c false)) then
            addDed g a ⟨r, c, false, .row, r⟩
          else a
        else a)
      acc

/-- The column half of `findDeductionsForGrid` for one column
(informationFlow.js lines 96-112). -/
def lineDedsCol (g : Grid) (colClues : List (List Nat)) (n : Nat)
    (acc : List Ded) (c : Nat) : List Ded :=
  let line := getCol g c
  let valid := getValidArrangements (colClues.getD c []) line
  if valid = [] then acc
  else
    (List.range n).foldl
      (fun a r =>
        if gridGet g r c == none then
          if valid.all (fun arr => arr.getD r false) then
            addDed g a ⟨r, c, true, .col, c⟩
          else if valid.all (fun arr => !(arr.getD r false)) then
            addDed g a ⟨r, c, false, .col, c⟩
          else a
        else a)
      acc

/-- Embedding of `findDeductionsForGrid(grid, rowClues, colClues, size)`
(informationFlow.js lines 64-115). -/
def findDeductionsForGrid (g : Grid) (rowClues colClues : List (List Nat))
    (n : Nat) : List Ded :=
  (List.range n).foldl (lineDedsCol g colClues n)
    ((List.range n).foldl (lineDedsRow g rowClues n) [])

/-- Embedding of `getQuadrant(row, col, size)` (informationFlow.js lines
129-137).  JS compares `row < size / 2` in floating point, which on
naturals is exactly `2 * row < size`. -/
def getQuadrant (r c n : Nat) : Nat :=
  if 2 * r < n then (if 2 * c < n then 0 else 1)
  else if 2 * c < n then 2
  else 3

/-- Embedding of the simulation loop of `analyzeInformationFlow`
(informationFlow.js lines 18-43), on fuel `maxWaves = size * size`.
Returns the recorded waves, the total number of deductions applied, and
the final grid. -/
def flowLoop (rowClues colClues : List (List Nat)) (n : Nat) :
    Nat → Nat → Grid → List Wave × Nat × Grid
  | 0, _, g => ([], 0, g)
  | fuel + 1, wn, g =>
      let deds := findDeductionsForGrid g rowClues colClues n
      if deds = [] then ([], 0, g)
      else
        let wave : Wave :=
          ⟨wn, deds.map fun d => ⟨d.r, d.c, d.value, d.source, d.sourceIndex,
            getQuadrant d.r d.c n⟩⟩
        let g1 := deds.foldl (fun gg d => setCell gg d.r d.c (some d.value)) g
        let rest := flowLoop rowClues colClues n fuel (wn + 1) g1
        (wave :: rest.1, deds.length + rest.2.1, rest.2.2)

/-- JS `Math.round`: nearest integer, halves toward positive infinity. -/
def jsRound (q : ℚ) : ℤ := ⌊q + 1 / 2⌋

/-- The `Math.round(x * 100) / 100` rounding applied to the returned
metrics. -/
def round2 (q : ℚ) : ℚ := (jsRound (q * 100) : ℚ) / 100

/-- Metrics record returned by `calculateMetrics`. -/
structure FlowMetrics where
  entryPoints : Nat
  quadrantSpread : ℚ
  quadrantSwitches : Nat
  spatialVariance : ℚ
  flowScore : ℚ
deriving Repr, DecidableEq

/-- The per-wave quadrant tallies `[c0, c1, c2, c3]` of the switch loop
(informationFlow.js lines 171-174). -/
def waveQuadCounts (w : Wave) : List Nat :=
  [0, 1, 2, 3].map fun q => w.deductions.countP fun d => d.quadrant == q

/-- Embedding of `quadrantCounts.indexOf(Math.max(...quadrantCounts))`:
the first quadrant holding the most deductions. -/
def dominantQuadrant (w : Wave) : Nat :=
  let counts := waveQuadCounts w
  counts.indexOf (counts.foldr max 0)

/-- Embedding of the quadrant-switch loop (informationFlow.js lines
166-181). -/
def countSwitches (waves : List Wave) : Nat :=
  (waves.foldl
    (fun (acc : Nat × Option Nat) w =>
      let dom := dominantQuadrant w
      (acc.1 + (match acc.2 with
        | some p => if dom ≠ p then 1 else 0
        | none => 0), some dom))
    (0, none)).1

/-- Positional variance of one wave (informationFlow.js lines 188-196). -/
def waveVariance (w : Wave) : ℚ :=
  let ps := w.deductions.map fun d => ((d.r : ℚ), (d.c : ℚ))
  let len : ℚ := ps.length
  let avgR := (ps.map Prod.fst).sum / len
  let avgC := (ps.map Prod.snd).sum / len
  (ps.map fun p => (p.1 - avgR) ^ 2 + (p.2 - avgC) ^ 2).sum / len

/-- Sum of the variances of the waves holding at least two deductions
(informationFlow.js lines 184-197). -/
def totalVariance (waves : List Wave) : ℚ :=
  ((waves.filter fun w => 2 ≤ w.deductions.length).map waveVariance).sum

/-- Embedding of `calculateFlowScore` (informationFlow.js lines 229-262);
the argument record of the JS function becomes plain arguments. -/
def calculateFlowScore (entryPoints : Nat) (quadrantSpread : ℚ)
    (quadrantSwitches : Nat) (normalizedVariance : ℚ) (totalWaves : Nat)
    (solved : Bool) (n : Nat) : ℚ :=
  if !solved then 0
  else
    let idealEntryPoints : ℚ := (n : ℚ) * (2 / 5)
    let entryPointScore : ℚ :=
      1 - |(entryPoints : ℚ) - idealEntryPoints| / idealEntryPoints
    let spreadScore := quadrantSpread / 4
    let switchScore : ℚ :=
      if 1 < totalWaves then (quadrantSwitches : ℚ) / ((totalWaves : ℚ) - 1) else 0
    let idealWaves : ℚ := (n : ℚ) * (4 / 5)
    let waveScore := min ((totalWaves : ℚ) / idealWaves) (3 / 2) / (3 / 2)
    max 0 entryPointScore * (3 / 20) + spreadScore * (1 / 4) +
      switchScore * (3 / 10) + normalizedVariance * (3 / 20) + waveScore * (3 / 20)

/-- Embedding of `calculateMetrics(waves, size, solved)` (informationFlow.js
lines 142-223). -/
def calculateMetrics (waves : List Wave) (n : Nat) (solved : Bool) : FlowMetrics :=
  if waves = [] then ⟨0, 0, 0, 0, 0⟩
  else
    let entryPoints := (waves.headD ⟨0, []⟩).deductions.length
    let quadrantSpread : ℚ :=
      (((waves.map fun w => ((w.deductions.map (·.quadrant)).dedup).length).sum : ℚ)) /
        (waves.length : ℚ)
    let quadrantSwitches := countSwitches waves
    let spatialVariance : ℚ := totalVariance waves / (waves.length : ℚ)
    let maxVariance : ℚ := ((n * n : Nat) : ℚ) / 2
    let normalizedVariance := min (spatialVariance / maxVariance) 1
    let flowScore := calculateFlowScore entryPoints quadrantSpread quadrantSwitches
      normalizedVariance waves.length solved n
    ⟨entryPoints, round2 quadrantSpread, quadrantSwitches, round2 spatialVariance,
      round2 flowScore⟩

/-- Result record of `analyzeInformationFlow`. -/
structure FlowAnalysis where
  waves : List Wave
  totalDeductions : Nat
  totalWaves : Nat
  solved : Bool
  metrics : FlowMetrics
deriving Repr, DecidableEq

/-- Embedding of `analyzeInformationFlow(rowClues, colClues, size)`
(informationFlow.js lines 7-58). -/
def analyzeInformationFlow (rowClues colClues : List (List Nat)) (n : Nat) :
    FlowAnalysis :=
  let res := flowLoop rowClues colClues n (n * n) 0 (emptyGrid n)
  let solved := res.2.2.all fun row => row.all fun cell => cell != none
  ⟨res.1, res.2.1, res.1.length, solved, calculateMetrics res.1 n solved⟩

/-! ## PuzzleGenerator: puzzleGenerator.js.

`Math.random` is modelled by explicit inputs: one raw candidate grid per
attempt together with the repair picks (the cell flipped in an empty row
or column), plus the one fresh grid the fallback path samples.  The
difficulty density table only shapes the sampling distribution and so has
no effect on any claim about the returned record. -/

/-- Embedding of `minSpaceForClues(clues)` (puzzleGenerator.js lines
10-14). -/
def minSpaceForClues (clues : List Nat) : Nat :=
  if clues = [0] then 0 else clues.foldl (· + ·) 0 + (clues.length - 1)

/-- Embedding of `hasMultipleArrangements(clues, lineLength)`
(puzzleGenerator.js lines 20-22). -/
def hasMultipleArrangements (clues : List Nat) (lineLength : Nat) : Bool :=
  minSpaceForClues clues < lineLength

/-- Embedding of `hasNoCompleteLines(rowClues, colClues, size)`
(puzzleGenerator.js lines 28-44). -/
def hasNoCompleteLines (rowClues colClues : List (List Nat)) (n : Nat) : Bool :=
  (rowClues.all fun cl => hasMultipleArrangements cl n) &&
  (colClues.all fun cl => hasMultipleArrangements cl n)

/-- Row clues derived from a candidate solution (puzzleGenerator.js line
91). -/
def rowCluesOf (g : List (List Bool)) : List (List Nat) := g.map getCluesFromLine

/-- Column clues derived from a candidate solution (puzzleGenerator.js
lines 92-94). -/
def colCluesOf (n : Nat) (g : List (List Bool)) : List (List Nat) :=
  (List.range n).map fun c => getCluesFromLine (bcol g c)

/-- Set one cell of a candidate solution to `true` (the JS repair
assignment `solution[r][c] = true`). -/
def setTrue (g : List (List Bool)) (r c : Nat) : List (List Bool) :=
  g.set r ((g.getD r []).set c true)

/-- Embedding of the empty-row repair (puzzleGenerator.js lines 78-82):
each row without a filled cell gets the picked cell flipped to `true`. -/
def fillEmptyRows (pick : Nat → Nat) (g : List (List Bool)) : List (List Bool) :=
  (List.range g.length).map fun r =>
    let row := g.getD r []
    if row.any id then row else row.set (pick r) true

/-- Embedding of the empty-column repair (puzzleGenerator.js lines 85-89),
columns processed in order on the evolving grid. -/
def fillEmptyCols (pick : Nat → Nat) (n : Nat) (g : List (List Bool)) :
    List (List Bool) :=
  (List.range n).foldl
    (fun gg c => if gg.any (fun row => row.getD c false) then gg
      else setTrue gg (pick c) c)
    g

/-- The random data one generation attempt consumes. -/
structure GenAttempt where
  grid : List (List Bool)
  rowPick : Nat → Nat
  colPick : Nat → Nat

/-- The random data a whole `generatePuzzle` call consumes. -/
structure GenInput where
  attempts : Nat → GenAttempt
  fallbackGrid : List (List Bool)

/-- Difficulty selector (the JS string keys of the constant tables). -/
inductive Difficulty
  | easy
  | medium
  | hard
deriving Repr, DecidableEq

/-- The `MIN_FLOW_SCORE` table (puzzleGenerator.js lines 60-64). -/
def minFlowScore : Difficulty → ℚ
  | .easy => 1 / 10
  | .medium => 1 / 4
  | .hard => 7 / 20

/-- The `SAT_SOLVER_MAX_SIZE` threshold (puzzleGenerator.js line 49). -/
def SAT_SOLVER_MAX_SIZE : Nat := 10

/-- The solver selection of puzzleGenerator.js lines 103-105: the SAT
model below the size threshold, constraint propagation above it. -/
def selectedCount (rowClues colClues : List (List Nat)) (n : Nat) : Nat :=
  if n ≤ SAT_SOLVER_MAX_SIZE then countSolutionsSAT rowClues colClues n
  else countSolutions rowClues colClues n

/-- The puzzle record `generatePuzzle` returns (`flowScore` present only
on the success path). -/
structure Puzzle where
  solution : List (List Bool)
  rowClues : List (List Nat)
  colClues : List (List Nat)
  size : Nat
  flowScore : Option ℚ
deriving DecidableEq

/-- Outcome of `generatePuzzle`: the `exhausted` constructor is the
fallback return after the non-fatal `console.warn` diagnostic
(puzzleGenerator.js lines 125-134); no failure outcome exists. -/
inductive GenResult
  | success (p : Puzzle)
  | exhausted (p : Puzzle)
deriving DecidableEq

/-- Embedding of the attempt loop of `generatePuzzle(size, difficulty)`
(puzzleGenerator.js lines 67-135): repair the sampled candidate, derive
its clues, reject free lines, require a verified solution count of 1 from
the selected solver and a sufficient flow score, else retry; on exhausted
fuel return the freshly sampled fallback candidate with clues derived from
it. -/
def genLoop (inp : GenInput) (n : Nat) (diff : Difficulty) : Nat → Nat → GenResult
  | 0, _ =>
      let sol := inp.fallbackGrid
      .exhausted ⟨sol, rowCluesOf sol, colCluesOf n sol, n, none⟩
  | fuel + 1, i =>
      let att := inp.attempts i
      let sol := fillEmptyCols att.colPick n (fillEmptyRows att.rowPick att.grid)
      let rc := rowCluesOf sol
      let cc := colCluesOf n sol
      if hasNoCompleteLines rc cc n then
        if selectedCount rc cc n = 1 then
          let flow := (analyzeInformationFlow rc cc n).metrics.flowScore
          if minFlowScore diff ≤ flow then .success ⟨sol, rc, cc, n, some flow⟩
          else genLoop inp n diff fuel (i + 1)
        else genLoop inp n diff fuel (i + 1)
      else genLoop inp n diff fuel (i + 1)

/-- Embedding of `generatePuzzle` with its `maxAttempts = 100` budget. -/
def generatePuzzle (inp : GenInput) (n : Nat) (diff : Difficulty) : GenResult :=
  genLoop inp n diff 100 0

/-! ## Proof infrastructure definitions -/

/-- Number of unknown cells of a line. -/
def nullCountRow (row : List Cell) : Nat := row.countP (fun cell => cell == none)

/-- Number of unknown cells of a grid. -/
def nullCount (g : Grid) : Nat := (g.map nullCountRow).sum

/-- An `n × n` working grid. -/
def WFgrid (g : Grid) (n : Nat) : Prop :=
  g.length = n ∧ ∀ r, r < n → (g.getD r []).length = n

/-- Positions of a deduction list. -/
def dedPositions (l : List Ded) : List (Nat × Nat) := l.map fun d => (d.r, d.c)

/-- Invariant of the deduction lists `findDeductionsForGrid` builds:
duplicate-free positions, each targeting a still-unknown in-range cell. -/
def DedOK (g : Grid) (n : Nat) (l : List Ded) : Prop :=
  (dedPositions l).Nodup ∧ ∀ d ∈ l, gridGet g d.r d.c = none ∧ d.r < n ∧ d.c < n

/-- The grid after one wave of deductions is applied (the JS loop at
informationFlow.js lines 37-40). -/
def applyDeds (g : Grid) (deds : List Ded) : Grid :=
  deds.foldl (fun gg d => setCell gg d.r d.c (some d.value)) g

/-- Extension order on working grids: every known cell keeps its value. -/
def gridLE (g g2 : Grid) : Prop :=
  ∀ r c (b : Bool), gridGet g r c = some b → gridGet g2 r c = some b

/-! ## Theorems.  First the line-clue codec. -/

theorem gapSpace_go (cs : List Nat) (a : Nat) :
    cs.foldl (fun x b => x + b + 1) a = a + cs.sum + cs.length := by
  induction cs generalizing a with
  | nil => simp
  | cons c rest ih => simp [ih]; omega

theorem gapSpace_eq (cs : List Nat) : gapSpace cs = cs.sum + cs.length := by
  simpa using gapSpace_go cs 0

theorem gapSpace_cons (c : Nat) (rest : List Nat) :
    gapSpace (c :: rest) = c + 1 + gapSpace rest := by
  simp [gapSpace_eq]; omega

theorem cluesAux_true_cons (l : List Bool) (k : Nat) :
    cluesAux (true :: l) k = cluesAux l (k + 1) := by
  simp [cluesAux]

theorem cluesAux_false_cons (l : List Bool) (k : Nat) :
    cluesAux (false :: l) k = if 0 < k then k :: cluesAux l 0 else cluesAux l 0 := by
  simp [cluesAux]

theorem cluesAux_replicate_false (k : Nat) : ∀ (c : Nat),
    cluesAux (List.replicate k false) c = if 0 < c then [c] else [] := by
  induction k with
  | zero => intro c; simp [cluesAux]
  | succ k ih =>
      intro c
      rw [List.replicate_succ, cluesAux_false_cons]
      have h0 := ih 0
      simp only [Nat.lt_irrefl, if_false] at h0
      split <;> simp [h0]

theorem cluesAux_replicate_false_append (k : Nat) (l : List Bool) :
    cluesAux (List.replicate k false ++ l) 0 = cluesAux l 0 := by
  induction k with
  | zero => simp
  | succ k ih => rw [List.replicate_succ, List.cons_append, cluesAux_false_cons]; simpa

theorem cluesAux_replicate_true_append (c : Nat) (l : List Bool) (k : Nat) :
    cluesAux (List.replicate c true ++ l) k = cluesAux l (k + c) := by
  induction c generalizing k with
  | zero => simp
  | succ c ih =>
      rw [List.replicate_succ, List.cons_append, cluesAux_true_cons, ih]
      congr 1
      omega

theorem cluesAux_pos (l : List Bool) : ∀ (k : Nat), ∀ x ∈ cluesAux l k, 0 < x := by
  induction l with
  | nil => intro k x hx; simp [cluesAux] at hx; omega
  | cons b rest ih =>
      intro k x hx
      cases b with
      | true => rw [cluesAux_true_cons] at hx; exact ih (k + 1) x hx
      | false =>
          rw [cluesAux_false_cons] at hx
          split at hx
          · rcases List.mem_cons.mp hx with h | h
            · omega
            · exact ih 0 x h
          · exact ih 0 x hx

theorem cluesAux_ne_nil (l : List Bool) (k : Nat) (hk : 0 < k) : cluesAux l k ≠ [] := by
  induction l generalizing k with
  | nil => simp [cluesAux, hk]
  | cons b rest ih =>
      cases b with
      | true => rw [cluesAux_true_cons]; exact ih (k + 1) (by omega)
      | false => rw [cluesAux_false_cons]; simp [hk]

theorem cluesAux_eq_nil (l : List Bool) (h : cluesAux l 0 = []) : ∀ b ∈ l, b = false := by
  induction l with
  | nil => simp
  | cons b rest ih =>
      cases b with
      | true =>
          rw [cluesAux_true_cons] at h
          exact absurd h (cluesAux_ne_nil rest 1 (by omega))
      | false =>
          rw [cluesAux_false_cons] at h
          simp only [Nat.lt_irrefl, if_false] at h
          intro x hx
          rcases List.mem_cons.mp hx with rfl | hx
          · rfl
          · exact ih h x hx

theorem eq_replicate_false_of_cluesAux_nil (l : List Bool) (h : cluesAux l 0 = []) :
    l = List.replicate l.length false := by
  apply List.eq_replicate_of_mem
  exact cluesAux_eq_nil l h

theorem cluesAux_space (l : List Bool) : ∀ (k : Nat),
    (cluesAux l k).sum + (cluesAux l k).length ≤ l.length + k + 1 := by
  induction l with
  | nil =>
      intro k; simp [cluesAux]; split <;> simp
  | cons b rest ih =>
      intro k
      cases b with
      | true =>
          rw [cluesAux_true_cons]
          have := ih (k + 1)
          simp only [List.length_cons]
          omega
      | false =>
          rw [cluesAux_false_cons]
          have h0 := ih 0
          split
          · simp only [List.sum_cons, List.length_cons]
            omega
          · simp only [List.length_cons]
            omega

theorem cluesAux_run_decompose (l : List Bool) : ∀ (k : Nat), 0 < k →
    ∃ c lr, l = List.replicate c true ++ lr ∧
      ((lr = [] ∧ cluesAux l k = [k + c]) ∨
       ∃ x, lr = false :: x ∧ cluesAux l k = (k + c) :: cluesAux x 0) := by
  induction l with
  | nil =>
      intro k hk
      exact ⟨0, [], by simp, Or.inl ⟨rfl, by simp [cluesAux, hk]⟩⟩
  | cons b rest ih =>
      intro k hk
      cases b with
      | true =>
          obtain ⟨c, lr, hl, hres⟩ := ih (k + 1) (by omega)
          refine ⟨c + 1, lr, ?_, ?_⟩
          · rw [List.replicate_succ, List.cons_append, hl]
          · rw [cluesAux_true_cons]
            rcases hres with ⟨h1, h2⟩ | ⟨x, h1, h2⟩
            · exact Or.inl ⟨h1, by rw [h2, show k + 1 + c = k + (c + 1) by omega]⟩
            · exact Or.inr ⟨x, h1, by rw [h2, show k + 1 + c = k + (c + 1) by omega]⟩
      | false =>
          exact ⟨0, false :: rest, by simp,
            Or.inr ⟨rest, rfl, by rw [cluesAux_false_cons]; simp [hk]⟩⟩

theorem cluesAux_cons_decompose (l : List Bool) (c : Nat) (rest : List Nat)
    (h : cluesAux l 0 = c :: rest) :
    0 < c ∧ ∃ g lr, l = List.replicate g false ++ List.replicate c true ++ lr ∧
      ((lr = [] ∧ rest = []) ∨ ∃ x, lr = false :: x ∧ cluesAux x 0 = rest) := by
  constructor
  · exact cluesAux_pos l 0 c (h ▸ List.mem_cons_self c rest)
  · induction l with
    | nil => simp [cluesAux] at h
    | cons b t ih =>
        cases b with
        | false =>
            rw [cluesAux_false_cons] at h
            simp only [Nat.lt_irrefl, if_false] at h
            obtain ⟨g, lr, ht, hres⟩ := ih h
            refine ⟨g + 1, lr, ?_, hres⟩
            subst ht
            simp [List.replicate_succ]
        | true =>
            rw [cluesAux_true_cons] at h
            obtain ⟨c0, lr, ht, hres⟩ := cluesAux_run_decompose t 1 (by omega)
            rcases hres with ⟨hlr, he⟩ | ⟨x, hlr, he⟩
            · rw [he] at h
              obtain ⟨hc, hrest⟩ : 1 + c0 = c ∧ rest = [] := by
                constructor <;> simp_all
              refine ⟨0, [], ?_, Or.inl ⟨rfl, hrest⟩⟩
              rw [show c = c0 + 1 by omega]
              subst hlr
              simp [ht, List.replicate_succ]
            · rw [he] at h
              obtain ⟨hc, hrest⟩ : 1 + c0 = c ∧ cluesAux x 0 = rest := by
                constructor <;> simp_all
              refine ⟨0, false :: x, ?_, Or.inr ⟨x, rfl, hrest⟩⟩
              rw [show c = c0 + 1 by omega]
              simp [ht, hlr, List.replicate_succ]

theorem two_le_length_of_mem {α : Type} {l : List α} {a b : α}
    (ha : a ∈ l) (hb : b ∈ l) (hab : a ≠ b) : 2 ≤ l.length := by
  match l with
  | [] => cases ha
  | [x] =>
      simp only [List.mem_singleton] at ha hb
      exact absurd (ha.trans hb.symm) hab
  | x :: y :: rest => simp only [List.length_cons]; omega

theorem mem_range'_toNat {pos s : Nat} {M : Int}
    (h : s ∈ List.range' pos (M + 1 - (pos : Int)).toNat) :
    pos ≤ s ∧ (s : Int) ≤ M := by
  rw [List.mem_range'] at h
  obtain ⟨i, hi, rfl⟩ := h
  omega

theorem mem_range'_of {pos s : Nat} {M : Int} (h1 : pos ≤ s) (h2 : (s : Int) ≤ M) :
    s ∈ List.range' pos (M + 1 - (pos : Int)).toNat := by
  rw [List.mem_range']
  exact ⟨s - pos, by omega, by omega⟩

theorem mem_tails_cons {len clue : Nat} {rest : List Nat} {pos : Nat} {t : List Bool} :
    t ∈ tails len (clue :: rest) pos ↔
      ∃ s ∈ List.range' pos
          (((len : Int) - (clue : Int) - (gapSpace rest : Int)) + 1 - (pos : Int)).toNat,
        ∃ t0 ∈ tails len rest (s + clue + (if rest = [] then 0 else 1)),
          t = List.replicate (s - pos) false ++ List.replicate clue true ++
            (if rest = [] then [] else [false]) ++ t0 := by
  rw [tails]
  simp only [List.mem_flatMap, List.mem_map]
  constructor
  · rintro ⟨s, hs, t0, ht0, h⟩
    exact ⟨s, hs, t0, ht0, h.symm⟩
  · rintro ⟨s, hs, t0, ht0, h⟩
    exact ⟨s, hs, t0, ht0, h.symm⟩

theorem tails_length {len : Nat} : ∀ {cs : List Nat} {pos : Nat} {t : List Bool},
    t ∈ tails len cs pos → t.length = len - pos := by
  intro cs
  induction cs with
  | nil =>
      intro pos t ht
      rw [tails, List.mem_singleton] at ht
      simp [ht]
  | cons clue rest ih =>
      intro pos t ht
      rw [mem_tails_cons] at ht
      obtain ⟨s, hs, t0, ht0, rfl⟩ := ht
      obtain ⟨hps, hsM⟩ := mem_range'_toNat hs
      have hbound : s + clue + gapSpace rest ≤ len := by omega
      have h0 := ih ht0
      by_cases hrest : rest = []
      · subst hrest
        simp only [gapSpace_eq, List.sum_nil, List.length_nil, Nat.add_zero] at hbound
        simp at h0 ⊢
        omega
      · have hgap : 1 ≤ gapSpace rest := by
          rw [gapSpace_eq]
          have := List.length_pos.mpr hrest
          omega
        simp [hrest] at h0 ⊢
        omega

theorem tails_clues {len : Nat} : ∀ {cs : List Nat} {pos : Nat} {t : List Bool},
    (∀ x ∈ cs, 0 < x) → t ∈ tails len cs pos → cluesAux t 0 = cs := by
  intro cs
  induction cs with
  | nil =>
      intro pos t _ ht
      rw [tails, List.mem_singleton] at ht
      subst ht
      simpa using cluesAux_replicate_false (len - pos) 0
  | cons clue rest ih =>
      intro pos t hp ht
      have hclue : 0 < clue := hp clue (List.mem_cons_self clue rest)
      rw [mem_tails_cons] at ht
      obtain ⟨s, _, t0, ht0, rfl⟩ := ht
      simp only [List.append_assoc]
      rw [cluesAux_replicate_false_append, cluesAux_replicate_true_append]
      by_cases hrest : rest = []
      · subst hrest
        simp only [reduceIte] at ht0 ⊢
        rw [tails, List.mem_singleton] at ht0
        subst ht0
        rw [List.nil_append, cluesAux_replicate_false]
        simp [hclue]
      · simp only [hrest, if_false] at ht0 ⊢
        rw [List.cons_append, List.nil_append, cluesAux_false_cons]
        have := ih (fun x hx => hp x (List.mem_cons_of_mem clue hx)) ht0
        simp [hclue, this]

theorem getElem?_run_at_start {s pos clue : Nat} (h : pos ≤ s) (hc : 0 < clue)
    (l : List Bool) :
    (List.replicate (s - pos) false ++ (List.replicate clue true ++ l))[s - pos]? =
      some true := by
  rw [List.getElem?_append]
  simp only [List.length_replicate, Nat.lt_irrefl, if_false, Nat.sub_self]
  rw [List.getElem?_append]
  simp [hc]

theorem getElem?_in_padding {s s2 pos : Nat} (h : pos ≤ s) (h2 : s < s2)
    (l : List Bool) :
    (List.replicate (s2 - pos) false ++ l)[s - pos]? = some false := by
  rw [List.getElem?_append]
  have : s - pos < s2 - pos := by omega
  simp [this]

theorem tails_nodup {len : Nat} : ∀ {cs : List Nat} {pos : Nat},
    (∀ x ∈ cs, 0 < x) → (tails len cs pos).Nodup := by
  intro cs
  induction cs with
  | nil => intro pos _; rw [tails]; exact List.nodup_singleton _
  | cons clue rest ih =>
      intro pos hp
      have hclue : 0 < clue := hp clue (List.mem_cons_self clue rest)
      rw [tails]
      rw [List.nodup_flatMap]
      constructor
      · intro s _
        refine List.Nodup.map ?_ (ih (fun x hx => hp x (List.mem_cons_of_mem clue hx)))
        intro a b hab
        have h2 : List.replicate (s - pos) false ++ (List.replicate clue true ++
            ((if rest = [] then [] else [false]) ++ a)) =
            List.replicate (s - pos) false ++ (List.replicate clue true ++
            ((if rest = [] then [] else [false]) ++ b)) := by
          simpa [List.append_assoc] using hab
        exact List.append_cancel_left (List.append_cancel_left (List.append_cancel_left h2))
      · refine (List.pairwise_lt_range' pos _ 1 (by omega)).imp_of_mem ?_
        intro s s2 hs hs2 hlt
        obtain ⟨hps, _⟩ := mem_range'_toNat hs
        intro t hts hts2
        rw [List.mem_map] at hts hts2
        obtain ⟨t0, _, rfl⟩ := hts
        obtain ⟨t2, _, habs⟩ := hts2
        have h1 : (List.replicate (s - pos) false ++ List.replicate clue true ++
            (if rest = [] then [] else [false]) ++ t0)[s - pos]? = some true := by
          have := getElem?_run_at_start hps hclue
            ((if rest = [] then [] else [false]) ++ t0)
          simpa [List.append_assoc] using this
        have h2 : (List.replicate (s2 - pos) false ++ List.replicate clue true ++
            (if rest = [] then [] else [false]) ++ t2)[s - pos]? = some false := by
          have := getElem?_in_padding hps hlt
            (List.replicate clue true ++ ((if rest = [] then [] else [false]) ++ t2))
          simpa [List.append_assoc] using this
        rw [habs, h1] at h2
        cases h2

theorem tails_complete {len : Nat} : ∀ {cs : List Nat} {l : List Bool} {pos : Nat},
    cluesAux l 0 = cs → l.length + pos = len → l ∈ tails len cs pos := by
  intro cs
  induction cs with
  | nil =>
      intro l pos h hl
      rw [tails, List.mem_singleton]
      rw [eq_replicate_false_of_cluesAux_nil l h]
      congr 1
      omega
  | cons c rest ih =>
      intro l pos h hl
      obtain ⟨hc, g, lr, rfl, hres⟩ := cluesAux_cons_decompose _ c rest h
      rw [mem_tails_cons]
      refine ⟨pos + g, ?_, ?_⟩
      · rcases hres with ⟨hlr, hrest⟩ | ⟨x, hlr, hx⟩
        · subst hlr hrest
          apply mem_range'_of (by omega)
          simp only [gapSpace_eq, List.sum_nil, List.length_nil]
          simp only [List.length_append, List.length_replicate, List.length_nil] at hl
          omega
        · subst hlr
          apply mem_range'_of (by omega)
          have hsp := cluesAux_space x 0
          rw [hx] at hsp
          simp only [List.length_append, List.length_replicate, List.length_cons] at hl
          rw [gapSpace_eq]
          omega
      · rcases hres with ⟨hlr, hrest⟩ | ⟨x, hlr, hx⟩
        · subst hlr hrest
          refine ⟨[], ?_, ?_⟩
          · rw [tails, List.mem_singleton]
            simp only [if_true]
            simp only [List.length_append, List.length_replicate, List.length_nil] at hl
            rw [show len - (pos + g + c + 0) = 0 by omega]
            rfl
          · simp
        · subst hlr
          by_cases hrest : rest = []
          · subst hrest
            have hxf := eq_replicate_false_of_cluesAux_nil x hx
            refine ⟨false :: x, ?_, ?_⟩
            · rw [tails, List.mem_singleton]
              simp only [if_true]
              simp only [List.length_append, List.length_replicate,
                List.length_cons] at hl
              rw [show len - (pos + g + c + 0) = x.length + 1 by omega,
                List.replicate_succ, hxf]
              simp
            · simp
          · refine ⟨x, ?_, ?_⟩
            · simp only [hrest, if_false]
              apply ih hx
              simp only [List.length_append, List.length_replicate,
                List.length_cons] at hl
              omega
            · simp [hrest]

theorem generateAux_eq_tails (len : Nat) : ∀ (cs : List Nat) (pos : Nat)
    (current : List Bool), current.length = pos →
    generateAux len cs pos current = (tails len cs pos).map (current ++ ·) := by
  intro cs
  induction cs with
  | nil =>
      intro pos current hc
      rw [generateAux, tails]
      simp [hc]
  | cons clue rest ih =>
      intro pos current hc
      rw [generateAux, tails]
      simp only [List.map_flatMap]
      apply List.flatMap_congr
      intro s hs
      obtain ⟨hps, _⟩ := mem_range'_toNat hs
      have hlen : (current ++ (List.replicate (s - current.length) false ++
          (List.replicate clue true ++ (if rest = [] then [] else [false])))).length =
          s + clue + (if rest = [] then 0 else 1) := by
        by_cases hrest : rest = [] <;> simp [hrest] <;> omega
      rw [show current ++ List.replicate (s - current.length) false ++
          List.replicate clue true ++ (if rest = [] then [] else [false]) =
          current ++ (List.replicate (s - current.length) false ++
          (List.replicate clue true ++ (if rest = [] then [] else [false]))) by simp]
      rw [hlen, ih _ _ hlen, List.map_map]
      apply List.map_congr_left
      intro t0 _
      simp [hc]

theorem generateArrangements_eq_tails {cs : List Nat} (h : cs ≠ [0]) (len : Nat) :
    generateArrangements cs len = tails len cs 0 := by
  rw [generateArrangements, if_neg h, generateAux_eq_tails len cs 0 [] rfl]
  simp

theorem generateArrangements_length {cs : List Nat} {len : Nat} {arr : List Bool}
    (h : arr ∈ generateArrangements cs len) : arr.length = len := by
  by_cases h0 : cs = [0]
  · subst h0
    rw [generateArrangements, if_pos rfl, List.mem_singleton] at h
    simp [h]
  · rw [generateArrangements_eq_tails h0] at h
    simpa using tails_length h

theorem pos_ne_sentinel {cs : List Nat} (hne : cs ≠ []) (hp : ∀ x ∈ cs, 0 < x) :
    cs ≠ [0] := by
  intro h
  subst h
  exact absurd (hp 0 (List.mem_singleton_self 0)) (by omega)

theorem getCluesFromLine_of_cluesAux {l : List Bool} {cs : List Nat}
    (h : cluesAux l 0 = cs) (hne : cs ≠ []) : getCluesFromLine l = cs := by
  rw [getCluesFromLine]
  simp [h, hne]

theorem generateArrangements_clues {cs : List Nat} {len : Nat} {arr : List Bool}
    (hv : ValidClues cs) (h : arr ∈ generateArrangements cs len) :
    getCluesFromLine arr = cs := by
  rcases hv with h0 | ⟨hne, hp⟩
  · subst h0
    rw [generateArrangements, if_pos rfl, List.mem_singleton] at h
    subst h
    rw [getCluesFromLine]
    simp [cluesAux_replicate_false]
  · rw [generateArrangements_eq_tails (pos_ne_sentinel hne hp)] at h
    exact getCluesFromLine_of_cluesAux (tails_clues hp h) hne

theorem generateArrangements_nodup {cs : List Nat} (len : Nat) (hv : ValidClues cs) :
    (generateArrangements cs len).Nodup := by
  rcases hv with h0 | ⟨hne, hp⟩
  · subst h0
    rw [generateArrangements, if_pos rfl]
    exact List.nodup_singleton _
  · rw [generateArrangements_eq_tails (pos_ne_sentinel hne hp)]
    exact tails_nodup hp

theorem generateArrangements_complete {line : List Bool} {len : Nat}
    (h : line.length = len) :
    line ∈ generateArrangements (getCluesFromLine line) len := by
  rw [getCluesFromLine]
  rcases hc : cluesAux line 0 with _ | ⟨c, rest⟩
  · simp only [reduceIte]
    rw [generateArrangements, if_pos rfl, List.mem_singleton,
      eq_replicate_false_of_cluesAux_nil line hc, h]
  · have hcons : (c :: rest : List Nat) ≠ [] := by simp
    simp only [hcons, if_false]
    have hp : ∀ x ∈ (c :: rest : List Nat), 0 < x := fun x hx =>
      cluesAux_pos line 0 x (hc ▸ hx)
    rw [generateArrangements_eq_tails (pos_ne_sentinel hcons hp)]
    exact tails_complete hc (by omega)

/-- Characterization used throughout: for a line of the right length,
membership in the generated arrangements of a valid clue list is exactly
reproducing that clue list. -/
theorem mem_generateArrangements_iff {cs : List Nat} {len : Nat} {line : List Bool}
    (hv : ValidClues cs) (hl : line.length = len) :
    line ∈ generateArrangements cs len ↔ getCluesFromLine line = cs := by
  constructor
  · exact generateArrangements_clues hv
  · intro h
    rw [← h]
    exact generateArrangements_complete hl

/-- C1: every arrangement generated from a ClueSequence `c` at length `L`
has length exactly `L`, `computeClues` (`getCluesFromLine`) on it
reproduces `c`, and the returned list holds no duplicate arrangements. -/
theorem claim_generateArrangements_roundtrip (c : List Nat) (L : Nat)
    (hv : ValidClues c) :
    (∀ arr ∈ generateArrangements c L,
      arr.length = L ∧ getCluesFromLine arr = c) ∧
    (generateArrangements c L).Nodup :=
  ⟨fun _ h => ⟨generateArrangements_length h, generateArrangements_clues hv h⟩,
   generateArrangements_nodup L hv⟩

/-- Witness for C1 at the concrete clue list `[1, 2]` and length 5. -/
theorem claim_generateArrangements_roundtrip_witness :
    ValidClues [1, 2] ∧
    ((∀ arr ∈ generateArrangements [1, 2] 5,
        arr.length = 5 ∧ getCluesFromLine arr = [1, 2]) ∧
      (generateArrangements [1, 2] 5).Nodup) :=
  ⟨Or.inr ⟨by decide, by decide⟩,
   claim_generateArrangements_roundtrip [1, 2] 5 (Or.inr ⟨by decide, by decide⟩)⟩

theorem foldl_add_eq_sum (cs : List Nat) : ∀ (a : Nat), cs.foldl (· + ·) a = a + cs.sum := by
  induction cs with
  | nil => intro a; simp
  | cons c rest ih => intro a; simp [ih]; omega

theorem minSpace_cons (c0 : Nat) (rest : List Nat) (h : (c0 :: rest : List Nat) ≠ [0]) :
    minSpaceForClues (c0 :: rest) = c0 + gapSpace rest := by
  rw [minSpaceForClues, if_neg h, foldl_add_eq_sum, gapSpace_eq]
  simp
  omega

theorem tails_ne_nil {len : Nat} : ∀ {cs : List Nat} {pos : Nat},
    pos + gapSpace cs ≤ len + 1 → tails len cs pos ≠ [] := by
  intro cs
  induction cs with
  | nil => intro pos _; rw [tails]; simp
  | cons clue rest ih =>
      intro pos hsp
      rw [gapSpace_cons] at hsp
      have hinner : tails len rest (pos + clue + (if rest = [] then 0 else 1)) ≠ [] := by
        apply ih
        by_cases hrest : rest = []
        · subst hrest
          simp only [gapSpace_eq, List.sum_nil, List.length_nil]
          simp only [reduceIte]
          omega
        · simp only [hrest, if_false]
          omega
      obtain ⟨t0, ht0⟩ := List.exists_mem_of_ne_nil _ hinner
      apply List.ne_nil_of_mem (a := List.replicate (pos - pos) false ++
        List.replicate clue true ++ (if rest = [] then [] else [false]) ++ t0)
      rw [mem_tails_cons]
      refine ⟨pos, mem_range'_of (by omega) ?_, t0, ht0, rfl⟩
      have hg : 1 ≤ gapSpace rest ∨ rest = [] := by
        by_cases hrest : rest = []
        · exact Or.inr hrest
        · exact Or.inl (by rw [gapSpace_eq]; have := List.length_pos.mpr hrest; omega)
      rcases hg with hg | hg
      · omega
      · subst hg; simp only [gapSpace_eq, List.sum_nil, List.length_nil] at hsp ⊢; omega

theorem gen_two_of_space {c0 : Nat} {rest : List Nat} {N : Nat}
    (hc0 : 0 < c0) (hlt : c0 + gapSpace rest < N) :
    2 ≤ (tails N (c0 :: rest) 0).length := by
  have h0 : tails N rest (0 + c0 + (if rest = [] then 0 else 1)) ≠ [] := by
    apply tails_ne_nil
    by_cases hrest : rest = []
    · subst hrest
      simp only [gapSpace_eq, List.sum_nil, List.length_nil, reduceIte] at hlt ⊢
      omega
    · simp only [hrest, if_false]
      omega
  have h1 : tails N rest (1 + c0 + (if rest = [] then 0 else 1)) ≠ [] := by
    apply tails_ne_nil
    by_cases hrest : rest = []
    · subst hrest
      simp only [gapSpace_eq, List.sum_nil, List.length_nil, reduceIte] at hlt ⊢
      omega
    · simp only [hrest, if_false]
      omega
  obtain ⟨u0, hu0⟩ := List.exists_mem_of_ne_nil _ h0
  obtain ⟨u1, hu1⟩ := List.exists_mem_of_ne_nil _ h1
  have he0 : List.replicate (0 - 0) false ++ List.replicate c0 true ++
      (if rest = [] then [] else [false]) ++ u0 ∈ tails N (c0 :: rest) 0 :=
    mem_tails_cons.mpr ⟨0, mem_range'_of (Nat.le_refl 0) (by omega), u0, hu0, rfl⟩
  have he1 : List.replicate (1 - 0) false ++ List.replicate c0 true ++
      (if rest = [] then [] else [false]) ++ u1 ∈ tails N (c0 :: rest) 0 :=
    mem_tails_cons.mpr ⟨1, mem_range'_of (by omega) (by omega), u1, hu1, rfl⟩
  refine two_le_length_of_mem he0 he1 ?_
  intro h
  have g0 : (List.replicate (0 - 0) false ++ List.replicate c0 true ++
      (if rest = [] then [] else [false]) ++ u0)[0 - 0]? = some true := by
    have := getElem?_run_at_start (Nat.le_refl 0) hc0
      ((if rest = [] then [] else [false]) ++ u0)
    simpa [List.append_assoc] using this
  have g1 : (List.replicate (1 - 0) false ++ List.replicate c0 true ++
      (if rest = [] then [] else [false]) ++ u1)[0 - 0]? = some false := by
    have := @getElem?_in_padding 0 1 0 (by omega) (by omega)
      (List.replicate c0 true ++ ((if rest = [] then [] else [false]) ++ u1))
    simpa [List.append_assoc] using this
  rw [h, g1] at g0
  cases g0

/-- C7: a nonempty ClueSequence of positive runs summing to `S` over `k`
runs has minimum space `S + (k - 1)` (as `minSpaceForClues` computes);
`generateArrangements` at any length below that minimum returns no
arrangement, and at every length strictly above it returns more than one
arrangement. -/
theorem claim_minSpace (c : List Nat) (N : Nat) (hne : c ≠ [])
    (hp : ∀ x ∈ c, 0 < x) :
    minSpaceForClues c = c.sum + (c.length - 1) ∧
    (∀ L, L < minSpaceForClues c → generateArrangements c L = []) ∧
    (minSpaceForClues c < N → 2 ≤ (generateArrangements c N).length) := by
  have h0 : c ≠ [0] := pos_ne_sentinel hne hp
  obtain ⟨c0, rest, rfl⟩ := List.exists_cons_of_ne_nil hne
  have hc0 : 0 < c0 := hp c0 (List.mem_cons_self c0 rest)
  have hms := minSpace_cons c0 rest h0
  refine ⟨?_, ?_, ?_⟩
  · rw [minSpaceForClues, if_neg h0, foldl_add_eq_sum]
    simp
  · intro L hL
    rw [hms] at hL
    rw [generateArrangements_eq_tails h0, tails]
    rw [show (((L : Int) - (c0 : Int) - (gapSpace rest : Int)) + 1 - ((0 : Nat) : Int)).toNat
      = 0 by omega]
    simp
  · intro hN
    rw [hms] at hN
    rw [generateArrangements_eq_tails h0]
    exact gen_two_of_space hc0 hN

/-- Witness for C7 at the concrete clue list `[2, 1]`, length 6 for the
more-than-one-arrangement part and length 3 for the too-short part. -/
theorem claim_minSpace_witness :
    (([2, 1] : List Nat) ≠ [] ∧ ∀ x ∈ ([2, 1] : List Nat), 0 < x) ∧
    (minSpaceForClues [2, 1] = [2, 1].sum + (([2, 1] : List Nat).length - 1) ∧
      (∀ L, L < minSpaceForClues [2, 1] → generateArrangements [2, 1] L = []) ∧
      (minSpaceForClues [2, 1] < 6 → 2 ≤ (generateArrangements [2, 1] 6).length)) :=
  ⟨⟨by decide, by decide⟩, claim_minSpace [2, 1] 6 (by decide) (by decide)⟩

/-! ## C6: hint selection -/

/-- C6: `getLogicalHint` returns a fill-type hint whenever at least one
forced-fill deduction exists (even if forced-empty deductions also exist),
a mark-type hint when no forced fill but at least one forced empty exists,
and the `null` sentinel (not an error) when neither exists; the hint is
the first collected deduction of its kind. -/
theorem claim_getLogicalHint (g : Grid) (rowClues colClues : List (List Nat)) :
    getLogicalHint g rowClues colClues =
      match (findDeducibleCells g rowClues colClues).1,
            (findDeducibleCells g rowClues colClues).2 with
      | p :: _, _ => some ⟨p.1, p.2, 1, .fill⟩
      | [], p :: _ => some ⟨p.1, p.2, 0, .mark⟩
      | [], [] => none := by
  rw [getLogicalHint]
  rcases h1 : (findDeducibleCells g rowClues colClues).1 with _ | ⟨p, rest⟩ <;>
    rcases h2 : (findDeducibleCells g rowClues colClues).2 with _ | ⟨q, rest2⟩ <;>
      simp [h1, h2]

/-! ## C9: soundness of the auto-fill marks -/

theorem band_right {a b : Bool} (h : (a && b) = true) : b = true := by
  simp at h
  exact h.2

theorem mustBeEmptyAt_sound {line : List Cell} {clues : List Nat} {i : Nat}
    (h : mustBeEmptyAt line (getValidArrangements clues line) i = true) :
    line.getD i none = none ∧
      ∀ arr ∈ generateArrangements clues line.length,
        lineCompatible line arr = true → arr.getD i false = false := by
  rw [mustBeEmptyAt, Bool.and_eq_true] at h
  obtain ⟨h1, h2⟩ := h
  refine ⟨by simpa using h1, ?_⟩
  intro arr hmem hcomp
  have hv : arr ∈ getValidArrangements clues line := by
    rw [getValidArrangements, List.mem_filter]
    exact ⟨hmem, hcomp⟩
  have := List.all_eq_true.mp h2 arr hv
  simpa using this

theorem walkLeft_sound {line : List Cell} {valid : List (List Bool)} :
    ∀ (k : Nat), ∀ i ∈ walkLeft line valid k, mustBeEmptyAt line valid i = true := by
  intro k
  induction k with
  | zero => intro i hi; simp [walkLeft] at hi
  | succ k ih =>
      intro i hi
      rw [walkLeft] at hi
      split at hi
      · rcases List.mem_cons.mp hi with rfl | hi
        · rename_i hcond
          exact band_right hcond
        · exact ih i hi
      · simp at hi

theorem walkRight_sound {line : List Cell} {valid : List (List Bool)} {len : Nat} :
    ∀ (fuel i0 : Nat), ∀ i ∈ walkRight line valid len fuel i0,
      mustBeEmptyAt line valid i = true := by
  intro fuel
  induction fuel with
  | zero => intro i0 i hi; simp [walkRight] at hi
  | succ fuel ih =>
      intro i0 i hi
      rw [walkRight] at hi
      split at hi
      · split at hi
        · rcases List.mem_cons.mp hi with rfl | hi
          · rename_i hcond
            exact band_right hcond
          · exact ih (i0 + 1) i hi
        · simp at hi
      · simp at hi

theorem findCellsToMark_mbe {line : List Cell} {clues : List Nat} :
    ∀ i ∈ findCellsToMark line (getValidArrangements clues line) clues,
      mustBeEmptyAt line (getValidArrangements clues line) i = true := by
  intro i hi
  rw [findCellsToMark] at hi
  split at hi
  · rw [List.mem_filter] at hi
    exact band_right hi.2
  · rw [List.mem_filter] at hi
    have hm : i ∈ (findGroups line).flatMap fun gr =>
        walkLeft line (getValidArrangements clues line) gr.start ++
          walkRight line (getValidArrangements clues line) line.length line.length
            (gr.stop + 1) := by
      have := hi.2
      exact List.mem_of_elem_eq_true this
    rw [List.mem_flatMap] at hm
    obtain ⟨gr, _, hgr⟩ := hm
    rcases List.mem_append.mp hgr with h | h
    · exact walkLeft_sound _ i h
    · exact walkRight_sound _ _ i h

theorem analyzeLine_marks_mbe {line : List Cell} {clues : List Nat} :
    ∀ i ∈ (analyzeLine line clues).cellsToMark,
      mustBeEmptyAt line (getValidArrangements clues line) i = true := by
  intro i hi
  rw [analyzeLine] at hi
  by_cases hv : getValidArrangements clues line = []
  · simp [hv] at hi
  · simp only [hv, if_false] at hi
    exact findCellsToMark_mbe i hi

theorem analyzeLineAllForced_marks_mbe {line : List Cell} {clues : List Nat} :
    ∀ i ∈ (analyzeLineAllForced line clues).cellsToMark,
      mustBeEmptyAt line (getValidArrangements clues line) i = true := by
  intro i hi
  rw [analyzeLineAllForced] at hi
  by_cases hv : getValidArrangements clues line = []
  · simp [hv] at hi
  · simp only [hv, if_false] at hi
    rw [findCellsToMarkAllForced, List.mem_filter] at hi
    rw [mustBeEmptyAt]
    exact hi.2

/-- C9: every index in `analyzeLine`'s `cellsToMark` is currently unknown
in the line and is left empty by every arrangement of the clue list that
is consistent with the line's known cells — for both the
propagate-from-groups revision and the all-forced-empty revision. -/
theorem claim_cellsToMark_sound :
    (∀ (line : List Cell) (clues : List Nat),
      ∀ i ∈ (analyzeLine line clues).cellsToMark,
        line.getD i none = none ∧
          ∀ arr ∈ generateArrangements clues line.length,
            lineCompatible line arr = true → arr.getD i false = false) ∧
    (∀ (line : List Cell) (clues : List Nat),
      ∀ i ∈ (analyzeLineAllForced line clues).cellsToMark,
        line.getD i none = none ∧
          ∀ arr ∈ generateArrangements clues line.length,
            lineCompatible line arr = true → arr.getD i false = false) :=
  ⟨fun line clues i hi => mustBeEmptyAt_sound (analyzeLine_marks_mbe i hi),
   fun line clues i hi => mustBeEmptyAt_sound (analyzeLineAllForced_marks_mbe i hi)⟩

/-- Witness for C9 on the line `[filled, unknown, unknown]` with clue
`[1]` (the spec's own example): index 1 is marked by the current revision
and index 2 by the all-forced-empty revision. -/
theorem claim_cellsToMark_sound_witness :
    (1 ∈ (analyzeLine [some true, none, none] [1]).cellsToMark) ∧
    (2 ∈ (analyzeLineAllForced [some true, none, none] [1]).cellsToMark) ∧
    (([some true, none, none] : List Cell).getD 1 none = none ∧
      ∀ arr ∈ generateArrangements [1] ([some true, none, none] : List Cell).length,
        lineCompatible [some true, none, none] arr = true → arr.getD 1 false = false) ∧
    (([some true, none, none] : List Cell).getD 2 none = none ∧
      ∀ arr ∈ generateArrangements [1] ([some true, none, none] : List Cell).length,
        lineCompatible [some true, none, none] arr = true → arr.getD 2 false = false) :=
  ⟨by decide, by decide,
   claim_cellsToMark_sound.1 [some true, none, none] [1] 1 (by decide),
   claim_cellsToMark_sound.2 [some true, none, none] [1] 2 (by decide)⟩

/-! ## Working-grid lemmas -/

theorem setCell_row (g : Grid) (a b : Nat) (v : Cell) (r : Nat) :
    (setCell g a b v).getD r [] =
      if a = r ∧ a < g.length then (g.getD a []).set b v else g.getD r [] := by
  rw [setCell, List.getD_eq_getElem?_getD, List.getElem?_set]
  by_cases har : a = r
  · subst har
    by_cases hlen : a < g.length
    · simp [hlen]
    · rw [if_pos rfl, if_neg hlen, if_neg (by tauto), Option.getD_none,
        List.getD_eq_getElem?_getD, List.getElem?_eq_none (by omega)]
      rfl
  · rw [if_neg har, if_neg (by tauto), ← List.getD_eq_getElem?_getD]

theorem gridGet_setCell_ne (g : Grid) (a b r c : Nat) (v : Cell)
    (h : ¬(a = r ∧ b = c)) : gridGet (setCell g a b v) r c = gridGet g r c := by
  rw [gridGet, gridGet, setCell_row]
  by_cases hcond : a = r ∧ a < g.length
  · obtain ⟨rfl, hlen⟩ := hcond
    rw [if_pos ⟨rfl, hlen⟩]
    have hbc : b ≠ c := fun hh => h ⟨rfl, hh⟩
    rw [List.getD_eq_getElem?_getD, List.getElem?_set_ne hbc,
      ← List.getD_eq_getElem?_getD]
  · rw [if_neg hcond]

theorem gridGet_setCell_self (g : Grid) (a b : Nat) (v : Cell) (ha : a < g.length)
    (hb : b < (g.getD a []).length) : gridGet (setCell g a b v) a b = v := by
  rw [gridGet, setCell_row, if_pos ⟨rfl, ha⟩, List.getD_eq_getElem?_getD,
    List.getElem?_set_eq hb]
  rfl

theorem gridGet_setCell_none_mono {g : Grid} {a b r c : Nat} {v : Bool}
    (h : gridGet (setCell g a b (some v)) r c = none) : gridGet g r c = none := by
  by_cases hpos : a = r ∧ b = c
  · obtain ⟨rfl, rfl⟩ := hpos
    by_cases ha : a < g.length
    · by_cases hb : b < (g.getD a []).length
      · rw [gridGet_setCell_self g a b _ ha hb] at h
        cases h
      · have hrow : (g.getD a [])[b]? = none := List.getElem?_eq_none (by omega)
        rw [gridGet, List.getD_eq_getElem?_getD, hrow]
        rfl
    · have hrow : g.getD a [] = [] := by
        rw [List.getD_eq_getElem?_getD, List.getElem?_eq_none (by omega)]
        rfl
      rw [gridGet, hrow]
      rfl
  · rwa [gridGet_setCell_ne g a b r c _ hpos] at h

theorem WFgrid_setCell {g : Grid} {n : Nat} (hwf : WFgrid g n) (a b : Nat) (v : Cell) :
    WFgrid (setCell g a b v) n := by
  obtain ⟨hlen, hrow⟩ := hwf
  refine ⟨by simp [setCell, hlen], ?_⟩
  intro r hr
  rw [setCell_row]
  by_cases hcond : a = r ∧ a < g.length
  · rw [if_pos hcond, List.length_set]
    exact hrow a (by omega)
  · rw [if_neg hcond]
    exact hrow r hr

theorem nullCountRow_set {row : List Cell} {c : Nat} (v : Bool) (hc : c < row.length)
    (hnone : row.getD c none = none) :
    nullCountRow (row.set c (some v)) + 1 = nullCountRow row := by
  have hcell : row[c] = none := by
    rw [List.getD_eq_getElem?_getD, List.getElem?_eq_getElem hc] at hnone
    simpa using hnone
  have hpos : 0 < nullCountRow row := by
    rw [nullCountRow]
    exact List.countP_pos.mpr ⟨row[c], List.getElem_mem hc, by simp [hcell]⟩
  rw [nullCountRow, nullCountRow, List.countP_set _ _ _ _ hc, hcell]
  rw [nullCountRow] at hpos
  rw [if_pos (show ((none : Cell) == none) = true from rfl),
    if_neg (show ¬((some v : Cell) == none) = true by simp)]
  omega

theorem nullCount_set_row (g : Grid) : ∀ (r : Nat) (row2 : List Cell), r < g.length →
    nullCount (g.set r row2) + nullCountRow (g.getD r []) =
      nullCount g + nullCountRow row2 := by
  induction g with
  | nil => intro r _ h; simp at h
  | cons row rest ih =>
      intro r row2 h
      cases r with
      | zero => simp [nullCount]; omega
      | succ r =>
          have := ih r row2 (by simpa using h)
          simp only [List.set_cons_succ, nullCount, List.map_cons, List.sum_cons,
            List.getD_cons_succ] at this ⊢
          omega

theorem nullCount_setCell {g : Grid} {r c : Nat} (v : Bool) (hr : r < g.length)
    (hc : c < (g.getD r []).length) (hnone : gridGet g r c = none) :
    nullCount (setCell g r c (some v)) + 1 = nullCount g := by
  rw [setCell]
  have h1 := nullCount_set_row g r ((g.getD r []).set c (some v)) hr
  have h2 := nullCountRow_set v hc hnone
  omega

theorem nullCount_emptyGrid (n : Nat) : nullCount (emptyGrid n) = n * n := by
  rw [emptyGrid, nullCount]
  induction n with
  | zero => simp
  | succ k _ =>
      rw [List.map_replicate, List.sum_replicate]
      have : nullCountRow (List.replicate (k + 1) none) = k + 1 := by
        rw [nullCountRow]
        induction (k + 1) with
        | zero => simp
        | succ m ihm => rw [List.replicate_succ, List.countP_cons]; simp [ihm]
      rw [this]
      simp [Nat.mul_comm]

theorem WFgrid_emptyGrid (n : Nat) : WFgrid (emptyGrid n) n := by
  refine ⟨by simp [emptyGrid], ?_⟩
  intro r hr
  rw [emptyGrid, List.getD_eq_getElem?_getD, List.getElem?_replicate, if_pos hr]
  simp

/-! ## C10: the flow loop deduces each cell at most once -/

theorem foldl_inv {α β : Type} {P : β → Prop} (f : β → α → β) (xs : List α)
    (hf : ∀ acc x, x ∈ xs → P acc → P (f acc x)) :
    ∀ acc, P acc → P (xs.foldl f acc) := by
  induction xs with
  | nil => intro acc h; exact h
  | cons x rest ih =>
      intro acc h
      exact ih (fun a y hy => hf a y (List.mem_cons_of_mem _ hy)) _
        (hf acc x (List.mem_cons_self _ _) h)

theorem addDed_inv {g : Grid} {n : Nat} {acc : List Ded} {d : Ded}
    (hOK : DedOK g n acc) (hr : d.r < n) (hc : d.c < n) :
    DedOK g n (addDed g acc d) := by
  rw [addDed]
  split
  · rename_i hcond
    rw [Bool.and_eq_true] at hcond
    obtain ⟨hseen, hnone⟩ := hcond
    constructor
    · simp only [dedPositions, List.map_append, List.nodup_append]
      refine ⟨hOK.1, by simp, ?_⟩
      intro p hp hp2
      simp only [List.map_cons, List.map_nil, List.mem_singleton] at hp2
      subst hp2
      rw [List.mem_map] at hp
      obtain ⟨e, he, hpe⟩ := hp
      rw [Bool.not_eq_eq_eq_not, Bool.not_true, List.any_eq_false] at hseen
      have := hseen e he
      simp only [Bool.and_eq_true, beq_iff_eq] at this
      exact this ⟨congrArg Prod.fst hpe, congrArg Prod.snd hpe⟩
    · intro e he
      rcases List.mem_append.mp he with he | he
      · exact hOK.2 e he
      · rw [List.mem_singleton] at he
        subst he
        exact ⟨by simpa using hnone, hr, hc⟩
  · exact hOK

theorem lineDedsRow_inv {g : Grid} {rowClues : List (List Nat)} {n : Nat}
    {acc : List Ded} {r : Nat} (hOK : DedOK g n acc) (hr : r < n) :
    DedOK g n (lineDedsRow g rowClues n acc r) := by
  rw [lineDedsRow]
  split
  · exact hOK
  · refine foldl_inv _ _ ?_ acc hOK
    intro a c hcmem ha
    have hc : c < n := List.mem_range.mp hcmem
    split
    · split
      · exact addDed_inv ha hr hc
      · split
        · exact addDed_inv ha hr hc
        · exact ha
    · exact ha

theorem lineDedsCol_inv {g : Grid} {colClues : List (List Nat)} {n : Nat}
    {acc : List Ded} {c : Nat} (hOK : DedOK g n acc) (hc : c < n) :
    DedOK g n (lineDedsCol g colClues n acc c) := by
  rw [lineDedsCol]
  split
  · exact hOK
  · refine foldl_inv _ _ ?_ acc hOK
    intro a r hrmem ha
    have hr : r < n := List.mem_range.mp hrmem
    split
    · split
      · exact addDed_inv ha hr hc
      · split
        · exact addDed_inv ha hr hc
        · exact ha
    · exact ha

theorem findDeductionsForGrid_inv (g : Grid) (rowClues colClues : List (List Nat))
    (n : Nat) : DedOK g n (findDeductionsForGrid g rowClues colClues n) := by
  rw [findDeductionsForGrid]
  refine foldl_inv _ _ ?_ _ (foldl_inv _ _ ?_ [] ⟨List.nodup_nil, by simp⟩)
  · intro acc c hcmem ha
    exact lineDedsCol_inv ha (List.mem_range.mp hcmem)
  · intro acc r hrmem ha
    exact lineDedsRow_inv ha (List.mem_range.mp hrmem)

theorem applyDeds_none_mono {deds : List Ded} : ∀ {g : Grid} {r c : Nat},
    gridGet (applyDeds g deds) r c = none → gridGet g r c = none := by
  induction deds with
  | nil => intro g r c h; exact h
  | cons d rest ih =>
      intro g r c h
      rw [applyDeds, List.foldl_cons] at h
      exact gridGet_setCell_none_mono (ih h)

theorem applyDeds_untouched {deds : List Ded} : ∀ {g : Grid} {r c : Nat},
    (∀ d ∈ deds, ¬(d.r = r ∧ d.c = c)) →
    gridGet (applyDeds g deds) r c = gridGet g r c := by
  induction deds with
  | nil => intro g r c _; rfl
  | cons d rest ih =>
      intro g r c hne
      rw [applyDeds, List.foldl_cons]
      rw [show List.foldl (fun gg d => setCell gg d.r d.c (some d.value))
        (setCell g d.r d.c (some d.value)) rest =
        applyDeds (setCell g d.r d.c (some d.value)) rest from rfl]
      rw [ih (fun e he => hne e (List.mem_cons_of_mem _ he))]
      exact gridGet_setCell_ne _ _ _ _ _ _ (hne d (List.mem_cons_self _ _))

theorem WFgrid_applyDeds {deds : List Ded} : ∀ {g : Grid} {n : Nat},
    WFgrid g n → WFgrid (applyDeds g deds) n := by
  induction deds with
  | nil => intro g n h; exact h
  | cons d rest ih =>
      intro g n h
      rw [applyDeds, List.foldl_cons]
      exact ih (WFgrid_setCell h d.r d.c _)

theorem applyDeds_assigned {deds : List Ded} : ∀ {g : Grid} {n : Nat},
    WFgrid g n → DedOK g n deds →
    ∀ d ∈ deds, gridGet (applyDeds g deds) d.r d.c ≠ none := by
  induction deds with
  | nil => intro g n _ _ d hd; cases hd
  | cons d0 rest ih =>
      intro g n hwf hOK d hd
      have hd0 := hOK.2 d0 (List.mem_cons_self _ _)
      have hwf2 := WFgrid_setCell hwf d0.r d0.c (some d0.value)
      rcases List.mem_cons.mp hd with rfl | hd
      · rw [applyDeds, List.foldl_cons]
        rw [show List.foldl (fun gg e => setCell gg e.r e.c (some e.value))
          (setCell g d.r d.c (some d.value)) rest =
          applyDeds (setCell g d.r d.c (some d.value)) rest from rfl]
        have hnotin : ∀ e ∈ rest, ¬(e.r = d.r ∧ e.c = d.c) := by
          intro e he hcontra
          have hnd := hOK.1
          simp only [dedPositions, List.map_cons, List.nodup_cons] at hnd
          exact hnd.1 (List.mem_map.mpr ⟨e, he, by
            simp [Prod.ext_iff, hcontra.1, hcontra.2]⟩)
        rw [applyDeds_untouched hnotin]
        rw [gridGet_setCell_self g d.r d.c _ (by rw [hwf.1]; exact hd0.2.1)
          (by rw [hwf.2 d.r hd0.2.1]; exact hd0.2.2)]
        simp
      · rw [applyDeds, List.foldl_cons]
        rw [show List.foldl (fun gg e => setCell gg e.r e.c (some e.value))
          (setCell g d0.r d0.c (some d0.value)) rest =
          applyDeds (setCell g d0.r d0.c (some d0.value)) rest from rfl]
        refine ih hwf2 ?_ d hd
        constructor
        · have hnd := hOK.1
          simp only [dedPositions, List.map_cons, List.nodup_cons] at hnd
          exact hnd.2
        · intro e he
          have hOKe := hOK.2 e (List.mem_cons_of_mem _ he)
          refine ⟨?_, hOKe.2⟩
          rw [gridGet_setCell_ne _ _ _ _ _ _ ?_]
          · exact hOKe.1
          · intro hcontra
            have hnd := hOK.1
            simp only [dedPositions, List.map_cons, List.nodup_cons] at hnd
            exact hnd.1 (List.mem_map.mpr ⟨e, he, by
              simp [Prod.ext_iff, hcontra.1, hcontra.2]⟩)

theorem applyDeds_nullCount {deds : List Ded} : ∀ {g : Grid} {n : Nat},
    WFgrid g n → DedOK g n deds →
    nullCount (applyDeds g deds) + deds.length = nullCount g := by
  induction deds with
  | nil => intro g n _ _; simp [applyDeds]
  | cons d0 rest ih =>
      intro g n hwf hOK
      have hd0 := hOK.2 d0 (List.mem_cons_self _ _)
      have hwf2 := WFgrid_setCell hwf d0.r d0.c (some d0.value)
      have hset : nullCount (setCell g d0.r d0.c (some d0.value)) + 1 = nullCount g :=
        nullCount_setCell d0.value (by rw [hwf.1]; exact hd0.2.1)
          (by rw [hwf.2 d0.r hd0.2.1]; exact hd0.2.2) hd0.1
      rw [applyDeds, List.foldl_cons]
      rw [show List.foldl (fun gg e => setCell gg e.r e.c (some e.value))
        (setCell g d0.r d0.c (some d0.value)) rest =
        applyDeds (setCell g d0.r d0.c (some d0.value)) rest from rfl]
      have hOK2 : DedOK (setCell g d0.r d0.c (some d0.value)) n rest := by
        constructor
        · have hnd := hOK.1
          simp only [dedPositions, List.map_cons, List.nodup_cons] at hnd
          exact hnd.2
        · intro e he
          have hOKe := hOK.2 e (List.mem_cons_of_mem _ he)
          refine ⟨?_, hOKe.2⟩
          rw [gridGet_setCell_ne _ _ _ _ _ _ ?_]
          · exact hOKe.1
          · intro hcontra
            have hnd := hOK.1
            simp only [dedPositions, List.map_cons, List.nodup_cons] at hnd
            exact hnd.1 (List.mem_map.mpr ⟨e, he, by
              simp [Prod.ext_iff, hcontra.1, hcontra.2]⟩)
      have := ih hwf2 hOK2
      simp only [List.length_cons]
      omega

theorem flowLoop_inv (rowClues colClues : List (List Nat)) (n : Nat) :
    ∀ (fuel wn : Nat) (g : Grid), WFgrid g n →
      ((flowLoop rowClues colClues n fuel wn g).1.length ≤ fuel) ∧
      (∀ w ∈ (flowLoop rowClues colClues n fuel wn g).1, w.deductions ≠ []) ∧
      ((flowLoop rowClues colClues n fuel wn g).1.flatMap
        (fun w => w.deductions.map fun d => (d.r, d.c))).Nodup ∧
      (∀ p ∈ (flowLoop rowClues colClues n fuel wn g).1.flatMap
        (fun w => w.deductions.map fun d => (d.r, d.c)),
        gridGet g p.1 p.2 = none) ∧
      ((flowLoop rowClues colClues n fuel wn g).2.1 =
        ((flowLoop rowClues colClues n fuel wn g).1.map
          fun w => w.deductions.length).sum) ∧
      ((flowLoop rowClues colClues n fuel wn g).2.1 ≤ nullCount g) := by
  intro fuel
  induction fuel with
  | zero =>
      intro wn g _
      simp [flowLoop]
  | succ fuel ih =>
      intro wn g hwf
      by_cases hd : findDeductionsForGrid g rowClues colClues n = []
      · rw [flowLoop]
        simp [hd]
      · have hOK := findDeductionsForGrid_inv g rowClues colClues n
        rw [flowLoop]
        simp only [hd, if_false]
        rw [show (findDeductionsForGrid g rowClues colClues n).foldl
          (fun gg d => setCell gg d.r d.c (some d.value)) g =
          applyDeds g (findDeductionsForGrid g rowClues colClues n) from rfl]
        set deds := findDeductionsForGrid g rowClues colClues n with hdeds
        set g1 := applyDeds g deds with hg1
        have hwf1 : WFgrid g1 n := WFgrid_applyDeds hwf
        have hnc : nullCount g1 + deds.length = nullCount g :=
          applyDeds_nullCount hwf hOK
        obtain ⟨ih1, ih2, ih3, ih4, ih5, ih6⟩ := ih (wn + 1) g1 hwf1
        have hposmap : ((deds.map fun d =>
            (⟨d.r, d.c, d.value, d.source, d.sourceIndex, getQuadrant d.r d.c n⟩ :
              WaveDed)).map fun d => (d.r, d.c)) = dedPositions deds := by
          rw [List.map_map]
          rfl
        refine ⟨?_, ?_, ?_, ?_, ?_, ?_⟩
        · simpa using ih1
        · intro w hw
          rcases List.mem_cons.mp hw with rfl | hw
          · simp only []
            intro hcontra
            exact hd (List.map_eq_nil_iff.mp hcontra)
          · exact ih2 w hw
        · rw [List.flatMap_cons, List.nodup_append]
          refine ⟨?_, ih3, ?_⟩
          · rw [hposmap]
            exact hOK.1
          · rw [hposmap]
            intro p hp hp2
            rw [dedPositions, List.mem_map] at hp
            obtain ⟨d, hdmem, rfl⟩ := hp
            have hassigned := applyDeds_assigned hwf hOK d hdmem
            exact hassigned (ih4 _ hp2)
        · intro p hp
          rw [List.flatMap_cons] at hp
          rcases List.mem_append.mp hp with hp | hp
          · rw [hposmap, dedPositions, List.mem_map] at hp
            obtain ⟨d, hdmem, rfl⟩ := hp
            exact (hOK.2 d hdmem).1
          · exact applyDeds_none_mono (ih4 p hp)
        · simp only [List.map_cons, List.sum_cons, List.length_map]
          omega
        · omega

/-- C10: the information-flow simulation terminates within its caps: it
records at most `size * size` waves, every recorded wave holds at least
one deduction, the positions deduced across all waves are pairwise
distinct (each wave deduces only previously-unknown cells, deduplicated by
position), `totalDeductions` is the sum of the wave sizes, and so it never
exceeds `size * size`. -/
theorem claim_flow_resources (rowClues colClues : List (List Nat)) (n : Nat) :
    (analyzeInformationFlow rowClues colClues n).totalWaves ≤ n * n ∧
    (∀ w ∈ (analyzeInformationFlow rowClues colClues n).waves, w.deductions ≠ []) ∧
    ((analyzeInformationFlow rowClues colClues n).waves.flatMap
      (fun w => w.deductions.map fun d => (d.r, d.c))).Nodup ∧
    (analyzeInformationFlow rowClues colClues n).totalDeductions =
      ((analyzeInformationFlow rowClues colClues n).waves.map
        fun w => w.deductions.length).sum ∧
    (analyzeInformationFlow rowClues colClues n).totalDeductions ≤ n * n := by
  have h := flowLoop_inv rowClues colClues n (n * n) 0 (emptyGrid n)
    (WFgrid_emptyGrid n)
  rw [nullCount_emptyGrid] at h
  exact ⟨h.1, h.2.1, h.2.2.1, h.2.2.2.2.1, h.2.2.2.2.2⟩

/-! ## C5: metrics of an unsolved flow analysis -/

theorem round2_zero : round2 0 = 0 := by
  rw [round2, jsRound]
  norm_num

theorem calculateMetrics_flowScore_unsolved (waves : List Wave) (n : Nat) :
    (calculateMetrics waves n false).flowScore = 0 := by
  rw [calculateMetrics]
  split
  · rfl
  · show round2 (calculateFlowScore _ _ _ _ _ false _) = 0
    rw [calculateFlowScore]
    simp only [Bool.not_false, if_true]
    exact round2_zero

theorem analyzeInformationFlow_metrics (rowClues colClues : List (List Nat)) (n : Nat) :
    (analyzeInformationFlow rowClues colClues n).metrics =
      calculateMetrics (analyzeInformationFlow rowClues colClues n).waves n
        (analyzeInformationFlow rowClues colClues n).solved := rfl

theorem flowScore_zero_of_unsolved (rowClues colClues : List (List Nat)) (n : Nat)
    (h : (analyzeInformationFlow rowClues colClues n).solved = false) :
    (analyzeInformationFlow rowClues colClues n).metrics.flowScore = 0 := by
  rw [analyzeInformationFlow_metrics, h]
  exact calculateMetrics_flowScore_unsolved _ n

theorem metrics_zero_of_no_waves (rowClues colClues : List (List Nat)) (n : Nat)
    (h : (analyzeInformationFlow rowClues colClues n).waves = []) :
    (analyzeInformationFlow rowClues colClues n).metrics = ⟨0, 0, 0, 0, 0⟩ := by
  rw [analyzeInformationFlow_metrics, h, calculateMetrics]
  simp

theorem entryPoints_of_waves_cons (rowClues colClues : List (List Nat)) (n : Nat)
    {w : Wave} {rest : List Wave}
    (hw : (analyzeInformationFlow rowClues colClues n).waves = w :: rest) :
    (analyzeInformationFlow rowClues colClues n).metrics.entryPoints =
      w.deductions.length := by
  rw [analyzeInformationFlow_metrics, hw, calculateMetrics, if_neg (by simp)]
  rfl

theorem metrics_zero_iff_no_waves (rowClues colClues : List (List Nat)) (n : Nat) :
    (analyzeInformationFlow rowClues colClues n).metrics = ⟨0, 0, 0, 0, 0⟩ ↔
      (analyzeInformationFlow rowClues colClues n).waves = [] := by
  constructor
  · intro h
    by_contra hne
    obtain ⟨w, rest, hw⟩ := List.exists_cons_of_ne_nil hne
    have hwne : w.deductions ≠ [] := by
      have hinv := (flowLoop_inv rowClues colClues n (n * n) 0 (emptyGrid n)
        (WFgrid_emptyGrid n)).2.1
      apply hinv
      have hwaves : (analyzeInformationFlow rowClues colClues n).waves =
          (flowLoop rowClues colClues n (n * n) 0 (emptyGrid n)).1 := rfl
      rw [← hwaves, hw]
      exact List.mem_cons_self _ _
    have hent := entryPoints_of_waves_cons rowClues colClues n hw
    rw [h] at hent
    exact hwne (List.eq_nil_of_length_eq_zero (by simpa using hent.symm))
  · exact metrics_zero_of_no_waves rowClues colClues n

/-- Counterexample to C5 as stated: on the 4×4 clue set with rows and
columns `[1], [1], [0], [0]` the analysis stalls with the top-left 2×2
block unknown (`solved = false`), yet the first wave held 12 deductions,
so `entryPoints` is 12 and not zero — metrics other than `flowScore` are
not zeroed on an unsolved analysis that made some progress. -/
theorem claim_flowMetrics_counterexample :
    (analyzeInformationFlow [[1], [1], [0], [0]] [[1], [1], [0], [0]] 4).solved = false ∧
    (analyzeInformationFlow [[1], [1], [0], [0]] [[1], [1], [0], [0]] 4).metrics.entryPoints
      = 12 := by
  constructor
  · decide
  · decide

/-- C5 amended: when the wave loop ends with the grid not fully assigned,
`flowScore` is 0; all returned metrics (entryPoints, quadrantSpread,
quadrantSwitches, spatialVariance, and the score) are zero exactly when no
wave of deductions was recorded at all; in particular the 3×3 grid whose
three row clues and three column clues are each `[1]` yields
`solved = false` with all-zero metrics and `flowScore = 0`. -/
theorem claim_flowMetrics_amended :
    (∀ (rowClues colClues : List (List Nat)) (n : Nat),
      (analyzeInformationFlow rowClues colClues n).solved = false →
        (analyzeInformationFlow rowClues colClues n).metrics.flowScore = 0) ∧
    (∀ (rowClues colClues : List (List Nat)) (n : Nat),
      (analyzeInformationFlow rowClues colClues n).metrics = ⟨0, 0, 0, 0, 0⟩ ↔
        (analyzeInformationFlow rowClues colClues n).waves = []) ∧
    ((analyzeInformationFlow [[1], [1], [1]] [[1], [1], [1]] 3).solved = false ∧
      (analyzeInformationFlow [[1], [1], [1]] [[1], [1], [1]] 3).metrics.flowScore = 0) :=
  ⟨flowScore_zero_of_unsolved, metrics_zero_iff_no_waves,
   by decide, flowScore_zero_of_unsolved [[1], [1], [1]] [[1], [1], [1]] 3 (by decide)⟩

/-- Witness for C5 (amended) at the 3×3 all-`[1]` clue set. -/
theorem claim_flowMetrics_amended_witness :
    ((analyzeInformationFlow [[1], [1], [1]] [[1], [1], [1]] 3).solved = false) ∧
    ((analyzeInformationFlow [[1], [1], [1]] [[1], [1], [1]] 3).metrics.flowScore = 0) ∧
    ((analyzeInformationFlow [[1], [1], [1]] [[1], [1], [1]] 3).waves = []) ∧
    ((analyzeInformationFlow [[1], [1], [1]] [[1], [1], [1]] 3).metrics = ⟨0, 0, 0, 0, 0⟩) :=
  ⟨by decide,
   claim_flowMetrics_amended.1 [[1], [1], [1]] [[1], [1], [1]] 3 (by decide),
   by decide,
   (claim_flowMetrics_amended.2.1 [[1], [1], [1]] [[1], [1], [1]] 3).mpr (by decide)⟩

/-! ## C2: enumeration of candidate grids -/

theorem mem_tuples {α : Type} (xs : List α) : ∀ (k : Nat) (l : List α),
    l ∈ tuples xs k ↔ l.length = k ∧ ∀ x ∈ l, x ∈ xs := by
  intro k
  induction k with
  | zero =>
      intro l
      rw [tuples]
      constructor
      · intro h
        rw [List.mem_singleton] at h
        subst h
        simp
      · intro ⟨h1, _⟩
        rw [List.mem_singleton]
        exact List.eq_nil_of_length_eq_zero h1
  | succ k ih =>
      intro l
      rw [tuples, List.mem_flatMap]
      constructor
      · rintro ⟨x, hx, hl⟩
        rw [List.mem_map] at hl
        obtain ⟨t, ht, rfl⟩ := hl
        obtain ⟨h1, h2⟩ := (ih t).mp ht
        refine ⟨by simp [h1], ?_⟩
        intro y hy
        rcases List.mem_cons.mp hy with rfl | hy
        · exact hx
        · exact h2 y hy
      · rintro ⟨h1, h2⟩
        cases l with
        | nil => simp at h1
        | cons x t =>
            refine ⟨x, h2 x (List.mem_cons_self _ _), ?_⟩
            rw [List.mem_map]
            refine ⟨t, (ih t).mpr ⟨by simpa using h1, ?_⟩, rfl⟩
            intro y hy
            exact h2 y (List.mem_cons_of_mem _ hy)

theorem tuples_nodup {α : Type} {xs : List α} (hxs : xs.Nodup) :
    ∀ (k : Nat), (tuples xs k).Nodup := by
  intro k
  induction k with
  | zero => rw [tuples]; exact List.nodup_singleton _
  | succ k ih =>
      rw [tuples, List.nodup_flatMap]
      constructor
      · intro x _
        exact ih.map fun a b hab => List.tail_eq_of_cons_eq hab
      · refine hxs.imp_of_mem ?_
        intro a b _ _ hab t hta htb
        rw [List.mem_map] at hta htb
        obtain ⟨t1, _, rfl⟩ := hta
        obtain ⟨t2, _, habs⟩ := htb
        exact hab (List.head_eq_of_cons_eq habs.symm)

theorem mem_allLines {n : Nat} {l : List Bool} : l ∈ allLines n ↔ l.length = n := by
  rw [allLines, mem_tuples]
  constructor
  · exact fun h => h.1
  · intro h
    exact ⟨h, by intro x _; cases x <;> simp⟩

theorem mem_allGrids {n : Nat} {g : List (List Bool)} :
    g ∈ allGrids n ↔ g.length = n ∧ ∀ row ∈ g, row.length = n := by
  rw [allGrids, mem_tuples]
  constructor
  · intro ⟨h1, h2⟩
    exact ⟨h1, fun row hr => mem_allLines.mp (h2 row hr)⟩
  · intro ⟨h1, h2⟩
    exact ⟨h1, fun row hr => mem_allLines.mpr (h2 row hr)⟩

theorem allGrids_nodup (n : Nat) : (allGrids n).Nodup :=
  tuples_nodup (tuples_nodup (by decide) n) n

/-! ## Pointwise access lemmas -/

theorem getD_some_lt {α : Type} {l : List (Option α)} {i : Nat} {b : α}
    (h : l.getD i none = some b) : i < l.length := by
  by_contra hcon
  rw [List.getD_eq_getElem?_getD, List.getElem?_eq_none (by omega)] at h
  cases h

theorem getCol_getD (g : Grid) (c : Nat) : ∀ (r : Nat),
    (getCol g c).getD r none = gridGet g r c := by
  induction g with
  | nil => intro r; cases r <;> rfl
  | cons row rest ih =>
      intro r
      cases r with
      | zero => rfl
      | succ r =>
          rw [getCol, List.map_cons, List.getD_cons_succ, gridGet,
            List.getD_cons_succ]
          exact ih r

theorem bcol_getD (g : List (List Bool)) (c : Nat) : ∀ (r : Nat),
    (bcol g c).getD r false = (g.getD r []).getD c false := by
  induction g with
  | nil => intro r; cases r <;> rfl
  | cons row rest ih =>
      intro r
      cases r with
      | zero => rfl
      | succ r =>
          rw [bcol, List.map_cons, List.getD_cons_succ, List.getD_cons_succ]
          exact ih r

theorem boolRow_getD (row : List Cell) : ∀ (c : Nat),
    (boolRow row).getD c false = (row.getD c none).getD false := by
  induction row with
  | nil => intro c; cases c <;> rfl
  | cons cell rest ih =>
      intro c
      cases c with
      | zero => rfl
      | succ c =>
          rw [boolRow, List.map_cons, List.getD_cons_succ, List.getD_cons_succ]
          exact ih c

theorem setRow_getD (g : Grid) (r : Nat) (row2 : List Cell) (r2 : Nat) :
    (g.set r row2).getD r2 [] =
      if r = r2 ∧ r < g.length then row2 else g.getD r2 [] := by
  rw [List.getD_eq_getElem?_getD, List.getElem?_set]
  by_cases har : r = r2
  · subst har
    by_cases hlen : r < g.length
    · simp [hlen]
    · rw [if_pos rfl, if_neg hlen, if_neg (by tauto), Option.getD_none,
        List.getD_eq_getElem?_getD, List.getElem?_eq_none (by omega)]
      rfl
  · rw [if_neg har, if_neg (by tauto), ← List.getD_eq_getElem?_getD]

theorem range_map_getD {α : Type} (k : Nat) (f : Nat → α) (d : α) (i : Nat) :
    ((List.range k).map f).getD i d = if i < k then f i else d := by
  rw [List.getD_eq_getElem?_getD, List.getElem?_map]
  by_cases h : i < k
  · rw [List.getElem?_range h, if_pos h]
    rfl
  · rw [List.getElem?_eq_none (by simpa using h), if_neg h]
    rfl

theorem writeCol_getD {g : Grid} {n : Nat} (hwf : WFgrid g n) {c : Nat} (hc : c < n)
    {col2 : List Cell} (hlen : col2.length = n) (r2 c2 : Nat) :
    gridGet (writeCol g c col2) r2 c2 =
      if r2 < n ∧ c2 = c then col2.getD r2 none else gridGet g r2 c2 := by
  obtain ⟨hglen, hgrow⟩ := hwf
  have hrow2 : (writeCol g c col2).getD r2 [] =
      if r2 < n then (g.getD r2 []).set c (col2.getD r2 none) else [] := by
    rw [writeCol, List.getD_eq_getElem?_getD, List.getElem?_zipWith]
    by_cases hr2 : r2 < n
    · rw [List.getElem?_eq_getElem (show r2 < g.length by omega),
        List.getElem?_eq_getElem (show r2 < col2.length by omega)]
      simp only [if_pos hr2, Option.getD_some]
      congr 1
      · rw [List.getD_eq_getElem?_getD,
          List.getElem?_eq_getElem (show r2 < g.length by omega)]
        rfl
      · rw [List.getD_eq_getElem?_getD,
          List.getElem?_eq_getElem (show r2 < col2.length by omega)]
        rfl
    · rw [List.getElem?_eq_none (show g.length ≤ r2 by omega), if_neg hr2]
      rfl
  rw [gridGet, hrow2]
  by_cases hr2 : r2 < n
  · rw [if_pos hr2]
    by_cases hc2 : c2 = c
    · subst hc2
      rw [if_pos ⟨hr2, rfl⟩, List.getD_eq_getElem?_getD,
        List.getElem?_set_eq (by rw [hgrow r2 hr2]; exact hc)]
      rfl
    · rw [if_neg (by tauto), gridGet, List.getD_eq_getElem?_getD,
        List.getElem?_set_ne (fun hh => hc2 hh.symm), ← List.getD_eq_getElem?_getD]
  · rw [if_neg hr2, if_neg (by tauto), gridGet]
    have hnil : g.getD r2 [] = [] := by
      rw [List.getD_eq_getElem?_getD, List.getElem?_eq_none (show g.length ≤ r2 by omega)]
      rfl
    rw [hnil]

/-! ## Compatibility and extension characterized pointwise -/

theorem lineCompatible_iff : ∀ {line : List Cell} {arr : List Bool},
    line.length = arr.length →
    (lineCompatible line arr = true ↔
      ∀ i b, line.getD i none = some b → arr.getD i false = b) := by
  intro line
  induction line with
  | nil =>
      intro arr hlen
      have : arr = [] := List.eq_nil_of_length_eq_zero hlen.symm
      subst this
      rw [lineCompatible]
      constructor
      · intro _ i b hb
        cases i <;> cases hb
      · intro _
        rfl
  | cons cell rest ih =>
      intro arr hlen
      cases arr with
      | nil => simp at hlen
      | cons a as =>
          have hlen2 : rest.length = as.length := by simpa using hlen
          cases cell with
          | none =>
              rw [lineCompatible]
              rw [ih hlen2]
              constructor
              · intro h i b hb
                cases i with
                | zero => cases hb
                | succ i =>
                    rw [List.getD_cons_succ] at hb ⊢
                    exact h i b hb
              · intro h i b hb
                have := h (i + 1) b
                rw [List.getD_cons_succ, List.getD_cons_succ] at this
                exact this hb
          | some b0 =>
              rw [lineCompatible, Bool.and_eq_true, beq_iff_eq, ih hlen2]
              constructor
              · intro ⟨hb0, h⟩ i b hb
                cases i with
                | zero =>
                    rw [List.getD_cons_zero] at hb
                    cases hb
                    rw [List.getD_cons_zero]
                    exact hb0.symm
                | succ i =>
                    rw [List.getD_cons_succ] at hb ⊢
                    exact h i b hb
              · intro h
                constructor
                · have := h 0 b0
                  rw [List.getD_cons_zero, List.getD_cons_zero] at this
                  exact (this rfl).symm
                · intro i b hb
                  have := h (i + 1) b
                  rw [List.getD_cons_succ, List.getD_cons_succ] at this
                  exact this hb

theorem forceLine_getD_known {valid : List (List Bool)} {line : List Cell} {i : Nat}
    {b : Bool} (h : line.getD i none = some b) :
    (forceLine valid line).getD i none = some b := by
  rw [forceLine, range_map_getD, if_pos (getD_some_lt h), h]

theorem forceLine_getD_none {valid : List (List Bool)} {line : List Cell} {i : Nat}
    (h : line.getD i none = none) (hi : i < line.length) :
    (forceLine valid line).getD i none =
      if valid.all (fun arr => arr.getD i false == true) then some true
      else if valid.all (fun arr => arr.getD i false == false) then some false
      else none := by
  rw [forceLine, range_map_getD, if_pos hi, h]

theorem forceLine_getD_oob {valid : List (List Bool)} {line : List Cell} {i : Nat}
    (hi : ¬i < line.length) : (forceLine valid line).getD i none = none := by
  rw [forceLine, range_map_getD, if_neg hi]

theorem forceLine_length (valid : List (List Bool)) (line : List Cell) :
    (forceLine valid line).length = line.length := by
  simp [forceLine]

theorem processLine_some {clues : List Nat} {line line' : List Cell}
    (h : processLine clues line = some line') :
    line' = forceLine (getValidArrangements clues line) line ∧
      getValidArrangements clues line ≠ [] := by
  rw [processLine] at h
  split at h
  · cases h
  · rename_i hne
    exact ⟨(Option.some_inj.mp h).symm, hne⟩

theorem processLine_none_iff {clues : List Nat} {line : List Cell} :
    processLine clues line = none ↔ getValidArrangements clues line = [] := by
  rw [processLine]
  split
  · rename_i he
    simp [he]
  · rename_i he
    simp [he]

theorem forceLine_sub {valid : List (List Bool)} {line : List Cell} (i : Nat) (b : Bool)
    (h : line.getD i none = some b) :
    (forceLine valid line).getD i none = some b :=
  forceLine_getD_known h

theorem forceLine_cases {valid : List (List Bool)} {line : List Cell} (i : Nat) (b : Bool)
    (h : (forceLine valid line).getD i none = some b) :
    line.getD i none = some b ∨
      (line.getD i none = none ∧ ∀ arr ∈ valid, arr.getD i false = b) := by
  by_cases hi : i < line.length
  · rcases hcell : line.getD i none with _ | b2
    · rw [forceLine_getD_none hcell hi] at h
      refine Or.inr ⟨rfl, ?_⟩
      intro arr ha
      split at h
      · rename_i hall
        cases h
        simpa using List.all_eq_true.mp hall arr ha
      · split at h
        · rename_i hall
          cases h
          simpa using List.all_eq_true.mp hall arr ha
        · cases h
    · rw [forceLine_getD_known hcell] at h
      cases h
      exact Or.inl rfl
  · rw [forceLine_getD_oob hi] at h
    cases h

theorem forceLine_compat {clues : List Nat} {line : List Cell} {arr : List Bool}
    (hmem : arr ∈ generateArrangements clues line.length)
    (hcomp : lineCompatible line arr = true) :
    lineCompatible (forceLine (getValidArrangements clues line) line) arr = true := by
  have hlen := generateArrangements_length hmem
  rw [lineCompatible_iff (by rw [forceLine_length, hlen])]
  intro i b hb
  rcases forceLine_cases i b hb with h | ⟨_, hall⟩
  · exact (lineCompatible_iff hlen.symm).mp hcomp i b h
  · exact hall arr (List.mem_filter.mpr ⟨hmem, hcomp⟩)

theorem nullCountRow_sub : ∀ {l2 l : List Cell}, l2.length = l.length →
    (∀ i b, l.getD i none = some b → l2.getD i none = some b) →
    nullCountRow l2 ≤ nullCountRow l ∧
      (l2 ≠ l → nullCountRow l2 < nullCountRow l) := by
  intro l2 l
  induction l generalizing l2 with
  | nil =>
      intro hlen _
      have : l2 = [] := List.eq_nil_of_length_eq_zero hlen
      subst this
      exact ⟨Nat.le_refl _, fun h => absurd rfl h⟩
  | cons a t ih =>
      intro hlen hsub
      cases l2 with
      | nil => simp at hlen
      | cons a2 t2 =>
          have hlen2 : t2.length = t.length := by simpa using hlen
          have hsubt : ∀ i b, t.getD i none = some b → t2.getD i none = some b := by
            intro i b hb
            have := hsub (i + 1) b
            rw [List.getD_cons_succ, List.getD_cons_succ] at this
            exact this hb
          obtain ⟨ihle, ihlt⟩ := ih hlen2 hsubt
          rcases ha : a with _ | b
          · rw [nullCountRow, nullCountRow, List.countP_cons, List.countP_cons]
            by_cases ha2 : a2 = none
            · subst ha2
              constructor
              · simp only [nullCountRow] at ihle
                simp
                omega
              · intro hne
                have ht2 : t2 ≠ t := by
                  intro hh
                  exact hne (by rw [hh])
                have := ihlt ht2
                simp only [nullCountRow] at this
                simp
                omega
            · have h2 : ((a2 == none) : Bool) = false := by
                simp [ha2]
              constructor
              · simp only [nullCountRow] at ihle
                simp [h2]
                omega
              · intro _
                simp only [nullCountRow] at ihle
                simp [h2]
                omega
          · have ha2 : a2 = some b := by
              have := hsub 0 b
              rw [List.getD_cons_zero, List.getD_cons_zero] at this
              exact this ha
            subst ha2
            rw [nullCountRow, nullCountRow, List.countP_cons, List.countP_cons]
            constructor
            · simp only [nullCountRow] at ihle
              omega
            · intro hne
              have ht2 : t2 ≠ t := by
                intro hh
                exact hne (by rw [hh])
              have := ihlt ht2
              simp only [nullCountRow] at this
              omega

theorem WF_rows_mem {g : Grid} {n : Nat} (hwf : WFgrid g n) :
    ∀ row ∈ g, row.length = n := by
  intro row hrow
  obtain ⟨r, hr, rfl⟩ := List.mem_iff_getElem.mp hrow
  have : g[r] = g.getD r [] := by
    rw [List.getD_eq_getElem?_getD, List.getElem?_eq_getElem hr]
    rfl
  rw [this]
  exact hwf.2 r (hwf.1 ▸ hr)

theorem extendsB_iff {n : Nat} {g : Grid} {sol : List (List Bool)} :
    extendsB n g sol = true ↔
      ∀ r c, r < n → c < n → ∀ b, gridGet g r c = some b →
        (sol.getD r []).getD c false = b := by
  rw [extendsB]
  rw [List.all_eq_true]
  constructor
  · intro h r c hr hc b hb
    have h2 := h r (List.mem_range.mpr hr)
    rw [List.all_eq_true] at h2
    have h3 := h2 c (List.mem_range.mpr hc)
    rw [hb] at h3
    simpa using h3
  · intro h r hr
    rw [List.all_eq_true]
    intro c hc
    rcases hg : gridGet g r c with _ | b
    · simp
    · simpa using h r c (List.mem_range.mp hr) (List.mem_range.mp hc) b hg

theorem bool_eq_of_iff {a b : Bool} (h : a = true ↔ b = true) : a = b := by
  cases a <;> cases b <;> simp_all

theorem sol_facts {n : Nat} {sol : List (List Bool)} (hsol : sol ∈ allGrids n) :
    sol.length = n ∧ ∀ r, (sol.getD r []).length = n ∨ sol.getD r [] = [] := by
  obtain ⟨h1, h2⟩ := mem_allGrids.mp hsol
  refine ⟨h1, ?_⟩
  intro r
  by_cases hr : r < sol.length
  · left
    refine h2 _ ?_
    rw [List.getD_eq_getElem?_getD, List.getElem?_eq_getElem hr]
    exact List.getElem_mem hr
  · right
    rw [List.getD_eq_getElem?_getD, List.getElem?_eq_none (by omega)]
    rfl

theorem sol_row_len {n : Nat} {sol : List (List Bool)} (hsol : sol ∈ allGrids n)
    {r : Nat} (hr : r < n) : (sol.getD r []).length = n := by
  obtain ⟨h1, h2⟩ := mem_allGrids.mp hsol
  refine h2 _ ?_
  have hrl : r < sol.length := by omega
  rw [List.getD_eq_getElem?_getD, List.getElem?_eq_getElem hrl]
  exact List.getElem_mem hrl

theorem isSolution_row {rowClues colClues : List (List Nat)} {n : Nat}
    {sol : List (List Bool)} (h : isSolution rowClues colClues n sol = true)
    {r : Nat} (hr : r < n) : getCluesFromLine (sol.getD r []) = rowClues.getD r [] := by
  rw [isSolution, Bool.and_eq_true] at h
  have := List.all_eq_true.mp h.1 r (List.mem_range.mpr hr)
  simpa using this

theorem isSolution_col {rowClues colClues : List (List Nat)} {n : Nat}
    {sol : List (List Bool)} (h : isSolution rowClues colClues n sol = true)
    {c : Nat} (hc : c < n) : getCluesFromLine (bcol sol c) = colClues.getD c [] := by
  rw [isSolution, Bool.and_eq_true] at h
  have := List.all_eq_true.mp h.2 c (List.mem_range.mpr hc)
  simpa using this

theorem sol_row_valid {rowClues colClues : List (List Nat)} {n : Nat} {g : Grid}
    (hwf : WFgrid g n) {sol : List (List Bool)} (hsol : sol ∈ allGrids n)
    (hisSol : isSolution rowClues colClues n sol = true)
    (hext : extendsB n g sol = true) {r : Nat} (hr : r < n) :
    sol.getD r [] ∈ getValidArrangements (rowClues.getD r []) (g.getD r []) := by
  rw [getValidArrangements, List.mem_filter]
  have hsl : (sol.getD r []).length = n := sol_row_len hsol hr
  constructor
  · rw [hwf.2 r hr, ← isSolution_row hisSol hr]
    exact generateArrangements_complete hsl
  · rw [lineCompatible_iff (by rw [hwf.2 r hr, hsl])]
    intro i b hb
    have hi : i < n := by
      have := getD_some_lt hb
      rw [hwf.2 r hr] at this
      exact this
    exact extendsB_iff.mp hext r i hr hi b hb

theorem sol_col_valid {rowClues colClues : List (List Nat)} {n : Nat} {g : Grid}
    (hwf : WFgrid g n) {sol : List (List Bool)} (hsol : sol ∈ allGrids n)
    (hisSol : isSolution rowClues colClues n sol = true)
    (hext : extendsB n g sol = true) {c : Nat} (hc : c < n) :
    bcol sol c ∈ getValidArrangements (colClues.getD c []) (getCol g c) := by
  rw [getValidArrangements, List.mem_filter]
  have hgl : (getCol g c).length = n := by
    rw [getCol, List.length_map, hwf.1]
  have hbl : (bcol sol c).length = n := by
    rw [bcol, List.length_map, (sol_facts hsol).1]
  constructor
  · rw [hgl, ← isSolution_col hisSol hc]
    exact generateArrangements_complete hbl
  · rw [lineCompatible_iff (by rw [hgl, hbl])]
    intro i b hb
    have hi : i < n := by
      have := getD_some_lt hb
      rw [hgl] at this
      exact this
    rw [getCol_getD] at hb
    rw [bcol_getD]
    exact extendsB_iff.mp hext i c hi hc b hb

theorem extCount_eq_of_extendsB_eq {rowClues colClues : List (List Nat)} {n : Nat}
    {g g2 : Grid}
    (h : ∀ sol ∈ allGrids n, isSolution rowClues colClues n sol = true →
      extendsB n g2 sol = extendsB n g sol) :
    extCount rowClues colClues n g2 = extCount rowClues colClues n g := by
  rw [extCount, extCount, List.filter_congr]
  intro s hs
  rcases hIs : isSolution rowClues colClues n s with _ | _
  · simp [hIs]
  · simp only [hIs, Bool.true_and]
    exact h s hs hIs

theorem extCount_zero {rowClues colClues : List (List Nat)} {n : Nat} {g : Grid}
    (h : ∀ sol ∈ allGrids n, isSolution rowClues colClues n sol = true →
      extendsB n g sol = false) :
    extCount rowClues colClues n g = 0 := by
  rw [extCount, List.length_eq_zero]
  rw [List.filter_eq_nil_iff]
  intro s hs
  rcases hIs : isSolution rowClues colClues n s with _ | _
  · simp [hIs]
  · simp [hIs, h s hs hIs]

theorem set_getD_self {α : Type} {d : α} : ∀ (l : List α) (i : Nat), i < l.length →
    l.set i (l.getD i d) = l := by
  intro l
  induction l with
  | nil => intro i h; simp at h
  | cons a t ih =>
      intro i h
      cases i with
      | zero => rfl
      | succ i =>
          rw [List.getD_cons_succ, List.set_cons_succ, ih i (by simpa using h)]

theorem gridGet_set_row (g : Grid) (r : Nat) (row2 : List Cell) (r2 c2 : Nat) :
    gridGet (g.set r row2) r2 c2 =
      if r = r2 ∧ r < g.length then row2.getD c2 none else gridGet g r2 c2 := by
  rw [gridGet, setRow_getD]
  split
  · rfl
  · rfl

theorem rowStep {rowClues colClues : List (List Nat)} {n : Nat} {g : Grid}
    (hwf : WFgrid g n) {r : Nat} (hr : r < n) {row' : List Cell}
    (h : processLine (rowClues.getD r []) (g.getD r []) = some row') :
    WFgrid (g.set r row') n ∧
    extCount rowClues colClues n (g.set r row') = extCount rowClues colClues n g ∧
    nullCount (g.set r row') ≤ nullCount g ∧
    (row' = g.getD r [] → g.set r row' = g) ∧
    (row' ≠ g.getD r [] → nullCount (g.set r row') < nullCount g) := by
  obtain ⟨hfl, _⟩ := processLine_some h
  have hrg : r < g.length := by rw [hwf.1]; exact hr
  have hlen2 : row'.length = (g.getD r []).length := by rw [hfl, forceLine_length]
  have hsub : ∀ i b, (g.getD r []).getD i none = some b → row'.getD i none = some b := by
    intro i b hb
    rw [hfl]
    exact forceLine_sub i b hb
  refine ⟨?_, ?_, ?_, ?_, ?_⟩
  · refine ⟨by rw [List.length_set]; exact hwf.1, ?_⟩
    intro r2 hr2
    rw [setRow_getD]
    split
    · rw [hlen2]
      exact hwf.2 r hr
    · exact hwf.2 r2 hr2
  · apply extCount_eq_of_extendsB_eq
    intro sol hsol hisSol
    apply bool_eq_of_iff
    rw [extendsB_iff, extendsB_iff]
    constructor
    · intro hnew r2 c2 hr2 hc2 b hb
      apply hnew r2 c2 hr2 hc2 b
      rw [gridGet_set_row]
      split
      · rename_i hcond
        apply hsub
        rw [hcond.1]
        exact hb
      · exact hb
    · intro hold r2 c2 hr2 hc2 b hb
      rw [gridGet_set_row] at hb
      split at hb
      · rename_i hcond
        obtain ⟨rfl, _⟩ := hcond
        rw [hfl] at hb
        rcases forceLine_cases c2 b hb with horig | ⟨_, hall⟩
        · exact hold r c2 hr2 hc2 b horig
        · have hvalid := sol_row_valid hwf hsol hisSol (extendsB_iff.mpr hold) hr2
          exact hall _ hvalid
      · exact hold r2 c2 hr2 hc2 b hb
  · have hid := nullCount_set_row g r row' hrg
    have hle := (nullCountRow_sub hlen2 hsub).1
    omega
  · intro he
    rw [he]
    exact set_getD_self g r hrg
  · intro hne
    have hid := nullCount_set_row g r row' hrg
    have hlt := (nullCountRow_sub hlen2 hsub).2 hne
    omega

theorem writeCol_rowD {g : Grid} {n : Nat} (hglen : g.length = n) {col2 : List Cell}
    (hlen : col2.length = n) (c r2 : Nat) :
    (writeCol g c col2).getD r2 [] =
      if r2 < n then (g.getD r2 []).set c (col2.getD r2 none) else [] := by
  rw [writeCol, List.getD_eq_getElem?_getD, List.getElem?_zipWith]
  by_cases hr2 : r2 < n
  · rw [List.getElem?_eq_getElem (show r2 < g.length by omega),
      List.getElem?_eq_getElem (show r2 < col2.length by omega)]
    simp only [if_pos hr2, Option.getD_some]
    congr 1
    · rw [List.getD_eq_getElem?_getD,
        List.getElem?_eq_getElem (show r2 < g.length by omega)]
      rfl
    · rw [List.getD_eq_getElem?_getD,
        List.getElem?_eq_getElem (show r2 < col2.length by omega)]
      rfl
  · rw [List.getElem?_eq_none (show g.length ≤ r2 by omega), if_neg hr2]
    rfl

theorem nullCountRow_set_general (row : List Cell) (c : Nat) (v : Cell)
    (hc : c < row.length) :
    nullCountRow (row.set c v) + (if (row.getD c none == none) = true then 1 else 0) =
      nullCountRow row + (if (v == none) = true then 1 else 0) := by
  have hcell : row.getD c none = row[c] := by
    rw [List.getD_eq_getElem?_getD, List.getElem?_eq_getElem hc]
    rfl
  rw [nullCountRow, nullCountRow, List.countP_set _ _ _ _ hc, hcell]
  by_cases hx : ((row[c] == none) : Bool) = true
  · have hpos : 0 < List.countP (fun cell => cell == none) row :=
      List.countP_pos.mpr ⟨row[c], List.getElem_mem hc, hx⟩
    rw [if_pos hx]
    omega
  · rw [if_neg hx]
    omega

theorem nullCount_writeCol {c : Nat} : ∀ {g : Grid} {col2 : List Cell},
    g.length = col2.length → (∀ row ∈ g, c < row.length) →
    nullCount (writeCol g c col2) + nullCountRow (getCol g c) =
      nullCount g + nullCountRow col2 := by
  intro g
  induction g with
  | nil =>
      intro col2 hlen _
      have : col2 = [] := List.eq_nil_of_length_eq_zero (by simpa using hlen.symm)
      subst this
      rfl
  | cons row rest ih =>
      intro col2 hlen hrows
      cases col2 with
      | nil => simp at hlen
      | cons v col2 =>
          have hstep := nullCountRow_set_general row c v
            (hrows row (List.mem_cons_self _ _))
          have hih := ih (by simpa using hlen)
            (fun rr hrr => hrows rr (List.mem_cons_of_mem _ hrr))
          have hw : writeCol (row :: rest) c (v :: col2) =
              (row.set c v) :: writeCol rest c col2 := rfl
          have hg : getCol (row :: rest) c = (row.getD c none) :: getCol rest c := rfl
          rw [hw, hg]
          simp only [nullCount, List.map_cons, List.sum_cons, nullCountRow,
            List.countP_cons] at hih hstep ⊢
          omega

theorem writeCol_self {c : Nat} : ∀ {g : Grid}, (∀ row ∈ g, c < row.length) →
    writeCol g c (getCol g c) = g := by
  intro g
  induction g with
  | nil => intro _; rfl
  | cons row rest ih =>
      intro hrows
      have hw : writeCol (row :: rest) c ((row.getD c none) :: getCol rest c) =
          (row.set c (row.getD c none)) :: writeCol rest c (getCol rest c) := rfl
      show writeCol (row :: rest) c ((row.getD c none) :: getCol rest c) = row :: rest
      rw [hw, set_getD_self row c (hrows row (List.mem_cons_self _ _)),
        ih (fun rr hrr => hrows rr (List.mem_cons_of_mem _ hrr))]

theorem colStep {rowClues colClues : List (List Nat)} {n : Nat} {g : Grid}
    (hwf : WFgrid g n) {c : Nat} (hc : c < n) {col' : List Cell}
    (h : processLine (colClues.getD c []) (getCol g c) = some col') :
    WFgrid (writeCol g c col') n ∧
    extCount rowClues colClues n (writeCol g c col') = extCount rowClues colClues n g ∧
    nullCount (writeCol g c col') ≤ nullCount g ∧
    (col' = getCol g c → writeCol g c col' = g) ∧
    (col' ≠ getCol g c → nullCount (writeCol g c col') < nullCount g) := by
  obtain ⟨hfl, _⟩ := processLine_some h
  have hgl : (getCol g c).length = g.length := by rw [getCol, List.length_map]
  have hlen2 : col'.length = n := by
    rw [hfl, forceLine_length, hgl, hwf.1]
  have hrows : ∀ row ∈ g, c < row.length := by
    intro row hrow
    rw [WF_rows_mem hwf row hrow]
    exact hc
  have hsub : ∀ i b, (getCol g c).getD i none = some b → col'.getD i none = some b := by
    intro i b hb
    rw [hfl]
    exact forceLine_sub i b hb
  refine ⟨?_, ?_, ?_, ?_, ?_⟩
  · refine ⟨by rw [writeCol, List.length_zipWith, hwf.1, hlen2]; simp, ?_⟩
    intro r2 hr2
    rw [writeCol_rowD hwf.1 hlen2, if_pos hr2, List.length_set]
    exact hwf.2 r2 hr2
  · apply extCount_eq_of_extendsB_eq
    intro sol hsol hisSol
    apply bool_eq_of_iff
    rw [extendsB_iff, extendsB_iff]
    constructor
    · intro hnew r2 c2 hr2 hc2 b hb
      apply hnew r2 c2 hr2 hc2 b
      rw [writeCol_getD hwf hc hlen2]
      split
      · rename_i hcond
        rw [hcond.2] at hb
        apply hsub
        rw [getCol_getD]
        exact hb
      · exact hb
    · intro hold r2 c2 hr2 hc2 b hb
      rw [writeCol_getD hwf hc hlen2] at hb
      split at hb
      · rename_i hcond
        obtain ⟨_, rfl⟩ := hcond
        rw [hfl] at hb
        rcases forceLine_cases r2 b hb with horig | ⟨_, hall⟩
        · rw [getCol_getD] at horig
          exact hold r2 c2 hr2 hc2 b horig
        · have hvalid := sol_col_valid hwf hsol hisSol (extendsB_iff.mpr hold) hc2
          have := hall _ hvalid
          rw [bcol_getD] at this
          exact this
      · exact hold r2 c2 hr2 hc2 b hb
  · have hid := nullCount_writeCol (by rw [hlen2, hwf.1]) hrows
    have hle := (nullCountRow_sub (by rw [hlen2, hgl, hwf.1]) hsub).1
    omega
  · intro he
    rw [he]
    exact writeCol_self hrows
  · intro hne
    have hid := nullCount_writeCol (by rw [hlen2, hwf.1]) hrows
    have hlt := (nullCountRow_sub (by rw [hlen2, hgl, hwf.1]) hsub).2 hne
    omega

theorem rowsGo_spec {rowClues colClues : List (List Nat)} {n : Nat} :
    ∀ (rs : List Nat) (g : Grid) (ch : Bool), WFgrid g n → (∀ r ∈ rs, r < n) →
    match rowsGo rowClues rs g ch with
    | none => extCount rowClues colClues n g = 0
    | some (g2, ch2) =>
        WFgrid g2 n ∧
        extCount rowClues colClues n g2 = extCount rowClues colClues n g ∧
        nullCount g2 ≤ nullCount g ∧
        (ch2 = false → g2 = g ∧ ch = false) ∧
        (ch = true → ch2 = true) ∧
        (ch = false → ch2 = true → nullCount g2 < nullCount g) := by
  intro rs
  induction rs with
  | nil =>
      intro g ch hwf _
      rw [rowsGo]
      exact ⟨hwf, rfl, Nat.le_refl _, fun h => ⟨rfl, h⟩, fun h => h,
        fun h1 h2 => absurd (h1 ▸ h2) (by simp)⟩
  | cons r rs ih =>
      intro g ch hwf hb
      have hr : r < n := hb r (List.mem_cons_self _ _)
      rw [rowsGo]
      rcases hp : processLine (rowClues.getD r []) (g.getD r []) with _ | row'
      · simp only []
        apply extCount_zero
        intro sol hsol hisSol
        rcases hx : extendsB n g sol with _ | _
        · rfl
        · exfalso
          have hvalid := sol_row_valid hwf hsol hisSol hx hr
          rw [processLine_none_iff.mp hp] at hvalid
          cases hvalid
      · simp only []
        obtain ⟨hwf2, hext, hnc, heq, hstrict⟩ := @rowStep rowClues colClues n g hwf r hr row' hp
        have hrec := ih (g.set r row') (ch || !(row' == g.getD r []))
          hwf2 (fun x hx => hb x (List.mem_cons_of_mem _ hx))
        rcases hgo : rowsGo rowClues rs (g.set r row') (ch || !(row' == g.getD r []))
          with _ | ⟨g2, ch2⟩
        · rw [hgo] at hrec
          rw [← hext]
          exact hrec
        · rw [hgo] at hrec
          obtain ⟨t1, t2, t3, t4, t5, t6⟩ := hrec
          refine ⟨t1, t2.trans hext, t3.trans hnc, ?_, ?_, ?_⟩
          · intro hch2
            obtain ⟨hg2, hchor⟩ := t4 hch2
            have hparts : ch = false ∧ row' = g.getD r [] := by
              simpa using hchor
            exact ⟨by rw [hg2, heq hparts.2], hparts.1⟩
          · intro hcht
            apply t5
            rw [hcht]
            rfl
          · intro hchf hch2t
            by_cases hrow : row' = g.getD r []
            · have hflag : (ch || !(row' == g.getD r [])) = false := by
                simp [hchf, hrow]
              have := t6 hflag hch2t
              rw [heq hrow] at this
              exact this
            · have := hstrict hrow
              omega

theorem colsGo_spec {rowClues colClues : List (List Nat)} {n : Nat} :
    ∀ (cs : List Nat) (g : Grid) (ch : Bool), WFgrid g n → (∀ c ∈ cs, c < n) →
    match colsGo colClues cs g ch with
    | none => extCount rowClues colClues n g = 0
    | some (g2, ch2) =>
        WFgrid g2 n ∧
        extCount rowClues colClues n g2 = extCount rowClues colClues n g ∧
        nullCount g2 ≤ nullCount g ∧
        (ch2 = false → g2 = g ∧ ch = false) ∧
        (ch = true → ch2 = true) ∧
        (ch = false → ch2 = true → nullCount g2 < nullCount g) := by
  intro cs
  induction cs with
  | nil =>
      intro g ch hwf _
      rw [colsGo]
      exact ⟨hwf, rfl, Nat.le_refl _, fun h => ⟨rfl, h⟩, fun h => h,
        fun h1 h2 => absurd (h1 ▸ h2) (by simp)⟩
  | cons c cs ih =>
      intro g ch hwf hb
      have hc : c < n := hb c (List.mem_cons_self _ _)
      rw [colsGo]
      rcases hp : processLine (colClues.getD c []) (getCol g c) with _ | col'
      · simp only []
        apply extCount_zero
        intro sol hsol hisSol
        rcases hx : extendsB n g sol with _ | _
        · rfl
        · exfalso
          have hvalid := sol_col_valid hwf hsol hisSol hx hc
          rw [processLine_none_iff.mp hp] at hvalid
          cases hvalid
      · simp only []
        obtain ⟨hwf2, hext, hnc, heq, hstrict⟩ := @colStep rowClues colClues n g hwf c hc col' hp
        have hrec := ih (writeCol g c col') (ch || !(col' == getCol g c))
          hwf2 (fun x hx => hb x (List.mem_cons_of_mem _ hx))
        rcases hgo : colsGo colClues cs (writeCol g c col') (ch || !(col' == getCol g c))
          with _ | ⟨g2, ch2⟩
        · rw [hgo] at hrec
          rw [← hext]
          exact hrec
        · rw [hgo] at hrec
          obtain ⟨t1, t2, t3, t4, t5, t6⟩ := hrec
          refine ⟨t1, t2.trans hext, t3.trans hnc, ?_, ?_, ?_⟩
          · intro hch2
            obtain ⟨hg2, hchor⟩ := t4 hch2
            have hparts : ch = false ∧ col' = getCol g c := by
              simpa using hchor
            exact ⟨by rw [hg2, heq hparts.2], hparts.1⟩
          · intro hcht
            apply t5
            rw [hcht]
            rfl
          · intro hchf hch2t
            by_cases hcol : col' = getCol g c
            · have hflag : (ch || !(col' == getCol g c)) = false := by
                simp [hchf, hcol]
              have := t6 hflag hch2t
              rw [heq hcol] at this
              exact this
            · have := hstrict hcol
              omega

theorem onePass_spec {rowClues colClues : List (List Nat)} {n : Nat} {g : Grid}
    (hwf : WFgrid g n) :
    match onePass rowClues colClues n g with
    | none => extCount rowClues colClues n g = 0
    | some (g2, ch2) =>
        WFgrid g2 n ∧
        extCount rowClues colClues n g2 = extCount rowClues colClues n g ∧
        nullCount g2 ≤ nullCount g ∧
        (ch2 = false → g2 = g) ∧
        (ch2 = true → nullCount g2 < nullCount g) := by
  rw [onePass]
  have hrows := @rowsGo_spec rowClues colClues n
    (List.range n) g false hwf (fun r hrmem => List.mem_range.mp hrmem)
  rcases hr : rowsGo rowClues (List.range n) g false with _ | ⟨g1, ch1⟩
  · rw [hr] at hrows
    exact hrows
  · rw [hr] at hrows
    obtain ⟨r1, r2, r3, r4, r5, r6⟩ := hrows
    simp only []
    have hcols := @colsGo_spec rowClues colClues n
      (List.range n) g1 ch1 r1 (fun c hcmem => List.mem_range.mp hcmem)
    rcases hcres : colsGo colClues (List.range n) g1 ch1 with _ | ⟨g2, ch2⟩
    · rw [hcres] at hcols
      rw [← r2]
      exact hcols
    · rw [hcres] at hcols
      obtain ⟨c1, c2, c3, c4, c5, c6⟩ := hcols
      refine ⟨c1, c2.trans r2, c3.trans r3, ?_, ?_⟩
      · intro hch2
        obtain ⟨hg2eq, hch1⟩ := c4 hch2
        obtain ⟨hg1eq, _⟩ := r4 hch1
        rw [hg2eq, hg1eq]
      · intro hch2
        rcases hch1 : ch1 with _ | _
        · have := c6 hch1 hch2
          obtain ⟨hg1eq, _⟩ := r4 hch1
          rw [hg1eq] at this
          exact this
        · have := r6 rfl hch1
          omega

theorem propagateLoop_spec {rowClues colClues : List (List Nat)} {n : Nat} :
    ∀ (fuel : Nat) (g : Grid), WFgrid g n →
    match propagateLoop rowClues colClues n fuel g with
    | none => extCount rowClues colClues n g = 0
    | some g1 =>
        WFgrid g1 n ∧
        extCount rowClues colClues n g1 = extCount rowClues colClues n g ∧
        nullCount g1 ≤ nullCount g := by
  intro fuel
  induction fuel with
  | zero =>
      intro g hwf
      rw [propagateLoop]
      exact ⟨hwf, rfl, Nat.le_refl _⟩
  | succ fuel ih =>
      intro g hwf
      rw [propagateLoop]
      have hop := @onePass_spec rowClues colClues n g hwf
      rcases ho : onePass rowClues colClues n g with _ | ⟨g1, ch⟩
      · rw [ho] at hop
        exact hop
      · rw [ho] at hop
        obtain ⟨o1, o2, o3, o4, _⟩ := hop
        rcases hch : ch with _ | _
        · exact ⟨o1, o2, o3⟩
        · show match propagateLoop rowClues colClues n fuel g1 with
            | none => extCount rowClues colClues n g = 0
            | some g3 =>
                WFgrid g3 n ∧
                extCount rowClues colClues n g3 = extCount rowClues colClues n g ∧
                nullCount g3 ≤ nullCount g
          have hrec := ih g1 o1
          rcases hp : propagateLoop rowClues colClues n fuel g1 with _ | g3
          · rw [hp] at hrec
            rw [← o2]
            exact hrec
          · rw [hp] at hrec
            obtain ⟨p1, p2, p3⟩ := hrec
            exact ⟨p1, p2.trans o2, p3.trans o3⟩

/-- With fuel exceeding the number of unknown cells the propagation loop
has provably reached its fixpoint: any two sufficient fuels agree, so the
`n * n + 1` fuel used by `countSolutions` computes the same grid as the
unbounded JS `while (changed)` loop. -/
theorem propagateLoop_fuel_sufficient {rowClues colClues : List (List Nat)} {n : Nat} :
    ∀ (fuel fuel2 : Nat) (g : Grid), WFgrid g n → nullCount g < fuel →
      nullCount g < fuel2 →
      propagateLoop rowClues colClues n fuel g =
        propagateLoop rowClues colClues n fuel2 g := by
  intro fuel
  induction fuel with
  | zero => intro fuel2 g _ h _; omega
  | succ fuel ih =>
      intro fuel2 g hwf h1 h2
      cases fuel2 with
      | zero => omega
      | succ fuel2 =>
          rw [propagateLoop, propagateLoop]
          have hop := @onePass_spec rowClues colClues n g hwf
          rcases ho : onePass rowClues colClues n g with _ | ⟨g1, ch⟩
          · rfl
          · rw [ho] at hop
            obtain ⟨o1, _, _, _, o5⟩ := hop
            rcases hch : ch with _ | _
            · rfl
            · have hlt := o5 hch
              show propagateLoop rowClues colClues n fuel g1 =
                propagateLoop rowClues colClues n fuel2 g1
              exact ih fuel2 g1 o1 (by omega) (by omega)

theorem firstUnknownRow_none_spec : ∀ {row : List Cell}, firstUnknownRow row = none →
    ∀ cell ∈ row, cell ≠ none := by
  intro row
  induction row with
  | nil => intro _ cell hc; cases hc
  | cons a rest ih =>
      intro h cell hc
      rcases a with _ | b
      · rw [firstUnknownRow] at h
        cases h
      · rw [firstUnknownRow] at h
        have h2 : firstUnknownRow rest = none := by
          rcases hx : firstUnknownRow rest with _ | c
          · rfl
          · rw [hx] at h
            exact absurd h (by simp)
        rcases List.mem_cons.mp hc with rfl | hc2
        · simp
        · exact ih h2 cell hc2

theorem firstUnknownRow_some_spec : ∀ {row : List Cell} {c : Nat},
    firstUnknownRow row = some c → c < row.length ∧ row.getD c none = none := by
  intro row
  induction row with
  | nil => intro c h; cases h
  | cons a rest ih =>
      intro c h
      rcases a with _ | b
      · rw [firstUnknownRow] at h
        injection h with h
        subst h
        exact ⟨by simp, rfl⟩
      · rw [firstUnknownRow] at h
        rcases hx : firstUnknownRow rest with _ | c2
        · rw [hx] at h
          exact absurd h (by simp)
        · rw [hx, Option.map_some'] at h
          injection h with h
          subst h
          obtain ⟨h1, h2⟩ := ih hx
          refine ⟨by simpa using Nat.succ_lt_succ h1, ?_⟩
          rw [List.getD_cons_succ]
          exact h2

theorem firstUnknown_none_spec : ∀ {g : Grid}, firstUnknown g = none →
    ∀ row ∈ g, ∀ cell ∈ row, cell ≠ none := by
  intro g
  induction g with
  | nil => intro _ row hrow; cases hrow
  | cons row0 rest ih =>
      intro h row hrow
      rw [firstUnknown] at h
      rcases hx : firstUnknownRow row0 with _ | c0
      · rw [hx] at h
        have hrest : firstUnknown rest = none := by
          rcases hy : firstUnknown rest with _ | p
          · rfl
          · rw [hy] at h
            exact absurd h (by simp)
        rcases List.mem_cons.mp hrow with rfl | hrow2
        · exact firstUnknownRow_none_spec hx
        · exact ih hrest row hrow2
      · rw [hx] at h
        exact absurd h (by simp)

theorem firstUnknown_some_spec : ∀ {g : Grid} {r c : Nat},
    firstUnknown g = some (r, c) →
    r < g.length ∧ c < (g.getD r []).length ∧ gridGet g r c = none := by
  intro g
  induction g with
  | nil => intro r c h; cases h
  | cons row0 rest ih =>
      intro r c h
      rw [firstUnknown] at h
      rcases hx : firstUnknownRow row0 with _ | c0
      · rw [hx] at h
        rcases hy : firstUnknown rest with _ | ⟨r2, c2⟩
        · rw [hy] at h
          exact absurd h (by simp)
        · rw [hy, Option.map_some'] at h
          injection h with h
          rw [Prod.mk.injEq] at h
          obtain ⟨hr, hc⟩ := h
          subst hr
          subst hc
          obtain ⟨h1, h2, h3⟩ := ih hy
          refine ⟨by simpa using Nat.succ_lt_succ h1, ?_, ?_⟩
          · rw [List.getD_cons_succ]
            exact h2
          · rw [gridGet, List.getD_cons_succ]
            exact h3
      · rw [hx] at h
        injection h with h
        rw [Prod.mk.injEq] at h
        obtain ⟨hr, hc⟩ := h
        subst hr
        subst hc
        obtain ⟨h1, h2⟩ := firstUnknownRow_some_spec hx
        exact ⟨by simp, by simpa using h1, by rw [gridGet, List.getD_cons_zero]; exact h2⟩

theorem getD_mem {α : Type} {l : List α} {i : Nat} (h : i < l.length) (d : α) :
    l.getD i d ∈ l := by
  rw [List.getD_eq_getElem?_getD, List.getElem?_eq_getElem h]
  exact List.getElem_mem h

theorem map_boolRow_getD {g : Grid} {r : Nat} (hr : r < g.length) :
    (g.map boolRow).getD r [] = boolRow (g.getD r []) := by
  rw [List.getD_eq_getElem?_getD, List.getElem?_map,
    List.getElem?_eq_getElem hr, List.getD_eq_getElem?_getD,
    List.getElem?_eq_getElem hr]
  rfl

theorem boolify_mem {n : Nat} {g : Grid} (hwf : WFgrid g n) :
    g.map boolRow ∈ allGrids n := by
  rw [mem_allGrids]
  constructor
  · rw [List.length_map, hwf.1]
  · intro row hrow
    rw [List.mem_map] at hrow
    obtain ⟨row0, hrow0, rfl⟩ := hrow
    rw [boolRow, List.length_map]
    exact WF_rows_mem hwf row0 hrow0

theorem grid_ext_allGrids {n : Nat} {a b : List (List Bool)}
    (ha : a ∈ allGrids n) (hb : b ∈ allGrids n)
    (h : ∀ r c, r < n → c < n →
      (a.getD r []).getD c false = (b.getD r []).getD c false) :
    a = b := by
  obtain ⟨ha1, ha2⟩ := mem_allGrids.mp ha
  obtain ⟨hb1, hb2⟩ := mem_allGrids.mp hb
  apply List.ext_getElem (by omega)
  intro r hr1 hr2
  have hrowa : a[r] = a.getD r [] := by
    rw [List.getD_eq_getElem?_getD, List.getElem?_eq_getElem hr1]
    rfl
  have hrowb : b[r] = b.getD r [] := by
    rw [List.getD_eq_getElem?_getD, List.getElem?_eq_getElem hr2]
    rfl
  have hlena : a[r].length = n := ha2 _ (List.getElem_mem hr1)
  have hlenb : b[r].length = n := hb2 _ (List.getElem_mem hr2)
  apply List.ext_getElem (by omega)
  intro c hc1 hc2
  have h1 : a[r][c] = (a.getD r []).getD c false := by
    rw [← hrowa, List.getD_eq_getElem?_getD, List.getElem?_eq_getElem hc1]
    rfl
  have h2 : b[r][c] = (b.getD r []).getD c false := by
    rw [← hrowb, List.getD_eq_getElem?_getD, List.getElem?_eq_getElem hc2]
    rfl
  rw [h1, h2]
  exact h r c (by omega) (by omega)

theorem extendsB_full {n : Nat} {g : Grid} (hwf : WFgrid g n)
    (hfull : firstUnknown g = none) {sol : List (List Bool)}
    (hsol : sol ∈ allGrids n) :
    extendsB n g sol = true ↔ sol = g.map boolRow := by
  constructor
  · intro hext
    apply grid_ext_allGrids hsol (boolify_mem hwf)
    intro r c hr hc
    have hrg : r < g.length := by rw [hwf.1]; exact hr
    have hcr : c < (g.getD r []).length := by rw [hwf.2 r hr]; exact hc
    rw [map_boolRow_getD hrg, boolRow_getD]
    have hne : (g.getD r []).getD c none ≠ none :=
      firstUnknown_none_spec hfull (g.getD r []) (getD_mem hrg []) _ (getD_mem hcr none)
    rcases hcell : (g.getD r []).getD c none with _ | b
    · exact absurd hcell hne
    · rw [extendsB_iff] at hext
      rw [hext r c hr hc b (by rw [gridGet]; exact hcell)]
      rfl
  · intro h
    subst h
    rw [extendsB_iff]
    intro r c hr hc b hb
    have hrg : r < g.length := by rw [hwf.1]; exact hr
    rw [map_boolRow_getD hrg, boolRow_getD]
    rw [gridGet] at hb
    rw [hb]
    rfl

theorem all_congr_mem {α : Type} {l : List α} {p q : α → Bool}
    (h : ∀ x ∈ l, p x = q x) : l.all p = l.all q := by
  induction l with
  | nil => rfl
  | cons a t ih =>
      rw [List.all_cons, List.all_cons, h a (List.mem_cons_self _ _),
        ih (fun x hx => h x (List.mem_cons_of_mem _ hx))]

theorem boolRow_getCol (g : Grid) (c : Nat) :
    boolRow (getCol g c) = bcol (g.map boolRow) c := by
  rw [boolRow, getCol, bcol, List.map_map, List.map_map]
  apply List.map_congr_left
  intro row _
  show (row.getD c none).getD false = (boolRow row).getD c false
  exact (boolRow_getD row c).symm

theorem validate_eq_isSolution {rowClues colClues : List (List Nat)} {n : Nat}
    {g : Grid} (hwf : WFgrid g n) :
    validate rowClues colClues n g = isSolution rowClues colClues n (g.map boolRow) := by
  rw [validate, isSolution]
  congr 1
  · apply all_congr_mem
    intro r hr
    rw [List.mem_range] at hr
    rw [map_boolRow_getD (show r < g.length by rw [hwf.1]; exact hr)]
  · apply all_congr_mem
    intro c _
    rw [boolRow_getCol]

theorem length_filter_unique {α : Type} [DecidableEq α] :
    ∀ {l : List α}, l.Nodup → ∀ {x : α} (p : α → Bool), x ∈ l →
    (l.filter fun a => p a && decide (a = x)).length = if p x then 1 else 0 := by
  intro l
  induction l with
  | nil => intro _ x p hx; cases hx
  | cons a t ih =>
      intro hnd x p hx
      rw [List.filter_cons]
      rcases List.mem_cons.mp hx with rfl | hxt
      · have hxnotin : x ∉ t := (List.nodup_cons.mp hnd).1
        have htail : (t.filter fun a => p a && decide (a = x)) = [] := by
          rw [List.filter_eq_nil_iff]
          intro b hb
          have hbx : b ≠ x := fun h => hxnotin (h ▸ hb)
          simp [hbx]
        rcases hp : p x with _ | _
        · simp [hp, htail]
        · simp [hp, htail]
      · have hnd2 := (List.nodup_cons.mp hnd).2
        have hax : a ≠ x := fun h => (List.nodup_cons.mp hnd).1 (h ▸ hxt)
        have hhead : (p a && decide (a = x)) = false := by simp [hax]
        rw [hhead]
        simp only [Bool.false_eq_true, if_false]
        exact ih hnd2 p hxt

theorem extCount_full {rowClues colClues : List (List Nat)} {n : Nat} {g : Grid}
    (hwf : WFgrid g n) (hfull : firstUnknown g = none) :
    extCount rowClues colClues n g =
      if validate rowClues colClues n g then 1 else 0 := by
  have hmem := boolify_mem hwf
  rw [extCount]
  have hfilter : ((allGrids n).filter fun s =>
        isSolution rowClues colClues n s && extendsB n g s) =
      ((allGrids n).filter fun s =>
        isSolution rowClues colClues n s && decide (s = g.map boolRow)) := by
    apply List.filter_congr
    intro s hs
    have : extendsB n g s = decide (s = g.map boolRow) := by
      apply bool_eq_of_iff
      rw [decide_eq_true_eq]
      exact extendsB_full hwf hfull hs
    rw [this]
  rw [hfilter, length_filter_unique (allGrids_nodup n) _ hmem,
    validate_eq_isSolution hwf]

theorem extendsB_setCell {n : Nat} {g : Grid} (hwf : WFgrid g n) {r c : Nat}
    (hr : r < n) (hc : c < n) (hnone : gridGet g r c = none) (v : Bool)
    (sol : List (List Bool)) :
    extendsB n (setCell g r c (some v)) sol =
      (extendsB n g sol && ((sol.getD r []).getD c false == v)) := by
  have hrg : r < g.length := by rw [hwf.1]; exact hr
  have hcg : c < (g.getD r []).length := by rw [hwf.2 r hr]; exact hc
  apply bool_eq_of_iff
  rw [Bool.and_eq_true, extendsB_iff, extendsB_iff, beq_iff_eq]
  constructor
  · intro h
    constructor
    · intro r2 c2 hr2 hc2 b hb
      by_cases hpos : r = r2 ∧ c = c2
      · obtain ⟨rfl, rfl⟩ := hpos
        rw [hnone] at hb
        cases hb
      · apply h r2 c2 hr2 hc2 b
        rw [gridGet_setCell_ne g r c r2 c2 _ hpos]
        exact hb
    · exact h r c hr hc v (gridGet_setCell_self g r c _ hrg hcg)
  · intro ⟨hg, hval⟩ r2 c2 hr2 hc2 b hb
    by_cases hpos : r = r2 ∧ c = c2
    · obtain ⟨rfl, rfl⟩ := hpos
      rw [gridGet_setCell_self g r c _ hrg hcg] at hb
      injection hb with hb
      rw [← hb]
      exact hval
    · rw [gridGet_setCell_ne g r c r2 c2 _ hpos] at hb
      exact hg r2 c2 hr2 hc2 b hb

theorem length_filter_split {α : Type} (p q : α → Bool) :
    ∀ (l : List α),
    (l.filter fun a => p a && q a).length +
      (l.filter fun a => p a && !(q a)).length = (l.filter p).length := by
  intro l
  induction l with
  | nil => rfl
  | cons a t ih =>
      rw [List.filter_cons, List.filter_cons, List.filter_cons]
      rcases hp : p a with _ | _
      · simp only [hp, Bool.false_and, Bool.false_eq_true, if_false]
        exact ih
      · rcases hq : q a with _ | _
        · simp only [hp, hq, Bool.true_and, Bool.not_false, Bool.false_eq_true,
            if_false, if_true, List.length_cons]
          omega
        · simp only [hp, hq, Bool.true_and, Bool.not_true, Bool.false_eq_true,
            if_false, if_true, List.length_cons]
          omega

theorem extCount_split {rowClues colClues : List (List Nat)} {n : Nat} {g : Grid}
    (hwf : WFgrid g n) {r c : Nat} (hr : r < n) (hc : c < n)
    (hnone : gridGet g r c = none) :
    extCount rowClues colClues n g =
      extCount rowClues colClues n (setCell g r c (some true)) +
      extCount rowClues colClues n (setCell g r c (some false)) := by
  rw [extCount, extCount, extCount]
  have etrue : ((allGrids n).filter fun s =>
        isSolution rowClues colClues n s && extendsB n (setCell g r c (some true)) s) =
      ((allGrids n).filter fun s =>
        (isSolution rowClues colClues n s && extendsB n g s) &&
          ((s.getD r []).getD c false == true)) := by
    apply List.filter_congr
    intro s _
    rw [extendsB_setCell hwf hr hc hnone true s, Bool.and_assoc]
  have efalse : ((allGrids n).filter fun s =>
        isSolution rowClues colClues n s && extendsB n (setCell g r c (some false)) s) =
      ((allGrids n).filter fun s =>
        (isSolution rowClues colClues n s && extendsB n g s) &&
          !((s.getD r []).getD c false == true)) := by
    apply List.filter_congr
    intro s _
    rw [extendsB_setCell hwf hr hc hnone false s, Bool.and_assoc]
    have : ((s.getD r []).getD c false == false) =
        !((s.getD r []).getD c false == true) := by
      rcases (s.getD r []).getD c false with _ | _ <;> rfl
    rw [this]
  rw [etrue, efalse]
  exact (length_filter_split
    (fun s => isSolution rowClues colClues n s && extendsB n g s)
    (fun s => (s.getD r []).getD c false == true) (allGrids n)).symm

theorem gridGet_emptyGrid (n r c : Nat) : gridGet (emptyGrid n) r c = none := by
  have hrow : (emptyGrid n).getD r [] =
      if r < n then List.replicate n (none : Cell) else [] := by
    rw [emptyGrid, List.getD_eq_getElem?_getD, List.getElem?_replicate]
    rcases Nat.lt_or_ge r n with h | h
    · rw [if_pos h, if_pos h]
      rfl
    · rw [if_neg (by omega), if_neg (by omega)]
      rfl
  rw [gridGet, hrow]
  rcases Nat.lt_or_ge r n with h | h
  · rw [if_pos h]
    rcases Nat.lt_or_ge c n with h2 | h2
    · rw [List.getD_eq_getElem?_getD, List.getElem?_replicate, if_pos h2]
      rfl
    · rw [List.getD_eq_getElem?_getD,
        List.getElem?_eq_none (by simpa using h2)]
      rfl
  · rw [if_neg (by omega)]
    rfl

theorem extCount_emptyGrid (rowClues colClues : List (List Nat)) (n : Nat) :
    extCount rowClues colClues n (emptyGrid n) = numSolutions rowClues colClues n := by
  rw [extCount, numSolutions]
  congr 1
  apply List.filter_congr
  intro s _
  have hx : extendsB n (emptyGrid n) s = true := by
    rw [extendsB_iff]
    intro r c _ _ b hb
    rw [gridGet_emptyGrid] at hb
    cases hb
  rw [hx, Bool.and_true]

theorem natMin_eq_min (a b : Nat) : Nat.min a b = min a b := rfl

theorem solveAux_correct {rowClues colClues : List (List Nat)} {n : Nat} :
    ∀ (fuel : Nat) (g : Grid), WFgrid g n → nullCount g < fuel →
      solveAux rowClues colClues n fuel g =
        Nat.min (extCount rowClues colClues n g) 2 := by
  intro fuel
  induction fuel with
  | zero => intro g _ h; omega
  | succ fuel ih =>
      intro g hwf hfuel
      rw [solveAux]
      have hprop := @propagateLoop_spec rowClues colClues n
        (n * n + 1) g hwf
      rcases hp : propagateLoop rowClues colClues n (n * n + 1) g with _ | g1
      · rw [hp] at hprop
        rw [hprop]
        rfl
      · rw [hp] at hprop
        obtain ⟨hwf1, hext1, hnc1⟩ := hprop
        show (match firstUnknown g1 with
          | some (r, c) =>
              let ct := solveAux rowClues colClues n fuel (setCell g1 r c (some true))
              if 1 < ct then ct
              else Nat.min
                (ct + solveAux rowClues colClues n fuel (setCell g1 r c (some false))) 2
          | none => if validate rowClues colClues n g1 then 1 else 0) =
          Nat.min (extCount rowClues colClues n g) 2
        rcases hu : firstUnknown g1 with _ | ⟨r, c⟩
        · rw [extCount_full hwf1 hu] at hext1
          rw [← hext1]
          rcases hv : validate rowClues colClues n g1 with _ | _ <;> rfl
        · obtain ⟨hr1, hc1, hcell⟩ := firstUnknown_some_spec hu
          have hr : r < n := by rw [← hwf1.1]; exact hr1
          have hc : c < n := by rw [← hwf1.2 r hr]; exact hc1
          have hsplit := @extCount_split rowClues colClues n g1
            hwf1 r c hr hc hcell
          have hncT := nullCount_setCell true hr1 hc1 hcell
          have hncF := nullCount_setCell false hr1 hc1 hcell
          have ihT := ih (setCell g1 r c (some true))
            (WFgrid_setCell hwf1 r c (some true)) (by omega)
          have ihF := ih (setCell g1 r c (some false))
            (WFgrid_setCell hwf1 r c (some false)) (by omega)
          show (if 1 < solveAux rowClues colClues n fuel (setCell g1 r c (some true))
            then solveAux rowClues colClues n fuel (setCell g1 r c (some true))
            else Nat.min (solveAux rowClues colClues n fuel (setCell g1 r c (some true)) +
              solveAux rowClues colClues n fuel (setCell g1 r c (some false))) 2) =
            Nat.min (extCount rowClues colClues n g) 2
          rw [ihT, ihF, ← hext1, hsplit]
          simp only [natMin_eq_min]
          by_cases h12 :
            1 < min (extCount rowClues colClues n (setCell g1 r c (some true))) 2
          · rw [if_pos h12]
            omega
          · rw [if_neg h12]
            omega

/-- `countSolutions` computes exactly the number of boolean solution grids,
capped at 2. -/
theorem countSolutions_eq_min (rowClues colClues : List (List Nat)) (n : Nat) :
    countSolutions rowClues colClues n =
      Nat.min (numSolutions rowClues colClues n) 2 := by
  rw [countSolutions,
    solveAux_correct (n * n + 1) (emptyGrid n) (WFgrid_emptyGrid n)
      (by rw [nullCount_emptyGrid]; omega),
    extCount_emptyGrid]

/-- C2: for every row-clue list, column-clue list and size, `countSolutions`
returns exactly 0, 1 or 2, and the returned value is the number of distinct
boolean grids whose rows and columns reproduce the given clues, capped at 2;
`numSolutions` counts exactly those grids because `allGrids n` enumerates
every `n × n` boolean grid exactly once. -/
theorem claim_countSolutions_correct (rowClues colClues : List (List Nat)) (n : Nat) :
    (countSolutions rowClues colClues n = 0 ∨
     countSolutions rowClues colClues n = 1 ∨
     countSolutions rowClues colClues n = 2) ∧
    countSolutions rowClues colClues n =
      Nat.min (numSolutions rowClues colClues n) 2 ∧
    numSolutions rowClues colClues n =
      ((allGrids n).filter (isSolution rowClues colClues n)).length ∧
    (allGrids n).Nodup ∧
    (∀ s : List (List Bool),
      s ∈ allGrids n ↔ s.length = n ∧ ∀ row ∈ s, row.length = n) := by
  refine ⟨?_, countSolutions_eq_min rowClues colClues n, rfl, allGrids_nodup n,
    fun s => mem_allGrids⟩
  rw [countSolutions_eq_min, natMin_eq_min]
  omega

theorem indicatorSel_zero (m : Nat) :
    indicatorSel (m + 1) 0 = true :: List.replicate m false := by
  rw [indicatorSel, List.replicate_succ, List.set_cons_zero]

theorem indicatorSel_succ (m j : Nat) :
    indicatorSel (m + 1) (j + 1) = false :: indicatorSel m j := by
  rw [indicatorSel, indicatorSel, List.replicate_succ, List.set_cons_succ]

theorem indicatorSel_length (k j : Nat) : (indicatorSel k j).length = k := by
  rw [indicatorSel, List.length_set, List.length_replicate]

theorem count_true_eq_zero_iff : ∀ {l : List Bool},
    l.count true = 0 ↔ l = List.replicate l.length false := by
  intro l
  induction l with
  | nil => simp
  | cons b rest ih =>
      cases b
      · simp only [List.count_cons, List.length_cons, List.replicate_succ,
          List.cons.injEq]
        simp [ih]
      · simp [List.count_cons, List.replicate_succ]

theorem exactlyOneB_iff : ∀ {sel : List Bool},
    exactlyOneB sel = true ↔
      ∃ j, j < sel.length ∧ sel = indicatorSel sel.length j := by
  intro sel
  induction sel with
  | nil =>
      rw [exactlyOneB]
      simp
  | cons b rest ih =>
      rw [exactlyOneB, List.count_cons]
      cases b
      · rw [if_neg (by simp), Nat.add_zero]
        constructor
        · intro h
          obtain ⟨j, hj, hind⟩ := ih.mp (by rw [exactlyOneB]; exact h)
          refine ⟨j + 1, by simpa using Nat.succ_lt_succ hj, ?_⟩
          rw [List.length_cons, indicatorSel_succ, ← hind]
        · intro ⟨j, hj, hind⟩
          rw [List.length_cons] at hind hj
          cases j with
          | zero =>
              rw [indicatorSel_zero] at hind
              cases hind
          | succ j =>
              rw [indicatorSel_succ] at hind
              injection hind with h1 h2
              have := ih.mpr ⟨j, by omega, h2⟩
              rwa [exactlyOneB] at this
      · rw [if_pos (show ((true == true) = true) from rfl)]
        constructor
        · intro h
          have hc0 : rest.count true = 0 := by
            have h1 : rest.count true + 1 = 1 := by simpa using h
            omega
          refine ⟨0, by simp, ?_⟩
          rw [List.length_cons, indicatorSel_zero,
            count_true_eq_zero_iff.mp hc0, List.length_replicate]
        · intro ⟨j, hj, hind⟩
          rw [List.length_cons] at hind
          cases j with
          | zero =>
              rw [indicatorSel_zero] at hind
              injection hind with h1 h2
              have hc0 : rest.count true = 0 := by
                rw [h2]
                simp [List.count_replicate]
              rw [hc0]
              rfl
          | succ j =>
              rw [indicatorSel_succ] at hind
              cases hind

theorem indicatorSel_getD {k j : Nat} (hj : j < k) (i : Nat) :
    (indicatorSel k j).getD i false = decide (i = j) := by
  rw [indicatorSel, List.getD_eq_getElem?_getD, List.getElem?_set]
  by_cases hij : j = i
  · subst hij
    rw [if_pos rfl, if_pos (by simpa using hj)]
    simp
  · rw [if_neg hij, List.getElem?_replicate]
    have : ¬(i = j) := fun h => hij h.symm
    by_cases hik : i < k
    · rw [if_pos hik]
      simp [this]
    · rw [if_neg hik]
      simp [this]

theorem indicatorSel_mem_tuples {k j : Nat} :
    indicatorSel k j ∈ tuples [false, true] k := by
  rw [mem_tuples]
  exact ⟨indicatorSel_length k j, fun x _ => by cases x <;> simp⟩

theorem zip_falses_any (f : Bool × List Bool → Bool)
    (hf : ∀ p, p.1 = false → f p = false) :
    ∀ (l : List (List Bool)) (m : Nat),
    (List.zip (List.replicate m false) l).any f = false := by
  intro l
  induction l with
  | nil => intro m; simp
  | cons a rest ih =>
      intro m
      cases m with
      | zero => simp
      | succ m =>
          rw [List.replicate_succ, List.zip_cons_cons, List.any_cons,
            hf (false, a) rfl, Bool.false_or]
          exact ih m

theorem orSelected_indicator : ∀ (arrs : List (List Bool)) (j : Nat),
    j < arrs.length → ∀ (i : Nat),
    orSelected (indicatorSel arrs.length j) arrs i = (arrs.getD j []).getD i false := by
  intro arrs
  induction arrs with
  | nil =>
      intro j hj
      rw [List.length_nil] at hj
      omega
  | cons a rest ih =>
      intro j hj i
      cases j with
      | zero =>
          rw [List.length_cons, indicatorSel_zero, orSelected,
            List.zip_cons_cons, List.any_cons]
          rw [zip_falses_any _ (fun p hp => by rw [hp, Bool.false_and]) rest rest.length]
          simp
      | succ j =>
          rw [List.length_cons, indicatorSel_succ, orSelected,
            List.zip_cons_cons, List.any_cons]
          have := ih j (by simpa using hj) i
          rw [orSelected] at this
          rw [List.getD_cons_succ, ← this]
          simp

theorem list_eq_iff_getD {len : Nat} {l1 l2 : List Bool}
    (h1 : l1.length = len) (h2 : l2.length = len) :
    l1 = l2 ↔ ∀ i, i < len → l1.getD i false = l2.getD i false := by
  constructor
  · intro h i _
    rw [h]
  · intro h
    apply List.ext_getElem (by omega)
    intro i hi1 hi2
    have e1 : l1[i] = l1.getD i false := by
      rw [List.getD_eq_getElem?_getD, List.getElem?_eq_getElem hi1]
      rfl
    have e2 : l2[i] = l2.getD i false := by
      rw [List.getD_eq_getElem?_getD, List.getElem?_eq_getElem hi2]
      rfl
    rw [e1, e2]
    exact h i (by omega)

theorem countP_flatMap {α β : Type} (l : List α) (f : α → List β) (p : β → Bool) :
    (l.flatMap f).countP p = (l.map fun a => (f a).countP p).sum := by
  induction l with
  | nil => rfl
  | cons a t ih =>
      rw [List.flatMap_cons, List.countP_append, List.map_cons, List.sum_cons, ih]

theorem sum_ite_count {α : Type} (p : α → Bool) (cnt : Nat) :
    ∀ (xs : List α),
    (xs.map fun x => if p x then cnt else 0).sum = xs.countP p * cnt := by
  intro xs
  induction xs with
  | nil => simp
  | cons a t ih =>
      rw [List.map_cons, List.sum_cons, ih, List.countP_cons]
      rcases hp : p a with _ | _
      · simp [hp]
      · simp only [hp, if_true, Nat.add_mul, Nat.one_mul]
        omega

theorem countP_unique {α : Type} [DecidableEq α] {l : List α} (hnd : l.Nodup)
    {x : α} (hx : x ∈ l) {p : α → Bool} (hp : ∀ a ∈ l, p a = true ↔ a = x) :
    l.countP p = 1 := by
  have h1 : l.countP p = l.countP (· == x) := by
    apply List.countP_congr
    intro a ha
    rw [hp a ha, beq_iff_eq]
  rw [h1, ← List.count_eq_countP, List.count_eq_one_of_mem hnd hx]

theorem getD_inj_of_nodup {α : Type} {l : List α} (hnd : l.Nodup) {i j : Nat}
    (hi : i < l.length) (hj : j < l.length) (d : α) (h : l.getD i d = l.getD j d) :
    i = j := by
  have e1 : l.getD i d = l[i] := by
    rw [List.getD_eq_getElem?_getD, List.getElem?_eq_getElem hi]
    rfl
  have e2 : l.getD j d = l[j] := by
    rw [List.getD_eq_getElem?_getD, List.getElem?_eq_getElem hj]
    rfl
  rw [e1, e2] at h
  exact (List.Nodup.getElem_inj_iff hnd).mp h

theorem selSpace_of_two {clues : List Nat} {len : Nat}
    (h : 2 ≤ (generateArrangements clues len).length) :
    selSpace clues len =
      tuples [false, true] (generateArrangements clues len).length := by
  rw [selSpace]
  have h1 : selLen clues len = (generateArrangements clues len).length := by
    show (if (generateArrangements clues len).length ≤ 1 then 0
      else (generateArrangements clues len).length) = _
    rw [if_neg (by omega)]
  rw [h1]

theorem encCell_indicator {arrs : List (List Bool)} {j : Nat} (hj : j < arrs.length)
    (lv : List Bool) (i : Nat) :
    ((if arrs.countP (fun a => a.getD i false) = 0 then !(lv.getD i false)
      else if arrs.countP (fun a => a.getD i false) = arrs.length then lv.getD i false
      else lv.getD i false == orSelected (indicatorSel arrs.length j) arrs i) = true)
    ↔ lv.getD i false = (arrs.getD j []).getD i false := by
  by_cases h0 : arrs.countP (fun a => a.getD i false) = 0
  · rw [if_pos h0]
    have hjfalse : (arrs.getD j []).getD i false = false := by
      have := List.countP_eq_zero.mp h0 _ (getD_mem hj [])
      simpa using this
    rw [hjfalse]
    cases hlvi : lv.getD i false <;> simp
  · rw [if_neg h0]
    by_cases hall : arrs.countP (fun a => a.getD i false) = arrs.length
    · rw [if_pos hall]
      have hjtrue : (arrs.getD j []).getD i false = true := by
        have := List.countP_eq_length.mp hall _ (getD_mem hj [])
        simpa using this
      rw [hjtrue]
    · rw [if_neg hall, orSelected_indicator arrs j hj i]
      exact beq_iff_eq

theorem lineSat_count {clues : List Nat} {len : Nat} {lv : List Bool}
    (hv : ValidClues clues) (hlv : lv.length = len) :
    (selSpace clues len).countP (lineEncSat clues len lv) =
      if lv ∈ generateArrangements clues len then 1 else 0 := by
  rcases harrs : generateArrangements clues len with _ | ⟨a, rest⟩
  · have hz : (selSpace clues len).countP (lineEncSat clues len lv) = 0 := by
      rw [List.countP_eq_zero]
      intro sel _
      rw [lineEncSat, harrs]
      simp
    rw [hz, if_neg (by simp)]
  · rcases rest with _ | ⟨b, rest2⟩
    · have ha : a ∈ generateArrangements clues len := by
        rw [harrs]
        exact List.mem_singleton_self a
      have halen : a.length = len := generateArrangements_length ha
      have hsel : selSpace clues len = [[]] := by
        rw [selSpace]
        have h1 : selLen clues len = 0 := by
          show (if (generateArrangements clues len).length ≤ 1 then 0
            else (generateArrangements clues len).length) = 0
          rw [harrs]
          simp
        rw [h1]
        rfl
      have henc : lineEncSat clues len lv [] = true ↔ lv = a := by
        rw [lineEncSat, harrs]
        rw [List.all_eq_true]
        constructor
        · intro h
          rw [list_eq_iff_getD hlv halen]
          intro i hi
          have := h i (List.mem_range.mpr hi)
          simpa using this
        · intro h i hi
          rw [h]
          simp
      rw [hsel, List.countP_cons, List.countP_nil, Nat.zero_add]
      by_cases heq : lv = a
      · rw [if_pos (henc.mpr heq),
          if_pos (by rw [heq]; exact List.mem_singleton_self a)]
      · rw [if_neg (fun hc => heq (henc.mp hc)), if_neg (by simpa using heq)]
    · have hk2 : 2 ≤ (generateArrangements clues len).length := by
        rw [harrs, List.length_cons, List.length_cons]
        omega
      have hnd : (a :: b :: rest2).Nodup := by
        rw [← harrs]
        exact generateArrangements_nodup len hv
      have hchar : ∀ sel ∈ tuples [false, true] (a :: b :: rest2).length,
          (lineEncSat clues len lv sel = true ↔
            ∃ j, j < (a :: b :: rest2).length ∧
              sel = indicatorSel (a :: b :: rest2).length j ∧
              (a :: b :: rest2).getD j [] = lv) := by
        intro sel hselmem
        have hsellen : sel.length = (a :: b :: rest2).length :=
          ((mem_tuples _ _ _).mp hselmem).1
        rw [lineEncSat, harrs, Bool.and_eq_true, List.all_eq_true]
        constructor
        · intro ⟨hone, hcond⟩
          obtain ⟨j, hj, hind⟩ := exactlyOneB_iff.mp hone
          rw [hsellen] at hj hind
          refine ⟨j, hj, hind, ?_⟩
          have hjlen : ((a :: b :: rest2).getD j []).length = len :=
            generateArrangements_length (by rw [harrs]; exact getD_mem hj [])
          rw [list_eq_iff_getD hjlen hlv]
          intro i hi
          have hci := hcond i (List.mem_range.mpr hi)
          rw [hind] at hci
          exact ((encCell_indicator hj lv i).mp hci).symm
        · intro ⟨j, hj, hind, hjeq⟩
          refine ⟨?_, ?_⟩
          · rw [hind]
            apply exactlyOneB_iff.mpr
            exact ⟨j, by rw [indicatorSel_length]; exact hj,
              by rw [indicatorSel_length]⟩
          · intro i hi
            rw [List.mem_range] at hi
            rw [hind]
            apply (encCell_indicator hj lv i).mpr
            rw [hjeq]
      rw [selSpace_of_two hk2, harrs]
      by_cases hmem : lv ∈ (a :: b :: rest2)
      · rw [if_pos hmem]
        obtain ⟨j0, hj0, hj0eq⟩ := List.mem_iff_getElem.mp hmem
        have hgetd : (a :: b :: rest2).getD j0 [] = lv := by
          rw [List.getD_eq_getElem?_getD, List.getElem?_eq_getElem hj0]
          exact hj0eq
        apply countP_unique (tuples_nodup (by decide) _) indicatorSel_mem_tuples
        intro sel hselmem
        rw [hchar sel hselmem]
        constructor
        · intro ⟨j, hj, hind, hjeq⟩
          have hj0' : j = j0 :=
            getD_inj_of_nodup hnd hj hj0 [] (hjeq.trans hgetd.symm)
          rw [hind, hj0']
        · intro h
          exact ⟨j0, hj0, h, hgetd⟩
      · rw [if_neg hmem, List.countP_eq_zero]
        intro sel hselmem
        rw [hchar sel hselmem]
        rintro ⟨j, hj, _, hjeq⟩
        apply hmem
        rw [← hjeq]
        exact getD_mem hj []

theorem satAll_piSpace_count :
    ∀ (preds : List (List Bool → Bool)) (spaces : List (List (List Bool))),
    preds.length = spaces.length →
    (piSpace spaces).countP (satAll preds) =
      ((List.zip preds spaces).map fun p => p.2.countP p.1).prod := by
  intro preds
  induction preds with
  | nil =>
      intro spaces hlen
      have hnil : spaces = [] :=
        List.eq_nil_of_length_eq_zero (by simpa using hlen.symm)
      subst hnil
      rfl
  | cons p ps ih =>
      intro spaces hlen
      cases spaces with
      | nil => simp at hlen
      | cons xs rest =>
          rw [piSpace, countP_flatMap]
          have hinner : ∀ x, (((piSpace rest).map (x :: ·)).countP (satAll (p :: ps))) =
              if p x then (piSpace rest).countP (satAll ps) else 0 := by
            intro x
            rw [List.countP_map]
            have hfn : (satAll (p :: ps) ∘ (x :: ·)) =
                fun s => p x && satAll ps s := by
              funext s
              rfl
            rw [hfn]
            rcases hx : p x with _ | _
            · simp
            · simp
          have hmap : (xs.map fun x =>
                (((piSpace rest).map (x :: ·)).countP (satAll (p :: ps)))) =
              xs.map fun x => if p x then (piSpace rest).countP (satAll ps) else 0 :=
            List.map_congr_left fun x _ => hinner x
          rw [hmap, sum_ite_count, ih rest (by simpa using hlen),
            List.zip_cons_cons, List.map_cons, List.prod_cons]

theorem prod_map_ite {α : Type} (l : List α) (p : α → Bool) :
    (l.map fun a => if p a then 1 else 0).prod = if l.all p then 1 else 0 := by
  induction l with
  | nil => rfl
  | cons a t ih =>
      rw [List.map_cons, List.prod_cons, ih, List.all_cons]
      rcases hp : p a with _ | _ <;> simp [hp]

theorem rowCount_eq {rowClues : List (List Nat)} {n : Nat}
    (hv : ∀ r, r < n → ValidClues (rowClues.getD r []))
    {cells : List (List Bool)} (hcells : cells ∈ allGrids n) :
    (piSpace (rowSelSpaces rowClues n)).countP (satAll (rowPreds rowClues n cells)) =
      if (List.range n).all (fun r =>
        decide (cells.getD r [] ∈ generateArrangements (rowClues.getD r []) n))
      then 1 else 0 := by
  rw [rowPreds, rowSelSpaces,
    satAll_piSpace_count _ _ (by rw [List.length_map, List.length_map]),
    List.zip_map', List.map_map]
  have hcong : ∀ r ∈ List.range n,
      (((fun p => p.2.countP p.1) ∘ fun r =>
        (lineEncSat (rowClues.getD r []) n (cells.getD r []),
          selSpace (rowClues.getD r []) n)) r) =
      (fun r => if (decide (cells.getD r [] ∈
          generateArrangements (rowClues.getD r []) n) : Bool)
        then (1 : Nat) else 0) r := by
    intro r hr
    rw [List.mem_range] at hr
    show (selSpace (rowClues.getD r []) n).countP
        (lineEncSat (rowClues.getD r []) n (cells.getD r [])) = _
    rw [lineSat_count (hv r hr) (sol_row_len hcells hr)]
    by_cases hm : cells.getD r [] ∈ generateArrangements (rowClues.getD r []) n
    · rw [if_pos hm]
      show (1 : Nat) = if (decide (cells.getD r [] ∈
          generateArrangements (rowClues.getD r []) n) : Bool) then 1 else 0
      rw [if_pos (by simpa using hm)]
    · rw [if_neg hm]
      show (0 : Nat) = if (decide (cells.getD r [] ∈
          generateArrangements (rowClues.getD r []) n) : Bool) then 1 else 0
      rw [if_neg (by simpa using hm)]
  rw [List.map_congr_left hcong, prod_map_ite]

theorem colCount_eq {colClues : List (List Nat)} {n : Nat}
    (hv : ∀ c, c < n → ValidClues (colClues.getD c []))
    {cells : List (List Bool)} (hcells : cells ∈ allGrids n) :
    (piSpace (colSelSpaces colClues n)).countP (satAll (colPreds colClues n cells)) =
      if (List.range n).all (fun c =>
        decide (bcol cells c ∈ generateArrangements (colClues.getD c []) n))
      then 1 else 0 := by
  rw [colPreds, colSelSpaces,
    satAll_piSpace_count _ _ (by rw [List.length_map, List.length_map]),
    List.zip_map', List.map_map]
  have hcong : ∀ c ∈ List.range n,
      (((fun p => p.2.countP p.1) ∘ fun c =>
        (lineEncSat (colClues.getD c []) n (bcol cells c),
          selSpace (colClues.getD c []) n)) c) =
      (fun c => if (decide (bcol cells c ∈
          generateArrangements (colClues.getD c []) n) : Bool)
        then (1 : Nat) else 0) c := by
    intro c hc
    rw [List.mem_range] at hc
    show (selSpace (colClues.getD c []) n).countP
        (lineEncSat (colClues.getD c []) n (bcol cells c)) = _
    have hblen : (bcol cells c).length = n := by
      rw [bcol, List.length_map, (mem_allGrids.mp hcells).1]
    rw [lineSat_count (hv c hc) hblen]
    by_cases hm : bcol cells c ∈ generateArrangements (colClues.getD c []) n
    · rw [if_pos hm]
      show (1 : Nat) = if (decide (bcol cells c ∈
          generateArrangements (colClues.getD c []) n) : Bool) then 1 else 0
      rw [if_pos (by simpa using hm)]
    · rw [if_neg hm]
      show (0 : Nat) = if (decide (bcol cells c ∈
          generateArrangements (colClues.getD c []) n) : Bool) then 1 else 0
      rw [if_neg (by simpa using hm)]
  rw [List.map_congr_left hcong, prod_map_ite]

theorem modelCount_eq {rowClues colClues : List (List Nat)} {n : Nat}
    (hrv : ∀ r, r < n → ValidClues (rowClues.getD r []))
    (hcv : ∀ c, c < n → ValidClues (colClues.getD c [])) :
    modelCount rowClues colClues n = numSolutions rowClues colClues n := by
  rw [modelCount, allAssignments, countP_flatMap]
  have hinner : ∀ cells ∈ allGrids n,
      ((((piSpace (rowSelSpaces rowClues n)).flatMap fun sr =>
        (piSpace (colSelSpaces colClues n)).map fun sc => (cells, sr, sc)).countP
          (satisfiesEnc rowClues colClues n))) =
      if isSolution rowClues colClues n cells then 1 else 0 := by
    intro cells hcells
    rw [countP_flatMap]
    have hsc : ∀ sr : List (List Bool),
        (((piSpace (colSelSpaces colClues n)).map fun sc =>
            ((cells, sr, sc) : SatAssignment)).countP
          (satisfiesEnc rowClues colClues n)) =
        if satAll (rowPreds rowClues n cells) sr
        then (piSpace (colSelSpaces colClues n)).countP
          (satAll (colPreds colClues n cells))
        else 0 := by
      intro sr
      rw [List.countP_map]
      have hfn : (satisfiesEnc rowClues colClues n ∘ fun sc =>
          ((cells, sr, sc) : SatAssignment)) =
          fun sc => satAll (rowPreds rowClues n cells) sr &&
            satAll (colPreds colClues n cells) sc := by
        funext sc
        rfl
      rw [hfn]
      rcases hsr : satAll (rowPreds rowClues n cells) sr with _ | _
      · simp
      · simp
    rw [List.map_congr_left fun sr _ => hsc sr, sum_ite_count,
      rowCount_eq hrv hcells, colCount_eq hcv hcells]
    have hrow_all : ((List.range n).all fun r =>
        decide (cells.getD r [] ∈ generateArrangements (rowClues.getD r []) n)) =
        ((List.range n).all fun r =>
          getCluesFromLine (cells.getD r []) == rowClues.getD r []) := by
      apply all_congr_mem
      intro r hr
      rw [List.mem_range] at hr
      apply bool_eq_of_iff
      rw [decide_eq_true_eq, beq_iff_eq]
      exact mem_generateArrangements_iff (hrv r hr) (sol_row_len hcells hr)
    have hcol_all : ((List.range n).all fun c =>
        decide (bcol cells c ∈ generateArrangements (colClues.getD c []) n)) =
        ((List.range n).all fun c =>
          getCluesFromLine (bcol cells c) == colClues.getD c []) := by
      apply all_congr_mem
      intro c hc
      rw [List.mem_range] at hc
      apply bool_eq_of_iff
      rw [decide_eq_true_eq, beq_iff_eq]
      have hblen : (bcol cells c).length = n := by
        rw [bcol, List.length_map, (mem_allGrids.mp hcells).1]
      exact mem_generateArrangements_iff (hcv c hc) hblen
    rw [hrow_all, hcol_all]
    rw [isSolution]
    rcases h1 : ((List.range n).all fun r =>
        getCluesFromLine (cells.getD r []) == rowClues.getD r []) with _ | _ <;>
      rcases h2 : ((List.range n).all fun c =>
        getCluesFromLine (bcol cells c) == colClues.getD c []) with _ | _ <;>
      simp
  rw [List.map_congr_left hinner, sum_ite_count, numSolutions,
    ← List.countP_eq_length_filter]
  omega

/-- C3: for every clue set whose row and column clue sequences are valid
(`[0]` or nonempty positive runs, the ClueSequence data model), the SAT
count and the backtracking count agree on every grid size: they are equal,
both are 1 exactly when the puzzle has a unique solution, and both are 2
exactly when it has two or more solutions. -/
theorem claim_sat_agrees (rowClues colClues : List (List Nat)) (n : Nat)
    (hrv : ∀ r, r < n → ValidClues (rowClues.getD r []))
    (hcv : ∀ c, c < n → ValidClues (colClues.getD c [])) :
    countSolutionsSAT rowClues colClues n = countSolutions rowClues colClues n ∧
    (countSolutionsSAT rowClues colClues n = 1 ↔
      numSolutions rowClues colClues n = 1) ∧
    (countSolutionsSAT rowClues colClues n = 2 ↔
      2 ≤ numSolutions rowClues colClues n) := by
  have h1 : countSolutionsSAT rowClues colClues n =
      min (numSolutions rowClues colClues n) 2 := by
    rw [countSolutionsSAT, modelCount_eq hrv hcv]
  refine ⟨?_, ?_, ?_⟩
  · rw [h1, countSolutions_eq_min, natMin_eq_min]
  · rw [h1]
    omega
  · rw [h1]
    omega

theorem claim_sat_agrees_witness :
    (∀ r, r < 1 → ValidClues (([[1]] : List (List Nat)).getD r [])) ∧
    (∀ c, c < 1 → ValidClues (([[1]] : List (List Nat)).getD c [])) ∧
    (countSolutionsSAT [[1]] [[1]] 1 = countSolutions [[1]] [[1]] 1 ∧
      (countSolutionsSAT [[1]] [[1]] 1 = 1 ↔ numSolutions [[1]] [[1]] 1 = 1) ∧
      (countSolutionsSAT [[1]] [[1]] 1 = 2 ↔ 2 ≤ numSolutions [[1]] [[1]] 1)) := by
  have hrv : ∀ r, r < 1 → ValidClues (([[1]] : List (List Nat)).getD r []) := by
    intro r hr
    interval_cases r
    show ValidClues [1]
    right
    refine ⟨by simp, ?_⟩
    intro x hx
    rw [List.mem_singleton] at hx
    omega
  exact ⟨hrv, hrv, claim_sat_agrees [[1]] [[1]] 1 hrv hrv⟩

theorem getCluesFromLine_of_any {line : List Bool} (h : line.any id = true) :
    getCluesFromLine line ≠ [] ∧ getCluesFromLine line ≠ [0] ∧
    (∀ x ∈ getCluesFromLine line, 0 < x) := by
  have hnn : cluesAux line 0 ≠ [] := by
    intro hc
    have hrep := eq_replicate_false_of_cluesAux_nil line hc
    rw [hrep] at h
    simp [List.any_eq_true] at h
  have heq : getCluesFromLine line = cluesAux line 0 := by
    rw [getCluesFromLine]
    exact if_neg hnn
  rw [heq]
  have hp : ∀ x ∈ cluesAux line 0, 0 < x := cluesAux_pos line 0
  exact ⟨hnn, pos_ne_sentinel hnn hp, hp⟩

theorem two_arrs_of_minSpace {cl : List Nat} {n : Nat}
    (hne : cl ≠ []) (hp : ∀ x ∈ cl, 0 < x) (hsp : minSpaceForClues cl < n) :
    2 ≤ (generateArrangements cl n).length := by
  have h0 : cl ≠ [0] := pos_ne_sentinel hne hp
  obtain ⟨c0, rest, rfl⟩ := List.exists_cons_of_ne_nil hne
  have hc0 : 0 < c0 := hp c0 (List.mem_cons_self c0 rest)
  rw [minSpace_cons c0 rest h0] at hsp
  rw [generateArrangements_eq_tails h0]
  exact gen_two_of_space hc0 hsp

theorem getD_set_list {α : Type} (l : List α) (i : Nat) (x : α) (j : Nat) (d : α) :
    (l.set i x).getD j d =
      if i = j ∧ i < l.length then x else l.getD j d := by
  rw [List.getD_eq_getElem?_getD, List.getElem?_set]
  by_cases hij : i = j
  · subst hij
    by_cases hil : i < l.length
    · rw [if_pos rfl, if_pos hil, if_pos ⟨rfl, hil⟩]
      rfl
    · rw [if_pos rfl, if_neg hil, if_neg (by tauto), List.getD_eq_getElem?_getD,
        List.getElem?_eq_none (by omega)]
  · rw [if_neg hij, if_neg (by tauto), List.getD_eq_getElem?_getD]

theorem set_true_any {l : List Bool} {j : Nat} (hj : j < l.length) :
    (l.set j true).any id = true := by
  rw [List.any_eq_true]
  refine ⟨(l.set j true).getD j false,
    getD_mem (by rw [List.length_set]; exact hj) false, ?_⟩
  rw [getD_set_list, if_pos ⟨rfl, hj⟩]
  rfl

theorem fillEmptyRows_spec {pick : Nat → Nat} {g : List (List Bool)} {n : Nat}
    (hglen : g.length = n) (hlen : ∀ row ∈ g, row.length = n)
    (hpick : ∀ r, pick r < n) :
    (fillEmptyRows pick g).length = n ∧
    ∀ row ∈ fillEmptyRows pick g, row.length = n ∧ row.any id = true := by
  constructor
  · rw [fillEmptyRows, List.length_map, List.length_range, hglen]
  · intro row hrow
    rw [fillEmptyRows, List.mem_map] at hrow
    obtain ⟨r, hr, heq⟩ := hrow
    rw [List.mem_range] at hr
    subst heq
    have hgr : g.getD r [] ∈ g := getD_mem hr []
    have hrl : (g.getD r []).length = n := hlen _ hgr
    show ((if (g.getD r []).any id then g.getD r []
      else (g.getD r []).set (pick r) true).length = n ∧
      (if (g.getD r []).any id then g.getD r []
        else (g.getD r []).set (pick r) true).any id = true)
    by_cases hany : (g.getD r []).any id = true
    · rw [if_pos hany]
      exact ⟨hrl, hany⟩
    · rw [if_neg hany]
      exact ⟨by rw [List.length_set, hrl],
        set_true_any (by rw [hrl]; exact hpick r)⟩

theorem setTrue_rows {g : List (List Bool)} {n : Nat}
    (hrows : ∀ row ∈ g, row.length = n ∧ row.any id = true) {c : Nat} (hc : c < n)
    (r : Nat) (hr : r < g.length) :
    ∀ row ∈ setTrue g r c, row.length = n ∧ row.any id = true := by
  intro row hrow
  rcases List.mem_or_eq_of_mem_set hrow with hmem | heq
  · exact hrows _ hmem
  · subst heq
    have hold := hrows _ (getD_mem hr [])
    refine ⟨by rw [List.length_set]; exact hold.1, ?_⟩
    exact set_true_any (by rw [hold.1]; exact hc)

theorem setTrue_col_mono {g : List (List Bool)} (r c : Nat) {c2 : Nat}
    (h : (g.any fun row => row.getD c2 false) = true) :
    ((setTrue g r c).any fun row => row.getD c2 false) = true := by
  rw [List.any_eq_true] at h
  obtain ⟨row, hrow, hval⟩ := h
  obtain ⟨i, hi, rfl⟩ := List.mem_iff_getElem.mp hrow
  rw [List.any_eq_true]
  by_cases hir : i = r
  · subst hir
    refine ⟨(setTrue g i c).getD i [], getD_mem (by rw [setTrue, List.length_set]; exact hi) [], ?_⟩
    have hrowD : g[i] = g.getD i [] := by
      rw [List.getD_eq_getElem?_getD, List.getElem?_eq_getElem hi]
      rfl
    rw [setTrue, getD_set_list]
    rw [if_pos ⟨rfl, hi⟩]
    rw [getD_set_list]
    by_cases hcc : c = c2
    · subst hcc
      by_cases hclen : c < (g.getD i []).length
      · rw [if_pos ⟨rfl, hclen⟩]
      · rw [if_neg (by tauto), ← hrowD]
        exact hval
    · rw [if_neg (by tauto), ← hrowD]
      exact hval
  · refine ⟨(setTrue g r c).getD i [], getD_mem (by rw [setTrue, List.length_set]; exact hi) [], ?_⟩
    rw [setTrue, getD_set_list, if_neg (by tauto)]
    have hrowD : g[i] = g.getD i [] := by
      rw [List.getD_eq_getElem?_getD, List.getElem?_eq_getElem hi]
      rfl
    rw [← hrowD]
    exact hval

theorem setTrue_col_new {g : List (List Bool)} {n : Nat}
    (hrows : ∀ row ∈ g, row.length = n) {r c : Nat} (hr : r < g.length)
    (hc : c < n) :
    ((setTrue g r c).any fun row => row.getD c false) = true := by
  rw [List.any_eq_true]
  refine ⟨(setTrue g r c).getD r [], getD_mem (by rw [setTrue, List.length_set]; exact hr) [], ?_⟩
  rw [setTrue, getD_set_list, if_pos ⟨rfl, hr⟩, getD_set_list,
    if_pos ⟨rfl, by rw [hrows _ (getD_mem hr [])]; exact hc⟩]

theorem colStep_props {g : List (List Bool)} {n : Nat} (hg : g.length = n)
    (hrows : ∀ row ∈ g, row.length = n ∧ row.any id = true) {pick : Nat → Nat}
    (hpick : ∀ c, pick c < n) {c : Nat} (hc : c < n) :
    (if g.any (fun row => row.getD c false) then g
      else setTrue g (pick c) c).length = n ∧
    (∀ row ∈ (if g.any (fun row => row.getD c false) then g
      else setTrue g (pick c) c), row.length = n ∧ row.any id = true) ∧
    (∀ c2, (g.any fun row => row.getD c2 false) = true →
      ((if g.any (fun row => row.getD c false) then g
        else setTrue g (pick c) c).any fun row => row.getD c2 false) = true) ∧
    ((if g.any (fun row => row.getD c false) then g
      else setTrue g (pick c) c).any fun row => row.getD c false) = true := by
  by_cases hcol : (g.any fun row => row.getD c false) = true
  · rw [if_pos hcol]
    exact ⟨hg, hrows, fun c2 h => h, hcol⟩
  · rw [if_neg hcol]
    refine ⟨by rw [setTrue, List.length_set]; exact hg, ?_, ?_, ?_⟩
    · exact setTrue_rows hrows hc (pick c) (by rw [hg]; exact hpick c)
    · intro c2 h
      exact setTrue_col_mono (pick c) c h
    · exact setTrue_col_new (fun row hr => (hrows row hr).1)
        (by rw [hg]; exact hpick c) hc

theorem foldCols_spec {pick : Nat → Nat} {n : Nat} (hpick : ∀ c, pick c < n) :
    ∀ (cs : List Nat) (g : List (List Bool)),
    g.length = n → (∀ row ∈ g, row.length = n ∧ row.any id = true) →
    (∀ c ∈ cs, c < n) →
    ((cs.foldl (fun gg c => if gg.any (fun row => row.getD c false) then gg
        else setTrue gg (pick c) c) g).length = n ∧
     (∀ row ∈ cs.foldl (fun gg c => if gg.any (fun row => row.getD c false) then gg
        else setTrue gg (pick c) c) g, row.length = n ∧ row.any id = true) ∧
     (∀ c2, (g.any fun row => row.getD c2 false) = true →
       ((cs.foldl (fun gg c => if gg.any (fun row => row.getD c false) then gg
        else setTrue gg (pick c) c) g).any fun row => row.getD c2 false) = true) ∧
     (∀ c ∈ cs,
       ((cs.foldl (fun gg c => if gg.any (fun row => row.getD c false) then gg
        else setTrue gg (pick c) c) g).any fun row => row.getD c false) = true)) := by
  intro cs
  induction cs with
  | nil =>
      intro g hg hrows _
      exact ⟨hg, hrows, fun c2 h => h, fun c hc => absurd hc (List.not_mem_nil c)⟩
  | cons c cs ih =>
      intro g hg hrows hbound
      rw [List.foldl_cons]
      obtain ⟨s1, s2, s3, s4⟩ :=
        colStep_props hg hrows hpick (hbound c (List.mem_cons_self c cs))
      obtain ⟨i1, i2, i3, i4⟩ :=
        ih _ s1 s2 (fun c2 hc2 => hbound c2 (List.mem_cons_of_mem c hc2))
      refine ⟨i1, i2, ?_, ?_⟩
      · intro c2 h
        exact i3 c2 (s3 c2 h)
      · intro c2 hc2
        rcases List.mem_cons.mp hc2 with rfl | hmem
        · exact i3 c2 s4
        · exact i4 c2 hmem

theorem repairedGrid_spec {att : GenAttempt} {n : Nat}
    (h1 : att.grid.length = n) (h2 : ∀ row ∈ att.grid, row.length = n)
    (h3 : ∀ r, att.rowPick r < n) (h4 : ∀ c, att.colPick c < n) :
    (fillEmptyCols att.colPick n (fillEmptyRows att.rowPick att.grid)).length = n ∧
    (∀ row ∈ fillEmptyCols att.colPick n (fillEmptyRows att.rowPick att.grid),
      row.length = n ∧ row.any id = true) ∧
    (∀ c, c < n →
      ((fillEmptyCols att.colPick n (fillEmptyRows att.rowPick att.grid)).any
        fun row => row.getD c false) = true) := by
  obtain ⟨hf1, hf2⟩ := fillEmptyRows_spec h1 h2 h3
  have hfold := foldCols_spec h4 (List.range n)
    (fillEmptyRows att.rowPick att.grid) hf1 hf2
    (fun c hc => List.mem_range.mp hc)
  rw [fillEmptyCols]
  exact ⟨hfold.1, hfold.2.1, fun c hc => hfold.2.2.2 c (List.mem_range.mpr hc)⟩

theorem rowCluesOf_good {sol : List (List Bool)}
    (hrows : ∀ row ∈ sol, row.any id = true) :
    ∀ cl ∈ rowCluesOf sol, cl ≠ [] ∧ cl ≠ [0] ∧ ∀ x ∈ cl, 0 < x := by
  intro cl hcl
  rw [rowCluesOf, List.mem_map] at hcl
  obtain ⟨row, hrow, rfl⟩ := hcl
  exact getCluesFromLine_of_any (hrows row hrow)

theorem any_map_id {α : Type} (f : α → Bool) : ∀ (l : List α),
    (l.map f).any id = l.any f := by
  intro l
  induction l with
  | nil => rfl
  | cons a t ih =>
      rw [List.map_cons, List.any_cons, List.any_cons, ih]
      rfl

theorem colCluesOf_good {sol : List (List Bool)} {n : Nat}
    (hcols : ∀ c, c < n → (sol.any fun row => row.getD c false) = true) :
    ∀ cl ∈ colCluesOf n sol, cl ≠ [] ∧ cl ≠ [0] ∧ ∀ x ∈ cl, 0 < x := by
  intro cl hcl
  rw [colCluesOf, List.mem_map] at hcl
  obtain ⟨c, hc, rfl⟩ := hcl
  rw [List.mem_range] at hc
  apply getCluesFromLine_of_any
  rw [bcol, any_map_id]
  exact hcols c hc

theorem hasNoCompleteLines_spec {rc cc : List (List Nat)} {n : Nat}
    (h : hasNoCompleteLines rc cc n = true) :
    (∀ cl ∈ rc, minSpaceForClues cl < n) ∧
    (∀ cl ∈ cc, minSpaceForClues cl < n) := by
  rw [hasNoCompleteLines, Bool.and_eq_true, List.all_eq_true, List.all_eq_true] at h
  constructor
  · intro cl hcl
    simpa [hasMultipleArrangements] using h.1 cl hcl
  · intro cl hcl
    simpa [hasMultipleArrangements] using h.2 cl hcl

theorem genLoop_success_spec {inp : GenInput} {n : Nat} {diff : Difficulty}
    (hwf : ∀ i, (inp.attempts i).grid.length = n ∧
      (∀ row ∈ (inp.attempts i).grid, row.length = n) ∧
      (∀ r, (inp.attempts i).rowPick r < n) ∧
      (∀ c, (inp.attempts i).colPick c < n)) :
    ∀ (fuel i : Nat),
    match genLoop inp n diff fuel i with
    | .success p =>
        p.size = n ∧
        (∀ cl ∈ p.rowClues, 1 < (generateArrangements cl n).length) ∧
        (∀ cl ∈ p.colClues, 1 < (generateArrangements cl n).length) ∧
        selectedCount p.rowClues p.colClues n = 1
    | .exhausted _ => True := by
  intro fuel
  induction fuel with
  | zero =>
      intro i
      rw [genLoop]
      trivial
  | succ fuel ih =>
      intro i
      obtain ⟨hw1, hw2, hw3, hw4⟩ := hwf i
      obtain ⟨hs1, hs2, hs3⟩ := repairedGrid_spec hw1 hw2 hw3 hw4
      by_cases h1 : hasNoCompleteLines
          (rowCluesOf (fillEmptyCols (inp.attempts i).colPick n
            (fillEmptyRows (inp.attempts i).rowPick (inp.attempts i).grid)))
          (colCluesOf n (fillEmptyCols (inp.attempts i).colPick n
            (fillEmptyRows (inp.attempts i).rowPick (inp.attempts i).grid))) n = true
      · by_cases h2 : selectedCount
            (rowCluesOf (fillEmptyCols (inp.attempts i).colPick n
              (fillEmptyRows (inp.attempts i).rowPick (inp.attempts i).grid)))
            (colCluesOf n (fillEmptyCols (inp.attempts i).colPick n
              (fillEmptyRows (inp.attempts i).rowPick (inp.attempts i).grid))) n = 1
        · by_cases h3 : minFlowScore diff ≤
              (analyzeInformationFlow
                (rowCluesOf (fillEmptyCols (inp.attempts i).colPick n
                  (fillEmptyRows (inp.attempts i).rowPick (inp.attempts i).grid)))
                (colCluesOf n (fillEmptyCols (inp.attempts i).colPick n
                  (fillEmptyRows (inp.attempts i).rowPick (inp.attempts i).grid)))
                n).metrics.flowScore
          · simp only [genLoop, h1, h2, h3, if_true, if_pos]
            obtain ⟨hnr, hnc⟩ := hasNoCompleteLines_spec h1
            refine ⟨trivial, ?_, ?_, trivial⟩
            · intro cl hcl
              obtain ⟨hne, _, hp⟩ :=
                rowCluesOf_good (fun row hrow => (hs2 row hrow).2) cl hcl
              have := two_arrs_of_minSpace hne hp (hnr cl hcl)
              omega
            · intro cl hcl
              obtain ⟨hne, _, hp⟩ := colCluesOf_good hs3 cl hcl
              have := two_arrs_of_minSpace hne hp (hnc cl hcl)
              omega
          · simp only [genLoop, h1, h2, h3, if_true, if_false]
            exact ih (i + 1)
        · simp only [genLoop, h1, h2, if_true, if_false]
          exact ih (i + 1)
      · simp only [genLoop, h1, if_false]
        exact ih (i + 1)

/-- C4: for well-dimensioned random inputs (each sampled candidate is an
`n × n` grid and each repair pick lands inside the line, as `Math.random`
guarantees in the JS), whenever `generatePuzzle` succeeds from inside its
attempt loop, every row clue and every column clue of the returned puzzle
has more than one arrangement at that size, and the selected solver (SAT
at size at most 10, propagation above) verified a solution count of
exactly 1 for the returned clues. -/
theorem claim_generatePuzzle_success (inp : GenInput) (n : Nat) (diff : Difficulty)
    (hwf : ∀ i, (inp.attempts i).grid.length = n ∧
      (∀ row ∈ (inp.attempts i).grid, row.length = n) ∧
      (∀ r, (inp.attempts i).rowPick r < n) ∧
      (∀ c, (inp.attempts i).colPick c < n)) :
    match generatePuzzle inp n diff with
    | .success p =>
        p.size = n ∧
        (∀ cl ∈ p.rowClues, 1 < (generateArrangements cl n).length) ∧
        (∀ cl ∈ p.colClues, 1 < (generateArrangements cl n).length) ∧
        selectedCount p.rowClues p.colClues n = 1
    | .exhausted _ => True := by
  rw [generatePuzzle]
  exact genLoop_success_spec hwf 100 0

theorem claim_generatePuzzle_success_witness :
    (∀ i : Nat, ((GenInput.mk (fun _ => ⟨[[true]], fun _ => 0, fun _ => 0⟩)
        [[true]]).attempts i).grid.length = 1) ∧
    (match generatePuzzle
        (GenInput.mk (fun _ => ⟨[[true]], fun _ => 0, fun _ => 0⟩) [[true]])
        1 Difficulty.medium with
    | .success p =>
        p.size = 1 ∧
        (∀ cl ∈ p.rowClues, 1 < (generateArrangements cl 1).length) ∧
        (∀ cl ∈ p.colClues, 1 < (generateArrangements cl 1).length) ∧
        selectedCount p.rowClues p.colClues 1 = 1
    | .exhausted _ => True) := by
  have hwf : ∀ i, ((GenInput.mk (fun _ => ⟨[[true]], fun _ => 0, fun _ => 0⟩)
      [[true]]).attempts i).grid.length = 1 ∧
      (∀ row ∈ ((GenInput.mk (fun _ => ⟨[[true]], fun _ => 0, fun _ => 0⟩)
        [[true]]).attempts i).grid, row.length = 1) ∧
      (∀ r, ((GenInput.mk (fun _ => ⟨[[true]], fun _ => 0, fun _ => 0⟩)
        [[true]]).attempts i).rowPick r < 1) ∧
      (∀ c, ((GenInput.mk (fun _ => ⟨[[true]], fun _ => 0, fun _ => 0⟩)
        [[true]]).attempts i).colPick c < 1) := by
    intro i
    refine ⟨rfl, ?_, fun r => Nat.one_pos, fun c => Nat.one_pos⟩
    intro row hrow
    rw [List.mem_singleton] at hrow
    rw [hrow]
    rfl
  exact ⟨fun i => (hwf i).1,
    claim_generatePuzzle_success
      (GenInput.mk (fun _ => ⟨[[true]], fun _ => 0, fun _ => 0⟩) [[true]])
      1 Difficulty.medium hwf⟩

theorem genLoop_total (inp : GenInput) (n : Nat) (diff : Difficulty) :
    ∀ (fuel i : Nat),
    (∃ p, genLoop inp n diff fuel i = .success p) ∨
    genLoop inp n diff fuel i =
      .exhausted ⟨inp.fallbackGrid, rowCluesOf inp.fallbackGrid,
        colCluesOf n inp.fallbackGrid, n, none⟩ := by
  intro fuel
  induction fuel with
  | zero =>
      intro i
      right
      rw [genLoop]
  | succ fuel ih =>
      intro i
      by_cases h1 : hasNoCompleteLines
          (rowCluesOf (fillEmptyCols (inp.attempts i).colPick n
            (fillEmptyRows (inp.attempts i).rowPick (inp.attempts i).grid)))
          (colCluesOf n (fillEmptyCols (inp.attempts i).colPick n
            (fillEmptyRows (inp.attempts i).rowPick (inp.attempts i).grid))) n = true
      · by_cases h2 : selectedCount
            (rowCluesOf (fillEmptyCols (inp.attempts i).colPick n
              (fillEmptyRows (inp.attempts i).rowPick (inp.attempts i).grid)))
            (colCluesOf n (fillEmptyCols (inp.attempts i).colPick n
              (fillEmptyRows (inp.attempts i).rowPick (inp.attempts i).grid))) n = 1
        · by_cases h3 : minFlowScore diff ≤
              (analyzeInformationFlow
                (rowCluesOf (fillEmptyCols (inp.attempts i).colPick n
                  (fillEmptyRows (inp.attempts i).rowPick (inp.attempts i).grid)))
                (colCluesOf n (fillEmptyCols (inp.attempts i).colPick n
                  (fillEmptyRows (inp.attempts i).rowPick (inp.attempts i).grid)))
                n).metrics.flowScore
          · left
            simp only [genLoop, h1, h2, h3, if_true, if_pos]
            exact ⟨_, rfl⟩
          · simp only [genLoop, h1, h2, h3, if_true, if_false]
            exact ih (i + 1)
        · simp only [genLoop, h1, h2, if_true, if_false]
          exact ih (i + 1)
      · simp only [genLoop, h1, if_false]
        exact ih (i + 1)

/-- C8: `generatePuzzle` never fails: it either succeeds inside the
attempt loop, or — after the non-fatal `console.warn` diagnostic modelled
by the `exhausted` constructor — returns the freshly sampled fallback
candidate as a well-formed puzzle record whose row and column clues are
derived from that candidate and whose size field is the requested size. -/
theorem claim_generatePuzzle_exhausted (inp : GenInput) (n : Nat) (diff : Difficulty) :
    (∃ p, generatePuzzle inp n diff = .success p) ∨
    generatePuzzle inp n diff =
      .exhausted ⟨inp.fallbackGrid, rowCluesOf inp.fallbackGrid,
        colCluesOf n inp.fallbackGrid, n, none⟩ := by
  rw [generatePuzzle]
  exact genLoop_total inp n diff 100 0

end Nonogram
